import Mathlib

/-!
# WiSARD weightless classifier (`wisard.go`): embedding and verified properties

The Go package is embedded shallowly.

* A `map[string]int` is a function `String → Option Int` (`none` = key absent), so two
  maps are equal exactly when they hold the same keys with the same values.
* Go `int` is the 64-bit two's-complement integer (`GOARCH` amd64, arm64).  The stored
  counts are the only integers that can leave the range in a network built by
  `NewWiSARD` (one `++` per `Train` call), so `++` on a count is `wrapInt (· + 1)`.  The
  window bounds `r * ramSize` and `r * ramSize + ramSize` stay inside the range
  (`WF.window_int`), and the loop counters stay below a slice length or a window bound,
  so they are plain integers.
* A run-time panic (index out of range, division by zero, a `make` length that is
  negative or over the runtime's limit) is an explicit outcome; `Train` reports the memory state reached when the panic
  happened, because the units it already incremented stay incremented.
* `Predict` starts one goroutine per class and reads the results from a buffered
  channel.  The order in which the results reach the channel is decided by the
  scheduler; it is the explicit argument `order` (a permutation of the class indices).
* `float64(activated)` is compared as an integer: `activated` is at most the length of
  a slice, far below `2^53`, where the conversion is exact.
-/

namespace Wisard

/-! ## Go integers -/

/-- Largest value of Go's 64-bit `int`. -/
def maxInt : Int := 2 ^ 63 - 1

/-- Smallest value of Go's 64-bit `int`. -/
def minInt : Int := -(2 ^ 63)

/-- Two's-complement reduction of a mathematical integer to Go's 64-bit `int`. -/
def wrapInt (x : Int) : Int := (x + 2 ^ 63) % 2 ^ 64 - 2 ^ 63

/-- Rendering of `fmt.Sprintf("%d", v)`: decimal digits, with a leading `-` for a
negative value. -/
def Sprintf (v : Int) : String := toString v

/-! ## RAMNode -/

/-- Go `type RAMNode struct { memory map[string]int }`. -/
structure RAMNode where
  memory : String → Option Int

/-- Go `NewRAMNode`: a node over an empty map. -/
def NewRAMNode : RAMNode := ⟨fun _ => none⟩

/-- Go map read `ram.memory[address]` as a value: the stored count, `0` for an absent
key; nothing is inserted. -/
def RAMNode.count (ram : RAMNode) (address : String) : Int :=
  (ram.memory address).getD 0

/-- Go `RAMNode.Train`: `ram.memory[address]++`. -/
def RAMNode.Train (ram : RAMNode) (address : String) : RAMNode :=
  ⟨fun k => if k = address then some (wrapInt (ram.count address + 1)) else ram.memory k⟩

/-- Go `RAMNode.Predict`: `return ram.memory[address] > 0`, paired with the node after
the call. -/
def RAMNode.Predict (ram : RAMNode) (address : String) : RAMNode × Bool :=
  (ram, decide (ram.count address > 0))

/-- A node after a sequence of `Train` calls, first address first. -/
def RAMNode.trainAll (ram : RAMNode) (addresses : List String) : RAMNode :=
  addresses.foldl RAMNode.Train ram

/-! ## WiSARD -/

/-- Go `type WiSARD struct`; `ramNodes[class][ram]`.  Every unit is allocated separately
by `NewWiSARD`, so the pointers do not alias and the units are held by value. -/
structure WiSARD where
  ramNodes : List (List RAMNode)
  inputSize : Int
  ramSize : Int
  numClasses : Int

/-- Largest allocation the Go runtime accepts on the 64-bit targets (`maxAlloc` of
`runtime/malloc.go`: `2^48` bytes). -/
def maxAlloc : Int := 2 ^ 48

/-- Whether Go `make([]T, len)` panics (`makeslice: len out of range`) for elements of
`size` bytes: `runtime.makeslice` rejects a negative length and a length whose
`size * len` bytes exceed `maxAlloc`. -/
def makePanics (size len : Int) : Bool :=
  decide (len < 0 ∨ maxAlloc < size * len)

/-- Go `NewWiSARD`.  `none` is a panic: division by zero, or a `make` that
`runtime.makeslice` rejects (`make([][]*RAMNode, numClasses)` has 24-byte elements, the
slice headers; `make([]*RAMNode, numRAMs)`, run once per class, has 8-byte elements, the
pointers).  Go's `/` truncates toward zero and wraps `minInt / -1`.  Running out of
physical memory for a length that `makeslice` accepts ends the program with a fatal
error, not a panic, and is outside the model. -/
def NewWiSARD (inputSize ramSize numClasses : Int) : Option WiSARD :=
  if ramSize = 0 then none
  else
    let numRAMs := wrapInt (Int.tdiv inputSize ramSize)
    if makePanics 24 numClasses then none
    else if 0 < numClasses ∧ makePanics 8 numRAMs then none
    else some
      { ramNodes := List.replicate numClasses.toNat (List.replicate numRAMs.toNat NewRAMNode)
        inputSize := inputSize
        ramSize := ramSize
        numClasses := numClasses }

/-- Go slice read `input[i]`; `none` is the index-out-of-range panic. -/
def index (input : List Int) (i : Int) : Option Int :=
  if i < 0 then none else input[i.toNat]?

/-- The inner loop `for i := start; i < end; i++ { address += Sprintf("%d", input[i]) }`
with `n` iterations left, at index `i`, with the address built so far. -/
def addressLoop (input : List Int) : Nat → Int → String → Option String
  | 0, _, address => some address
  | n + 1, i, address =>
    match index input i with
    | none => none
    | some v => addressLoop input n (i + 1) (address ++ Sprintf v)

/-- The address of the window `[start, end)`: `address := ""` followed by the inner
loop, which runs `end - start` times (not at all when `end <= start`). -/
def buildAddress (input : List Int) (start end_ : Int) : Option String :=
  addressLoop input (end_ - start).toNat start ""

/-- The address built for partition `r`: `start := r * ramSize`, `end := start + ramSize`. -/
def partitionAddress (ramSize : Int) (input : List Int) (r : Nat) : Option String :=
  buildAddress input ((r : Int) * ramSize) ((r : Int) * ramSize + ramSize)

/-- How a call ended. -/
inductive Status where
  | done
  | panicked
  deriving DecidableEq

/-- The loop of `WiSARD.Train` over the units of one bank, from partition `r` on, the
list being the units `r, r+1, ...`.  On a panic the units already trained keep their
new count and the rest are left as they were. -/
def trainLoop (ramSize : Int) (input : List Int) : Nat → List RAMNode → List RAMNode × Status
  | _, [] => ([], Status.done)
  | r, ram :: rest =>
    match partitionAddress ramSize input r with
    | none => (ram :: rest, Status.panicked)
    | some address =>
      let next := trainLoop ramSize input (r + 1) rest
      (ram.Train address :: next.1, next.2)

/-- Go `WiSARD.Train`.  `w.ramNodes[class]` panics for a class outside the slice before
anything is written. -/
def WiSARD.Train (w : WiSARD) (input : List Int) (cls : Int) : WiSARD × Status :=
  if cls < 0 then (w, Status.panicked)
  else
    match w.ramNodes[cls.toNat]? with
    | none => (w, Status.panicked)
    | some bank =>
      let next := trainLoop w.ramSize input 0 bank
      ({ w with ramNodes := w.ramNodes.set cls.toNat next.1 }, next.2)

/-- The network after a sequence of `Train` calls `(input, class)`, first call first,
each call leaving the state it reached. -/
def WiSARD.trainAll (w : WiSARD) (samples : List (List Int × Int)) : WiSARD :=
  samples.foldl (fun net sample => (net.Train sample.1 sample.2).1) w

/-- Go `activationResult`, with the activation as an integer. -/
structure activationResult where
  cls : Int
  activation : Int
  deriving DecidableEq

/-- The loop of one goroutine of `WiSARD.Predict` over the units of its bank, from
partition `r` on, with the running value of `activated`.  `none` is a panic. -/
def activationLoop (ramSize : Int) (input : List Int) (bleach : Int) :
    Nat → List RAMNode → Int → Option Int
  | _, [], activated => some activated
  | r, ram :: rest, activated =>
    match partitionAddress ramSize input r with
    | none => none
    | some address =>
      activationLoop ramSize input bleach (r + 1) rest
        (if ram.count address ≥ bleach then activated + 1 else activated)

/-- The goroutine started for class `c`: the result it sends, or `none` when it
panics. -/
def goroutine (w : WiSARD) (input : List Int) (bleach : Int) (c : Nat) :
    Option activationResult :=
  match w.ramNodes[c]? with
  | none => none
  | some bank =>
    match activationLoop w.ramSize input bleach 0 bank 0 with
    | none => none
    | some activated => some ⟨(c : Int), activated⟩

/-- The results in the channel, in the order `order` in which the goroutines send them;
`none` when a goroutine panics (the program stops). -/
def runGoroutines (w : WiSARD) (input : List Int) (bleach : Int) :
    List Nat → Option (List activationResult)
  | [] => some []
  | c :: rest =>
    match goroutine w input bleach c, runGoroutines w input bleach rest with
    | some result, some results => some (result :: results)
    | _, _ => none

/-- The receiving loop of `WiSARD.Predict` over the results still to be read, with the
running `maxActivation` and `predicted`. -/
def receiveLoop : List activationResult → Int → Int → Int
  | [], _, predicted => predicted
  | result :: rest, maxActivation, predicted =>
    if result.activation > maxActivation then receiveLoop rest result.activation result.cls
    else receiveLoop rest maxActivation predicted

/-- The threshold of `WiSARD.Predict`: `1`, or the first variadic argument. -/
def bleachOf (bleaching : List Int) : Int :=
  match bleaching with
  | [] => 1
  | b :: _ => b

/-- Go `WiSARD.Predict(input, bleaching...)` under the delivery order `order` of the
goroutine results: the network after the call and the returned class (`none` when a
goroutine panics).  No statement of the function writes to the network. -/
def WiSARD.Predict (w : WiSARD) (input : List Int) (bleaching : List Int) (order : List Nat) :
    WiSARD × Option Int :=
  match runGoroutines w input (bleachOf bleaching) order with
  | none => (w, none)
  | some results => (w, some (receiveLoop results (-1) (-1)))

/-- The possible delivery orders of a `Predict` call: one result per class
`0 .. numClasses-1`, in any order. -/
def IsDelivery (w : WiSARD) (order : List Nat) : Prop :=
  order.Perm (List.range w.numClasses.toNat)

/-! ## Observations of a network -/

/-- The unit `ramNodes[c][r]`, when both indices are in range. -/
def WiSARD.unit (w : WiSARD) (c r : Nat) : Option RAMNode :=
  (w.ramNodes[c]?).bind (fun bank => bank[r]?)

/-- The map entry of `address` in `ramNodes[c][r]` (`none`: absent, or no such unit). -/
def WiSARD.entry (w : WiSARD) (c r : Nat) (address : String) : Option Int :=
  (w.unit c r).bind (fun ram => ram.memory address)

/-- The count of `address` in `ramNodes[c][r]` (`0` when absent). -/
def WiSARD.count (w : WiSARD) (c r : Nat) (address : String) : Int :=
  (w.entry c r address).getD 0

/-- Number of units in the bank of class `c`: `len(w.ramNodes[c])`. -/
def WiSARD.numRAMs (w : WiSARD) (c : Nat) : Nat :=
  ((w.ramNodes[c]?).getD []).length

/-- The address of partition `r` of `input` (the empty string when the window cannot
be read). -/
def WiSARD.address (w : WiSARD) (input : List Int) (r : Nat) : String :=
  (partitionAddress w.ramSize input r).getD ""

/-- Activation score of class `c` as the specification words it: the number of
partitions `r` in `[0, numRAMs)` whose unit holds a count `>= bleach` for the address
of window `r`. -/
def score (w : WiSARD) (input : List Int) (bleach : Int) (c : Nat) : Nat :=
  ((List.range (w.numRAMs c)).filter
    (fun r => decide (bleach ≤ w.count c r (w.address input r)))).length

/-- What `NewWiSARD` establishes and `Train` keeps: `ramSize` is not zero, there is one
bank per class, every bank has `inputSize / ramSize` units (Go division), and the stored
counts, `inputSize` and `ramSize` are Go `int` values. -/
structure WF (w : WiSARD) : Prop where
  ramSize_ne : w.ramSize ≠ 0
  numClasses_nonneg : 0 ≤ w.numClasses
  banks : w.ramNodes.length = w.numClasses.toNat
  units : ∀ bank ∈ w.ramNodes, (bank.length : Int) = Int.tdiv w.inputSize w.ramSize
  counts : ∀ bank ∈ w.ramNodes, ∀ ram ∈ bank, ∀ a, minInt ≤ ram.count a ∧ ram.count a ≤ maxInt
  inputSize_int : minInt ≤ w.inputSize ∧ w.inputSize ≤ maxInt
  ramSize_int : minInt ≤ w.ramSize ∧ w.ramSize ≤ maxInt

/-- The address of partition `r` as the specification words it: the decimal renderings
of the elements `input[r*ramSize : r*ramSize+ramSize]`, joined without a separator. -/
def windowAddress (ramSize : Int) (input : List Int) (r : Nat) : String :=
  (((input.drop ((r : Int) * ramSize).toNat).take ramSize.toNat).map Sprintf).foldr
    (fun s t => s ++ t) ""

/-! ## Concrete states used below -/

/-- A node whose count for the address `"1"` is the largest Go `int`. -/
def ceilingNode : RAMNode := ⟨fun k => if k = "1" then some maxInt else none⟩

/-- A one-class, one-unit network (`inputSize = ramSize = 1`) whose only count, for the
address `"1"`, is the largest Go `int`. -/
def ceilingNet : WiSARD := ⟨[[ceilingNode]], 1, 1, 1⟩

/-- A node whose count for the address `"1"` is one below the largest Go `int`. -/
def nearCeilingNode : RAMNode := ⟨fun k => if k = "1" then some (maxInt - 1) else none⟩

/-- A two-class network (`inputSize = ramSize = 1`): class 0 untrained, class 1 holding
the count `2^63 - 2` for the address `"1"`. -/
def nearCeilingNet : WiSARD := ⟨[[NewRAMNode], [nearCeilingNode]], 1, 1, 2⟩

/-- The untrained network with `inputSize = ramSize = 1` and one class: what
`NewWiSARD(1, 1, 1)` returns. -/
def fresh111 : WiSARD := ⟨[[NewRAMNode]], 1, 1, 1⟩

/-- The untrained network with `inputSize = ramSize = 1` and two classes: what
`NewWiSARD(1, 1, 2)` returns. -/
def fresh112 : WiSARD := ⟨[[NewRAMNode], [NewRAMNode]], 1, 1, 2⟩

/-- The untrained network with `inputSize = 4`, `ramSize = 2` and one class: what
`NewWiSARD(4, 2, 1)` returns. -/
def fresh421 : WiSARD := ⟨[[NewRAMNode, NewRAMNode]], 4, 2, 1⟩

/-- The untrained network with `inputSize = 3`, `ramSize = 2` and one class: what
`NewWiSARD(3, 2, 1)` returns (one unit; the third input element is never read). -/
def fresh321 : WiSARD := ⟨[[NewRAMNode]], 3, 2, 1⟩

/-- The untrained network with `inputSize = 4`, `ramSize = 2` and two classes: what
`NewWiSARD(4, 2, 2)` returns. -/
def fresh422 : WiSARD := ⟨[[NewRAMNode, NewRAMNode], [NewRAMNode, NewRAMNode]], 4, 2, 2⟩

/-- The untrained network with `inputSize = 10`, `ramSize = 3` and two classes: what
`NewWiSARD(10, 3, 2)` returns (three units per class; element 9 lies in no window). -/
def fresh1032 : WiSARD :=
  ⟨[[NewRAMNode, NewRAMNode, NewRAMNode], [NewRAMNode, NewRAMNode, NewRAMNode]], 10, 3, 2⟩

/-- A node whose count for the address `"1"` has wrapped to the smallest Go `int`. -/
def wrappedNode : RAMNode := ⟨fun k => if k = "1" then some minInt else none⟩

/-- A one-class, one-unit network (`inputSize = ramSize = 1`) whose only count, for the
address `"1"`, has wrapped to the smallest Go `int`. -/
def wrappedNet : WiSARD := ⟨[[wrappedNode]], 1, 1, 1⟩

/-! ## Further observations -/

/-- Number of units of a network, all banks together. -/
def WiSARD.totalUnits (w : WiSARD) : Nat :=
  (w.ramNodes.map List.length).sum

/-- A training sample `(input, class)` the network is meant for: the class is one of its
classes and the input has at least `inputSize` elements. -/
def WiSARD.validSample (w : WiSARD) (sample : List Int × Int) : Prop :=
  0 ≤ sample.2 ∧ sample.2 < w.numClasses ∧ w.inputSize ≤ sample.1.length

end Wisard

namespace Wisard

/-! ## Go integers: facts -/

theorem wrapInt_of_range {x : Int} (h1 : minInt ≤ x) (h2 : x ≤ maxInt) : wrapInt x = x := by
  unfold wrapInt; unfold minInt at h1; unfold maxInt at h2; omega

theorem wrapInt_range (x : Int) : minInt ≤ wrapInt x ∧ wrapInt x ≤ maxInt := by
  unfold wrapInt minInt maxInt; omega

theorem wrapInt_wrapInt_add (x y : Int) : wrapInt (wrapInt x + y) = wrapInt (x + y) := by
  unfold wrapInt; omega

/-! ## RAMNode: facts -/

theorem RAMNode.count_Train_self (ram : RAMNode) (a : String) :
    (ram.Train a).count a = wrapInt (ram.count a + 1) := by
  simp [RAMNode.Train, RAMNode.count]

theorem RAMNode.memory_Train_of_ne (ram : RAMNode) {a b : String} (h : b ≠ a) :
    (ram.Train a).memory b = ram.memory b := by
  simp [RAMNode.Train, h]

theorem RAMNode.count_Train_of_ne (ram : RAMNode) {a b : String} (h : b ≠ a) :
    (ram.Train a).count b = ram.count b := by
  simp [RAMNode.count, RAMNode.memory_Train_of_ne ram h]

theorem RAMNode.count_Train (ram : RAMNode) (a b : String) :
    (ram.Train a).count b = if b = a then wrapInt (ram.count b + 1) else ram.count b := by
  by_cases h : b = a
  · subst h; simp [RAMNode.count_Train_self]
  · simp [h, RAMNode.count_Train_of_ne ram h]

theorem RAMNode.count_trainAll (l : List String) (ram : RAMNode) (a : String) :
    (ram.trainAll l).count a =
      if a ∈ l then wrapInt (ram.count a + (l.count a : Int)) else ram.count a := by
  induction l generalizing ram with
  | nil => simp [RAMNode.trainAll]
  | cons b t ih =>
    have step : ram.trainAll (b :: t) = (ram.Train b).trainAll t := rfl
    rw [step, ih, RAMNode.count_Train]
    by_cases hab : a = b
    · subst hab
      by_cases hat : a ∈ t
      · simp only [hat, if_true, List.mem_cons, true_or, List.count_cons_self]
        rw [wrapInt_wrapInt_add]; congr 1; push_cast; ring
      · have h0 : t.count a = 0 := List.count_eq_zero_of_not_mem hat
        simp [hat, h0]
    · have hne : ¬ (b = a) := fun h => hab h.symm
      simp [hab, List.count_cons_of_ne hne]

theorem RAMNode.count_trainAll_new (l : List String) (a : String) :
    (NewRAMNode.trainAll l).count a = wrapInt (l.count a : Int) := by
  rw [RAMNode.count_trainAll]
  have h0 : NewRAMNode.count a = 0 := rfl
  by_cases hat : a ∈ l
  · simp [hat, h0]
  · have hc : l.count a = 0 := List.count_eq_zero_of_not_mem hat
    simp [hat, h0, hc, wrapInt]

theorem RAMNode.memory_trainAll (l : List String) (ram : RAMNode) (a : String) :
    (ram.trainAll l).memory a =
      if a ∈ l then some (wrapInt (ram.count a + (l.count a : Int))) else ram.memory a := by
  induction l generalizing ram with
  | nil => simp [RAMNode.trainAll]
  | cons b t ih =>
    have step : ram.trainAll (b :: t) = (ram.Train b).trainAll t := rfl
    rw [step, ih, RAMNode.count_Train]
    by_cases hab : a = b
    · subst hab
      by_cases hat : a ∈ t
      · simp only [hat, if_true, List.mem_cons, true_or, List.count_cons_self]
        rw [wrapInt_wrapInt_add]; congr 2; push_cast; ring
      · have h0 : t.count a = 0 := List.count_eq_zero_of_not_mem hat
        simp [hat, h0, RAMNode.Train]
    · have hne : ¬ (b = a) := fun h => hab h.symm
      simp [hab, List.count_cons_of_ne hne, RAMNode.memory_Train_of_ne ram hab]

/-- A new node after `n` calls `Train("1")`, `1 <= n <= 2^63 - 1`, holds the count `n`
for `"1"` and nothing else. -/
theorem RAMNode.trainAll_replicate (n : Nat) (hn : 0 < n) (hmax : (n : Int) ≤ maxInt) :
    NewRAMNode.trainAll (List.replicate n "1") =
      ⟨fun k => if k = "1" then some (n : Int) else none⟩ := by
  have key : ∀ k, (NewRAMNode.trainAll (List.replicate n "1")).memory k =
      (if k = "1" then some (n : Int) else none) := by
    intro k
    rw [RAMNode.memory_trainAll]
    by_cases hk : k = "1"
    · subst hk
      have hm : "1" ∈ List.replicate n "1" := by
        rw [List.mem_replicate]; exact ⟨by omega, rfl⟩
      have h0 : NewRAMNode.count "1" = 0 := rfl
      rw [if_pos hm, List.count_replicate_self, h0, zero_add,
        wrapInt_of_range (by unfold minInt; omega) hmax, if_pos rfl]
    · have hm : ¬ k ∈ List.replicate n "1" := by
        rw [List.mem_replicate]; exact fun h => hk h.2
      rw [if_neg hm, if_neg hk]
      rfl
  cases hr : NewRAMNode.trainAll (List.replicate n "1") with
  | mk m =>
    rw [hr] at key
    have : m = fun k => if k = "1" then some (n : Int) else none := funext key
    rw [this]

/-- The node `ceilingNode` is what `2^63 - 1` calls `Train("1")` make of a new node. -/
theorem ceilingNode_reached :
    NewRAMNode.trainAll (List.replicate (2 ^ 63 - 1) "1") = ceilingNode :=
  RAMNode.trainAll_replicate (2 ^ 63 - 1) (by decide) (by decide)

/-- The node `nearCeilingNode` is what `2^63 - 2` calls `Train("1")` make of a new node. -/
theorem nearCeilingNode_reached :
    NewRAMNode.trainAll (List.replicate (2 ^ 63 - 2) "1") = nearCeilingNode :=
  RAMNode.trainAll_replicate (2 ^ 63 - 2) (by decide) (by decide)

/-! ## C6 -/

/-- C6, as stated, fails at the `int` ceiling: on a node whose count of `"1"` is
`2^63 - 1`, `Train("1")` leaves the count `-2^63`, not `2^63`. -/
theorem C6_Train_ceiling_counterexample :
    ceilingNode.count "1" = 2 ^ 63 - 1 ∧ (ceilingNode.Train "1").count "1" = -(2 ^ 63) ∧
      (ceilingNode.Train "1").count "1" ≠ ceilingNode.count "1" + 1 := by
  decide

/-- C6 (amended): for every node and every address whose stored count is a Go `int`
below the ceiling `2^63 - 1`, `RAMNode.Train(address)` raises the count of the address
by exactly 1, makes it present (with count 1 when it was absent) and leaves the entry
of every other address as it was. -/
theorem C6_Train_increments (ram : RAMNode) (a : String)
    (hlo : minInt ≤ ram.count a) (hhi : ram.count a < maxInt) :
    (ram.Train a).count a = ram.count a + 1 ∧
      (ram.Train a).memory a = some (ram.count a + 1) ∧
      (ram.memory a = none → (ram.Train a).memory a = some 1) ∧
      ∀ b, b ≠ a → (ram.Train a).memory b = ram.memory b ∧ (ram.Train a).count b = ram.count b := by
  have hw : wrapInt (ram.count a + 1) = ram.count a + 1 :=
    wrapInt_of_range (by omega) (by omega)
  have hm : (ram.Train a).memory a = some (ram.count a + 1) := by
    simp [RAMNode.Train, hw]
  refine ⟨by rw [RAMNode.count_Train_self, hw], hm, ?_, ?_⟩
  · intro hn
    rw [hm]; simp [RAMNode.count, hn]
  · intro b hb
    exact ⟨RAMNode.memory_Train_of_ne ram hb, RAMNode.count_Train_of_ne ram hb⟩

/-- C6 witness: a new node trained once on `"01"`. -/
theorem C6_Train_increments_witness :
    (NewRAMNode.Train "01").count "01" = NewRAMNode.count "01" + 1 ∧
      (NewRAMNode.Train "01").memory "01" = some (NewRAMNode.count "01" + 1) ∧
      (NewRAMNode.memory "01" = none → (NewRAMNode.Train "01").memory "01" = some 1) ∧
      ∀ b, b ≠ "01" → (NewRAMNode.Train "01").memory b = NewRAMNode.memory b ∧
        (NewRAMNode.Train "01").count b = NewRAMNode.count b :=
  C6_Train_increments NewRAMNode "01" (by decide) (by decide)

/-! ## C7 -/

/-- C7, as stated, fails for long training sequences: after `2^63` calls `Train("1")`
on a new node the count of `"1"` has wrapped to `-2^63` and `Predict("1")` is false
although `"1"` was trained. -/
theorem C7_Predict_wrapped_counterexample :
    "1" ∈ List.replicate (2 ^ 63) "1" ∧
      (NewRAMNode.trainAll (List.replicate (2 ^ 63) "1")).count "1" = -(2 ^ 63) ∧
      ((NewRAMNode.trainAll (List.replicate (2 ^ 63) "1")).Predict "1").2 = false := by
  have hc : (NewRAMNode.trainAll (List.replicate (2 ^ 63) "1")).count "1" = -(2 ^ 63) := by
    rw [RAMNode.count_trainAll_new, List.count_replicate_self]
    decide
  refine ⟨?_, hc, ?_⟩
  · rw [List.mem_replicate]; exact ⟨by decide, rfl⟩
  · simp only [RAMNode.Predict, hc]; decide

/-- C7 (amended): for every node and address, `RAMNode.Predict(address)` is true iff the
stored count is `>= 1`, an absent address counting 0 and giving false, and it agrees
with the test `count >= bleach` of `WiSARD.Predict` at the default bleach 1; on a new
node followed by a sequence of `Train` calls that names the address at most `2^63 - 1`
times, `Predict(address)` is true iff the address was trained at least once. -/
theorem C7_Predict_iff (ram : RAMNode) (a : String) (l : List String)
    (h : (l.count a : Int) ≤ maxInt) :
    ((ram.Predict a).2 = true ↔ 1 ≤ ram.count a) ∧
      (ram.memory a = none → (ram.Predict a).2 = false) ∧
      ((ram.Predict a).2 = decide (ram.count a ≥ bleachOf [])) ∧
      (((NewRAMNode.trainAll l).Predict a).2 = true ↔ a ∈ l) := by
  refine ⟨?_, ?_, ?_, ?_⟩
  · simp only [RAMNode.Predict, decide_eq_true_eq]; omega
  · intro hn; simp [RAMNode.Predict, RAMNode.count, hn]
  · simp only [RAMNode.Predict, bleachOf]
    by_cases hc : ram.count a > 0
    · have : ram.count a ≥ 1 := by omega
      simp [hc, this]
    · have : ¬ ram.count a ≥ 1 := by omega
      simp [hc, this]
  · simp only [RAMNode.Predict, decide_eq_true_eq, RAMNode.count_trainAll_new]
    have h0 : (0 : Int) ≤ (l.count a : Int) := Int.natCast_nonneg _
    rw [wrapInt_of_range (by unfold minInt; omega) h]
    rw [gt_iff_lt, Int.natCast_pos, List.count_pos_iff]

/-- C7 witness: the sequence `"10", "01", "10"` and the address `"10"`. -/
theorem C7_Predict_iff_witness :
    (((NewRAMNode.Train "7").Predict "10").2 = true ↔ 1 ≤ (NewRAMNode.Train "7").count "10") ∧
      ((NewRAMNode.Train "7").memory "10" = none →
        ((NewRAMNode.Train "7").Predict "10").2 = false) ∧
      (((NewRAMNode.Train "7").Predict "10").2 =
        decide ((NewRAMNode.Train "7").count "10" ≥ bleachOf [])) ∧
      (((NewRAMNode.trainAll ["10", "01", "10"]).Predict "10").2 = true ↔
        "10" ∈ ["10", "01", "10"]) :=
  C7_Predict_iff (NewRAMNode.Train "7") "10" ["10", "01", "10"] (by decide)

end Wisard

namespace Wisard

/-! ## Building addresses -/

theorem index_of_lt {input : List Int} {i : Int} (h0 : 0 ≤ i) (h : i.toNat < input.length) :
    index input i = some (input.get ⟨i.toNat, h⟩) := by
  unfold index
  rw [if_neg (by omega)]
  exact List.getElem?_eq_getElem h

theorem index_of_ge {input : List Int} {i : Int} (h : input.length ≤ i.toNat) :
    index input i = none := by
  unfold index
  split
  · rfl
  · exact List.getElem?_eq_none h

theorem addressLoop_isSome (input : List Int) (n : Nat) (i : Int) (acc : String)
    (h0 : 0 ≤ i) (h : i.toNat + n ≤ input.length) :
    ∃ s, addressLoop input n i acc = some s := by
  induction n generalizing i acc with
  | zero => exact ⟨acc, rfl⟩
  | succ n ih =>
    have hlt : i.toNat < input.length := by omega
    simp only [addressLoop, index_of_lt h0 hlt]
    exact ih (i + 1) _ (by omega) (by omega)

theorem addressLoop_none (input : List Int) (n : Nat) (i : Int) (acc : String)
    (h0 : 0 ≤ i) (h1 : i.toNat ≤ input.length) (h : input.length < i.toNat + n) :
    addressLoop input n i acc = none := by
  induction n generalizing i acc with
  | zero => omega
  | succ n ih =>
    by_cases hlt : i.toNat < input.length
    · simp only [addressLoop, index_of_lt h0 hlt]
      exact ih (i + 1) _ (by omega) (by omega) (by omega)
    · simp only [addressLoop, index_of_ge (Nat.le_of_not_lt hlt)]

theorem partitionAddress_of_neg (ramSize : Int) (input : List Int) (r : Nat) (h : ramSize < 0) :
    partitionAddress ramSize input r = some "" := by
  unfold partitionAddress buildAddress
  have : ((r : Int) * ramSize + ramSize - (r : Int) * ramSize).toNat = 0 := by
    have : (r : Int) * ramSize + ramSize - (r : Int) * ramSize = ramSize := by ring
    rw [this]; omega
  rw [this]; rfl

theorem partitionAddress_isSome (ramSize : Int) (input : List Int) (r : Nat) (h : 0 < ramSize)
    (hfit : ((r : Int) + 1) * ramSize ≤ input.length) :
    ∃ a, partitionAddress ramSize input r = some a := by
  unfold partitionAddress buildAddress
  have h0 : (0 : Int) ≤ (r : Int) * ramSize := by positivity
  have e : (r : Int) * ramSize + ramSize - (r : Int) * ramSize = ramSize := by ring
  rw [e]
  apply addressLoop_isSome _ _ _ _ h0
  have : ((r : Int) + 1) * ramSize = (r : Int) * ramSize + ramSize := by ring
  omega

theorem partitionAddress_none (ramSize : Int) (input : List Int) (r : Nat) (h : 0 < ramSize)
    (hstart : (r : Int) * ramSize ≤ input.length)
    (hfit : (input.length : Int) < ((r : Int) + 1) * ramSize) :
    partitionAddress ramSize input r = none := by
  unfold partitionAddress buildAddress
  have h0 : (0 : Int) ≤ (r : Int) * ramSize := by positivity
  have e : (r : Int) * ramSize + ramSize - (r : Int) * ramSize = ramSize := by ring
  rw [e]
  have : ((r : Int) + 1) * ramSize = (r : Int) * ramSize + ramSize := by ring
  apply addressLoop_none _ _ _ _ h0 <;> omega

/-- In a network as `NewWiSARD` builds it, the windows of all partitions lie inside
`[0, inputSize)`. -/
theorem WF.window_le {w : WiSARD} (hw : WF w) (hpos : 0 < w.ramSize) {bank : List RAMNode}
    (hb : bank ∈ w.ramNodes) {r : Nat} (hr : r < bank.length) :
    ((r : Int) + 1) * w.ramSize ≤ w.inputSize := by
  have hu := hw.units bank hb
  have hq : ((r : Int) + 1) ≤ Int.tdiv w.inputSize w.ramSize := by omega
  by_cases hin : 0 ≤ w.inputSize
  · rw [Int.tdiv_eq_ediv hin (le_of_lt hpos)] at hq
    exact (Int.le_ediv_iff_mul_le hpos).1 hq
  · exfalso
    have hneg : Int.tdiv w.inputSize w.ramSize ≤ 0 := by
      have h1 : w.inputSize = -(-w.inputSize) := by ring
      rw [h1, Int.neg_tdiv]
      have := Int.tdiv_nonneg (a := -w.inputSize) (b := w.ramSize) (by omega) (le_of_lt hpos)
      omega
    omega

/-- In a well-formed network the window bounds `start := r * ramSize` and
`end := start + ramSize` that `Train` and `Predict` compute are Go `int` values: the index
arithmetic of the two loops does not overflow. -/
theorem WF.window_int {w : WiSARD} (hw : WF w) {bank : List RAMNode} (hb : bank ∈ w.ramNodes)
    {r : Nat} (hr : r < bank.length) :
    (minInt ≤ (r : Int) * w.ramSize ∧ (r : Int) * w.ramSize ≤ maxInt) ∧
      (minInt ≤ (r : Int) * w.ramSize + w.ramSize ∧
        (r : Int) * w.ramSize + w.ramSize ≤ maxInt) := by
  have hi := hw.inputSize_int
  have e : (r : Int) * w.ramSize + w.ramSize = ((r : Int) + 1) * w.ramSize := by ring
  have hr0 : (0 : Int) ≤ (r : Int) := Int.natCast_nonneg r
  rcases lt_or_gt_of_ne hw.ramSize_ne with hneg | hpos
  · have hu := hw.units bank hb
    have hq : ((r : Int) + 1) ≤ Int.tdiv w.inputSize w.ramSize := by omega
    have hin : w.inputSize ≤ 0 := by
      by_contra hgt
      have h1 : w.ramSize = -(-w.ramSize) := by ring
      rw [h1, Int.tdiv_neg] at hq
      have := Int.tdiv_nonneg (a := w.inputSize) (b := -w.ramSize) (by omega) (by omega)
      omega
    have hq' : ((r : Int) + 1) ≤ (-w.inputSize) / (-w.ramSize) := by
      rw [← Int.tdiv_eq_ediv (by omega) (by omega), Int.neg_tdiv, Int.tdiv_neg, neg_neg]
      exact hq
    have hmul : ((r : Int) + 1) * (-w.ramSize) ≤ -w.inputSize :=
      (Int.le_ediv_iff_mul_le (by omega)).1 hq'
    have hend : w.inputSize ≤ ((r : Int) + 1) * w.ramSize := by
      have : ((r : Int) + 1) * (-w.ramSize) = -(((r : Int) + 1) * w.ramSize) := by ring
      omega
    have hstart : (r : Int) * w.ramSize ≤ 0 := by
      have := mul_nonneg hr0 (by omega : (0 : Int) ≤ -w.ramSize)
      have e2 : (r : Int) * (-w.ramSize) = -((r : Int) * w.ramSize) := by ring
      omega
    have hmono : ((r : Int) + 1) * w.ramSize ≤ (r : Int) * w.ramSize := by
      have : ((r : Int) + 1) * w.ramSize = (r : Int) * w.ramSize + w.ramSize := by ring
      omega
    rw [e]
    unfold minInt maxInt at *
    omega
  · have hle := hw.window_le hpos hb hr
    have hstart : (0 : Int) ≤ (r : Int) * w.ramSize := mul_nonneg hr0 (le_of_lt hpos)
    have hmono : (r : Int) * w.ramSize ≤ ((r : Int) + 1) * w.ramSize := by
      have : ((r : Int) + 1) * w.ramSize = (r : Int) * w.ramSize + w.ramSize := by ring
      omega
    rw [e]
    unfold minInt maxInt at *
    omega

/-- Every partition of a well-formed network can be read from an input of length
`>= inputSize`. -/
theorem WF.readable {w : WiSARD} (hw : WF w) {input : List Int}
    (hlen : w.inputSize ≤ input.length) {bank : List RAMNode} (hb : bank ∈ w.ramNodes)
    {r : Nat} (hr : r < bank.length) :
    ∃ a, partitionAddress w.ramSize input r = some a := by
  rcases lt_or_gt_of_ne hw.ramSize_ne with hneg | hpos
  · exact ⟨"", partitionAddress_of_neg _ _ _ hneg⟩
  · exact partitionAddress_isSome _ _ _ hpos (le_trans (hw.window_le hpos hb hr) hlen)

end Wisard

namespace Wisard

/-! ## Training: what the loops do -/

/-- The training loop over a bank when the first `k` partitions from `r` on can be read
and partition `r + k`, if there is one, cannot: exactly the first `k` units are trained,
and the loop ends normally iff `k` is the whole bank. -/
theorem trainLoop_spec (ramSize : Int) (input : List Int) (bank : List RAMNode) (r k : Nat)
    (hk : k ≤ bank.length)
    (hread : ∀ i < k, ∃ a, partitionAddress ramSize input (r + i) = some a)
    (hfail : k < bank.length → partitionAddress ramSize input (r + k) = none) :
    (trainLoop ramSize input r bank).2 =
        (if k = bank.length then Status.done else Status.panicked) ∧
      ∀ j, (trainLoop ramSize input r bank).1[j]? =
        (bank[j]?).map (fun ram =>
          if j < k then ram.Train ((partitionAddress ramSize input (r + j)).getD "") else ram) := by
  induction bank generalizing r k with
  | nil =>
    have : k = 0 := by simpa using hk
    subst this
    simp [trainLoop]
  | cons ram rest ih =>
    cases k with
    | zero =>
      have hnone : partitionAddress ramSize input r = none := by
        simpa using hfail (by simp)
      simp [trainLoop, hnone]
    | succ k =>
      obtain ⟨a, ha⟩ : ∃ a, partitionAddress ramSize input r = some a := by
        simpa using hread 0 (by omega)
      have hk' : k ≤ rest.length := by simpa using hk
      have hread' : ∀ i < k, ∃ a, partitionAddress ramSize input (r + 1 + i) = some a := by
        intro i hi
        have := hread (i + 1) (by omega)
        rwa [show r + (i + 1) = r + 1 + i by omega] at this
      have hfail' : k < rest.length → partitionAddress ramSize input (r + 1 + k) = none := by
        intro h
        have := hfail (by simpa using h)
        rwa [show r + (k + 1) = r + 1 + k by omega] at this
      obtain ⟨ih1, ih2⟩ := ih (r + 1) k hk' hread' hfail'
      constructor
      · simp only [trainLoop, ha, ih1, List.length_cons]
        by_cases hkl : k = rest.length
        · simp [hkl]
        · simp [hkl]
      · intro j
        cases j with
        | zero => simp [trainLoop, ha]
        | succ j =>
          simp only [trainLoop, ha, List.getElem?_cons_succ, ih2 j]
          rw [show r + 1 + j = r + (j + 1) by omega]
          simp

theorem trainLoop_length (ramSize : Int) (input : List Int) (bank : List RAMNode) (r : Nat) :
    (trainLoop ramSize input r bank).1.length = bank.length := by
  induction bank generalizing r with
  | nil => rfl
  | cons ram rest ih =>
    unfold trainLoop
    split
    · rfl
    · simp [ih]

theorem WiSARD.Train_fields (w : WiSARD) (input : List Int) (cls : Int) :
    (w.Train input cls).1.inputSize = w.inputSize ∧ (w.Train input cls).1.ramSize = w.ramSize ∧
      (w.Train input cls).1.numClasses = w.numClasses ∧
      (w.Train input cls).1.ramNodes.length = w.ramNodes.length := by
  unfold WiSARD.Train
  split
  · simp
  · split <;> simp

/-- The units after `Train` on a class `cls` within the bank slice, when the first `k`
partitions can be read and partition `k`, if there is one, cannot. -/
theorem WiSARD.Train_unit (w : WiSARD) (input : List Int) (cls : Int) (hc : 0 ≤ cls)
    (bank : List RAMNode) (hb : w.ramNodes[cls.toNat]? = some bank) (k : Nat)
    (hk : k ≤ bank.length)
    (hread : ∀ i < k, ∃ a, partitionAddress w.ramSize input i = some a)
    (hfail : k < bank.length → partitionAddress w.ramSize input k = none) :
    (w.Train input cls).2 = (if k = bank.length then Status.done else Status.panicked) ∧
      ∀ c r, (w.Train input cls).1.unit c r =
        (w.unit c r).map (fun ram =>
          if c = cls.toNat ∧ r < k then ram.Train (w.address input r) else ram) := by
  have hread' : ∀ i < k, ∃ a, partitionAddress w.ramSize input (0 + i) = some a := by
    intro i hi; simpa using hread i hi
  have hfail' : k < bank.length → partitionAddress w.ramSize input (0 + k) = none := by
    intro h; simpa using hfail h
  obtain ⟨h1, h2⟩ := trainLoop_spec w.ramSize input bank 0 k hk hread' hfail'
  have hT : w.Train input cls =
      ({ w with ramNodes := w.ramNodes.set cls.toNat (trainLoop w.ramSize input 0 bank).1 },
        (trainLoop w.ramSize input 0 bank).2) := by
    unfold WiSARD.Train
    rw [if_neg (by omega), hb]
  have hlt : cls.toNat < w.ramNodes.length := by
    by_contra hge
    rw [List.getElem?_eq_none (Nat.le_of_not_lt hge)] at hb
    cases hb
  rw [hT]
  refine ⟨h1, ?_⟩
  intro c r
  simp only [WiSARD.unit, List.getElem?_set]
  by_cases hcc : cls.toNat = c
  · subst hcc
    simp only [if_true, hlt, hb, Option.some_bind, h2 r, true_and, zero_add, WiSARD.address]
  · have hcc' : ¬ c = cls.toNat := fun h => hcc h.symm
    simp [hcc, hcc']

/-- The map entries after `Train`, under the conditions of `WiSARD.Train_unit`. -/
theorem WiSARD.Train_entry (w : WiSARD) (input : List Int) (cls : Int) (hc : 0 ≤ cls)
    (bank : List RAMNode) (hb : w.ramNodes[cls.toNat]? = some bank) (k : Nat)
    (hk : k ≤ bank.length)
    (hread : ∀ i < k, ∃ a, partitionAddress w.ramSize input i = some a)
    (hfail : k < bank.length → partitionAddress w.ramSize input k = none) (c r : Nat)
    (a : String) :
    (w.Train input cls).1.entry c r a =
      if c = cls.toNat ∧ r < k ∧ a = w.address input r then
        some (wrapInt (w.count c r a + 1))
      else w.entry c r a := by
  obtain ⟨_, h2⟩ := WiSARD.Train_unit w input cls hc bank hb k hk hread hfail
  simp only [WiSARD.entry, WiSARD.count, h2 c r]
  by_cases hcr : c = cls.toNat ∧ r < k
  · obtain ⟨hcc, hrk⟩ := hcr
    subst hcc
    obtain ⟨ram, hram⟩ : ∃ ram, w.unit cls.toNat r = some ram := by
      have : r < bank.length := by omega
      exact ⟨bank.get ⟨r, this⟩, by simp [WiSARD.unit, hb, List.getElem?_eq_getElem this]⟩
    simp only [hram, Option.map_some', Option.some_bind, true_and, hrk, if_true, and_self]
    by_cases ha : a = w.address input r
    · subst ha; simp [RAMNode.Train, RAMNode.count]
    · simp [ha, RAMNode.Train]
  · have hcr' : ¬ (c = cls.toNat ∧ r < k ∧ a = w.address input r) := fun h => hcr ⟨h.1, h.2.1⟩
    rw [if_neg hcr']
    cases hu : w.unit c r with
    | none => simp
    | some ram => simp [hcr]

theorem WiSARD.Train_count (w : WiSARD) (input : List Int) (cls : Int) (hc : 0 ≤ cls)
    (bank : List RAMNode) (hb : w.ramNodes[cls.toNat]? = some bank) (k : Nat)
    (hk : k ≤ bank.length)
    (hread : ∀ i < k, ∃ a, partitionAddress w.ramSize input i = some a)
    (hfail : k < bank.length → partitionAddress w.ramSize input k = none) (c r : Nat)
    (a : String) :
    (w.Train input cls).1.count c r a =
      if c = cls.toNat ∧ r < k ∧ a = w.address input r then wrapInt (w.count c r a + 1)
      else w.count c r a := by
  have h := WiSARD.Train_entry w input cls hc bank hb k hk hread hfail c r a
  unfold WiSARD.count at *
  rw [h]
  split <;> simp

end Wisard

namespace Wisard

/-! ## Well-formed networks -/

theorem addressLoop_eq_window (input : List Int) (n : Nat) (i : Int) (acc s : String)
    (h : addressLoop input n i acc = some s) :
    s = acc ++ (((input.drop i.toNat).take n).map Sprintf).foldr (fun s t => s ++ t) "" := by
  induction n generalizing i acc with
  | zero =>
    simp only [addressLoop, Option.some.injEq] at h
    simp [← h]
  | succ n ih =>
    unfold addressLoop at h
    cases hv : index input i with
    | none => rw [hv] at h; cases h
    | some v =>
      rw [hv] at h
      unfold index at hv
      split at hv
      · cases hv
      · rename_i hi
        have hlt : i.toNat < input.length := by
          by_contra hge
          rw [List.getElem?_eq_none (Nat.le_of_not_lt hge)] at hv
          cases hv
        rw [List.getElem?_eq_getElem hlt] at hv
        have hv' : input[i.toNat] = v := by simpa using hv
        have := ih (i + 1) _ h
        rw [this, show (i + 1).toNat = i.toNat + 1 by omega, List.drop_eq_getElem_cons hlt, hv']
        simp [String.append_assoc]

/-- The address the code builds for a partition is the joined rendering of its window. -/
theorem partitionAddress_eq_window (ramSize : Int) (input : List Int) (r : Nat) (a : String)
    (h : partitionAddress ramSize input r = some a) : a = windowAddress ramSize input r := by
  unfold partitionAddress buildAddress at h
  have := addressLoop_eq_window _ _ _ _ _ h
  rw [this]
  unfold windowAddress
  rw [show (r : Int) * ramSize + ramSize - (r : Int) * ramSize = ramSize by ring]
  simp

theorem WF.bank_of_class {w : WiSARD} (hw : WF w) {cls : Int} (h0 : 0 ≤ cls)
    (h1 : cls < w.numClasses) :
    ∃ bank, w.ramNodes[cls.toNat]? = some bank ∧ bank ∈ w.ramNodes ∧
      bank.length = w.numRAMs cls.toNat := by
  have hlt : cls.toNat < w.ramNodes.length := by rw [hw.banks]; omega
  refine ⟨w.ramNodes.get ⟨cls.toNat, hlt⟩, List.getElem?_eq_getElem hlt, List.get_mem _ _ _, ?_⟩
  simp [WiSARD.numRAMs, List.getElem?_eq_getElem hlt]

theorem WF.count_range {w : WiSARD} (hw : WF w) (c r : Nat) (a : String) :
    minInt ≤ w.count c r a ∧ w.count c r a ≤ maxInt := by
  unfold WiSARD.count WiSARD.entry WiSARD.unit
  cases hb : w.ramNodes[c]? with
  | none => simp [minInt, maxInt]
  | some bank =>
    cases hr : bank[r]? with
    | none => simp [minInt, maxInt, hr]
    | some ram =>
      have hbm : bank ∈ w.ramNodes := List.getElem?_mem hb
      have hrm : ram ∈ bank := List.getElem?_mem hr
      simpa [RAMNode.count, hr] using hw.counts bank hbm ram hrm a

/-- The network `ceilingNet` is well formed. -/
theorem ceilingNet_WF : WF ceilingNet := by
  refine ⟨by decide, by decide, by decide, ?_, ?_, by decide, by decide⟩
  · intro bank hb
    simp only [ceilingNet, List.mem_singleton] at hb
    subst hb; decide
  · intro bank hb ram hr a
    simp only [ceilingNet, List.mem_singleton] at hb
    subst hb
    simp only [List.mem_singleton] at hr
    subst hr
    by_cases ha : a = "1"
    · subst ha; decide
    · simp [ceilingNode, RAMNode.count, ha, minInt, maxInt]

theorem WiSARD.Train_one_unit (ram : RAMNode) :
    (WiSARD.mk [[ram]] 1 1 1).Train [1] 0 =
      (WiSARD.mk [[ram.Train "1"]] 1 1 1, Status.done) := rfl

theorem WiSARD.trainAll_one_unit (n : Nat) (ram : RAMNode) :
    (WiSARD.mk [[ram]] 1 1 1).trainAll (List.replicate n ([1], 0)) =
      WiSARD.mk [[ram.trainAll (List.replicate n "1")]] 1 1 1 := by
  induction n generalizing ram with
  | zero => rfl
  | succ n ih =>
    have step : (WiSARD.mk [[ram]] 1 1 1).trainAll (List.replicate (n + 1) ([1], 0)) =
        ((WiSARD.mk [[ram]] 1 1 1).Train [1] 0).1.trainAll (List.replicate n ([1], 0)) := rfl
    rw [step, WiSARD.Train_one_unit, ih]
    rfl

/-- The network `ceilingNet` is what `NewWiSARD(1, 1, 1)` becomes after `2^63 - 1` calls
`Train([1], 0)`. -/
theorem ceilingNet_reached :
    NewWiSARD 1 1 1 = some fresh111 ∧
      fresh111.trainAll (List.replicate (2 ^ 63 - 1) ([1], 0)) = ceilingNet := by
  refine ⟨rfl, ?_⟩
  have h := WiSARD.trainAll_one_unit (2 ^ 63 - 1) NewRAMNode
  rw [ceilingNode_reached] at h
  exact h

/-! ## C4 -/

/-- C4, as stated, fails at the `int` ceiling: in the one-unit network that
`NewWiSARD(1, 1, 1)` becomes after `2^63 - 1` calls `Train([1], 0)`, whose count for
`"1"` is `2^63 - 1`, one more `Train([1], 0)` ends normally and leaves that count at
`-2^63`, not one higher. -/
theorem C4_Train_ceiling_counterexample :
    (NewWiSARD 1 1 1 = some fresh111 ∧
        fresh111.trainAll (List.replicate (2 ^ 63 - 1) ([1], 0)) = ceilingNet) ∧
      WF ceilingNet ∧ ceilingNet.address [1] 0 = "1" ∧
      (ceilingNet.Train [1] 0).2 = Status.done ∧
      ceilingNet.count 0 0 "1" = 2 ^ 63 - 1 ∧
      (ceilingNet.Train [1] 0).1.count 0 0 "1" = -(2 ^ 63) ∧
      (ceilingNet.Train [1] 0).1.count 0 0 "1" ≠ ceilingNet.count 0 0 "1" + 1 :=
  ⟨ceilingNet_reached, ceilingNet_WF, by decide, by decide, by decide, by decide, by decide⟩

/-- C4 (amended): for every well-formed network, every class with
`0 <= class < numClasses` and every input of length `>= inputSize`, when the counts
about to be raised are below the `int` ceiling `2^63 - 1`, `Train(input, class)` ends
normally, raises by exactly 1 the count of the address of window
`input[r*ramSize : r*ramSize+ramSize]` in unit `ramNodes[class][r]` for each partition
`r`, and leaves every other map entry of those units and every entry of every unit of
every other class as it was. -/
theorem C4_Train_frame (w : WiSARD) (hw : WF w) (input : List Int)
    (hlen : w.inputSize ≤ input.length) (cls : Int) (h0 : 0 ≤ cls) (h1 : cls < w.numClasses)
    (hno : ∀ r < w.numRAMs cls.toNat, w.count cls.toNat r (w.address input r) < maxInt) :
    (w.Train input cls).2 = Status.done ∧
      (∀ r < w.numRAMs cls.toNat,
        w.address input r = windowAddress w.ramSize input r ∧
        (w.Train input cls).1.count cls.toNat r (w.address input r) =
          w.count cls.toNat r (w.address input r) + 1) ∧
      (∀ c r a, ¬ (c = cls.toNat ∧ r < w.numRAMs cls.toNat ∧ a = w.address input r) →
        (w.Train input cls).1.entry c r a = w.entry c r a ∧
        (w.Train input cls).1.count c r a = w.count c r a) := by
  obtain ⟨bank, hb, hbm, hbl⟩ := hw.bank_of_class h0 h1
  have hread : ∀ i < bank.length, ∃ a, partitionAddress w.ramSize input i = some a :=
    fun i hi => hw.readable hlen hbm hi
  have hfail : bank.length < bank.length → partitionAddress w.ramSize input bank.length = none :=
    fun h => absurd h (lt_irrefl _)
  have hS := (WiSARD.Train_unit w input cls h0 bank hb bank.length le_rfl hread hfail).1
  have hE := WiSARD.Train_entry w input cls h0 bank hb bank.length le_rfl hread hfail
  have hC := WiSARD.Train_count w input cls h0 bank hb bank.length le_rfl hread hfail
  rw [hbl] at hE hC
  refine ⟨by simpa using hS, ?_, ?_⟩
  · intro r hr
    constructor
    · obtain ⟨a, ha⟩ := hread r (by omega)
      have := partitionAddress_eq_window _ _ _ _ ha
      simp [WiSARD.address, ha, this]
    · rw [hC, if_pos ⟨rfl, hr, rfl⟩]
      exact wrapInt_of_range (by have := (hw.count_range cls.toNat r (w.address input r)).1; omega)
        (by have := hno r hr; omega)
  · intro c r a hn
    exact ⟨by rw [hE, if_neg hn], by rw [hC, if_neg hn]⟩

end Wisard

namespace Wisard

/-! ## `NewWiSARD` and `Train` keep networks well formed -/

theorem tdiv_range {a b : Int} (ha : minInt ≤ a ∧ a ≤ maxInt) :
    minInt ≤ Int.tdiv a b ∧ Int.tdiv a b ≤ maxInt + 1 := by
  have h1 : (Int.tdiv a b).natAbs ≤ a.natAbs := by
    rw [Int.natAbs_tdiv]; exact Nat.div_le_self _ _
  unfold minInt maxInt at *
  omega

/-- What it means that `NewWiSARD` returned a network: no step panicked, and the
network is the one of `numClasses` banks of `inputSize / ramSize` new units. -/
theorem NewWiSARD_eq_some (inputSize ramSize numClasses : Int) (w : WiSARD)
    (h : NewWiSARD inputSize ramSize numClasses = some w) :
    ramSize ≠ 0 ∧ 0 ≤ numClasses ∧ 24 * numClasses ≤ maxAlloc ∧
      (0 < numClasses → 0 ≤ wrapInt (Int.tdiv inputSize ramSize) ∧
        8 * wrapInt (Int.tdiv inputSize ramSize) ≤ maxAlloc) ∧
      w = { ramNodes := List.replicate numClasses.toNat
              (List.replicate (wrapInt (Int.tdiv inputSize ramSize)).toNat NewRAMNode)
            inputSize := inputSize
            ramSize := ramSize
            numClasses := numClasses } := by
  unfold NewWiSARD at h
  split at h
  · cases h
  · rename_i hr
    simp only at h
    split at h
    · cases h
    · rename_i hn
      split at h
      · cases h
      · rename_i hneg
        simp only [Option.some.injEq] at h
        simp only [makePanics, decide_eq_true_eq, not_or, not_lt] at hn
        simp only [makePanics, decide_eq_true_eq, not_and, not_or, not_lt] at hneg
        exact ⟨hr, hn.1, hn.2, hneg, h.symm⟩

/-- A network returned by `NewWiSARD` (for `int` arguments) is well formed. -/
theorem NewWiSARD_WF (inputSize ramSize numClasses : Int) (w : WiSARD)
    (hi : minInt ≤ inputSize ∧ inputSize ≤ maxInt) (hrs : minInt ≤ ramSize ∧ ramSize ≤ maxInt)
    (h : NewWiSARD inputSize ramSize numClasses = some w) : WF w := by
  obtain ⟨hr, hn, _, hunits, rfl⟩ := NewWiSARD_eq_some _ _ _ _ h
  refine ⟨hr, hn, by simp, ?_, ?_, hi, hrs⟩
  · intro bank hb
    obtain ⟨hne, rfl⟩ := List.mem_replicate.1 hb
    have hpos : 0 < numClasses := by
      have : numClasses.toNat ≠ 0 := hne
      omega
    have hge : 0 ≤ wrapInt (Int.tdiv inputSize ramSize) := (hunits hpos).1
    have ht := tdiv_range (b := ramSize) hi
    have hw : wrapInt (Int.tdiv inputSize ramSize) = Int.tdiv inputSize ramSize := by
      by_cases hmax : Int.tdiv inputSize ramSize ≤ maxInt
      · exact wrapInt_of_range ht.1 hmax
      · exfalso
        have : Int.tdiv inputSize ramSize = 2 ^ 63 := by unfold maxInt at *; omega
        rw [this] at hge
        revert hge; decide
    simp only [List.length_replicate]
    rw [hw] at hge ⊢
    omega
  · intro bank hb ram hram a
    obtain ⟨_, rfl⟩ := List.mem_replicate.1 hb
    obtain ⟨_, rfl⟩ := List.mem_replicate.1 hram
    simp [NewRAMNode, RAMNode.count, minInt, maxInt]

theorem RAMNode.Train_count_range (ram : RAMNode) (address : String)
    (h : ∀ a, minInt ≤ ram.count a ∧ ram.count a ≤ maxInt) (a : String) :
    minInt ≤ (ram.Train address).count a ∧ (ram.Train address).count a ≤ maxInt := by
  rw [RAMNode.count_Train]
  split
  · exact wrapInt_range _
  · exact h a

theorem trainLoop_count_range (ramSize : Int) (input : List Int) (bank : List RAMNode) (r : Nat)
    (h : ∀ ram ∈ bank, ∀ a, minInt ≤ ram.count a ∧ ram.count a ≤ maxInt) :
    ∀ ram ∈ (trainLoop ramSize input r bank).1, ∀ a,
      minInt ≤ ram.count a ∧ ram.count a ≤ maxInt := by
  induction bank generalizing r with
  | nil => intro ram hram; simp [trainLoop] at hram
  | cons x rest ih =>
    intro ram hram
    unfold trainLoop at hram
    split at hram
    · exact h ram hram
    · simp only [List.mem_cons] at hram
      rcases hram with rfl | hrest
      · exact RAMNode.Train_count_range x _ (h x (List.mem_cons_self _ _))
      · exact ih (r + 1) (fun y hy => h y (List.mem_cons_of_mem _ hy)) ram hrest

/-- The state `Train` leaves, whether it ended normally or by a panic, is well formed. -/
theorem WiSARD.Train_WF (w : WiSARD) (hw : WF w) (input : List Int) (cls : Int) :
    WF (w.Train input cls).1 := by
  unfold WiSARD.Train
  split
  · exact hw
  · cases hb : w.ramNodes[cls.toNat]? with
    | none => exact hw
    | some bank =>
      have hbm : bank ∈ w.ramNodes := List.getElem?_mem hb
      refine ⟨hw.ramSize_ne, hw.numClasses_nonneg, ?_, ?_, ?_, hw.inputSize_int, hw.ramSize_int⟩
      · simpa using hw.banks
      · intro b hbs
        rcases List.mem_or_eq_of_mem_set hbs with hmem | rfl
        · exact hw.units b hmem
        · rw [trainLoop_length]; exact hw.units bank hbm
      · intro b hbs
        rcases List.mem_or_eq_of_mem_set hbs with hmem | rfl
        · exact hw.counts b hmem
        · exact trainLoop_count_range _ _ _ _ (hw.counts bank hbm)

theorem NewWiSARD_fresh421 : NewWiSARD 4 2 1 = some fresh421 := rfl
theorem NewWiSARD_fresh321 : NewWiSARD 3 2 1 = some fresh321 := rfl
theorem NewWiSARD_fresh422 : NewWiSARD 4 2 2 = some fresh422 := rfl

theorem fresh421_WF : WF fresh421 :=
  NewWiSARD_WF 4 2 1 fresh421 (by decide) (by decide) NewWiSARD_fresh421

theorem fresh321_WF : WF fresh321 :=
  NewWiSARD_WF 3 2 1 fresh321 (by decide) (by decide) NewWiSARD_fresh321

theorem fresh422_WF : WF fresh422 :=
  NewWiSARD_WF 4 2 2 fresh422 (by decide) (by decide) NewWiSARD_fresh422

end Wisard

namespace Wisard

/-- C4 witness: the untrained two-class network of `NewWiSARD(4, 2, 2)`, trained on
`[1, 0, 1, 1]` for class 1. -/
theorem C4_Train_frame_witness :
    (fresh422.Train [1, 0, 1, 1] 1).2 = Status.done ∧
      (∀ r < fresh422.numRAMs (1 : Int).toNat,
        fresh422.address [1, 0, 1, 1] r = windowAddress fresh422.ramSize [1, 0, 1, 1] r ∧
        (fresh422.Train [1, 0, 1, 1] 1).1.count (1 : Int).toNat r
            (fresh422.address [1, 0, 1, 1] r) =
          fresh422.count (1 : Int).toNat r (fresh422.address [1, 0, 1, 1] r) + 1) ∧
      (∀ c r a, ¬ (c = (1 : Int).toNat ∧ r < fresh422.numRAMs (1 : Int).toNat ∧
          a = fresh422.address [1, 0, 1, 1] r) →
        (fresh422.Train [1, 0, 1, 1] 1).1.entry c r a = fresh422.entry c r a ∧
        (fresh422.Train [1, 0, 1, 1] 1).1.count c r a = fresh422.count c r a) :=
  C4_Train_frame fresh422 fresh422_WF [1, 0, 1, 1] (by decide) 1 (by decide) (by decide)
    (by decide)

/-! ## C8 -/

/-- C8, as stated, fails: on the untrained network of `NewWiSARD(4, 2, 1)` the input
`[1, 0, 1]` (length 3 < 4) makes `Train` panic only after the unit of partition 0 has
counted the address `"10"`; and on the network of `NewWiSARD(3, 2, 1)` the input
`[1, 0]` (length 2 < 3) does not fail at all. -/
theorem C8_Train_short_counterexample :
    NewWiSARD 4 2 1 = some fresh421 ∧
      (fresh421.Train [1, 0, 1] 0).2 = Status.panicked ∧
      fresh421.count 0 0 "10" = 0 ∧ (fresh421.Train [1, 0, 1] 0).1.count 0 0 "10" = 1 ∧
      NewWiSARD 3 2 1 = some fresh321 ∧
      (fresh321.Train [1, 0] 0).2 = Status.done ∧
      (fresh321.Train [1, 0] 0).1.count 0 0 "10" = 1 :=
  ⟨rfl, by decide, by decide, by decide, rfl, by decide, by decide⟩

/-- C8 (amended): in a well-formed network with `ramSize > 0`, for a class with
`0 <= class < numClasses` and any input, in particular one shorter than `inputSize`,
`Train(input, class)` validates nothing: it panics (index out of range) exactly when
`len(input) < numRAMs * ramSize`, and in every case the partitions
`r < min(len(input) / ramSize, numRAMs)`, whose windows lie inside the input, have had
the count of their address incremented (Go `int` increment), while every other entry of
every unit is as before. -/
theorem C8_Train_short_input (w : WiSARD) (hw : WF w) (hpos : 0 < w.ramSize)
    (input : List Int) (cls : Int) (h0 : 0 ≤ cls) (h1 : cls < w.numClasses) :
    ((w.Train input cls).2 = Status.panicked ↔
        (input.length : Int) < (w.numRAMs cls.toNat : Int) * w.ramSize) ∧
      ∀ c r a, (w.Train input cls).1.entry c r a =
        if c = cls.toNat ∧
            r < min (input.length / w.ramSize.toNat) (w.numRAMs cls.toNat) ∧
            a = w.address input r then
          some (wrapInt (w.count c r a + 1))
        else w.entry c r a := by
  obtain ⟨bank, hb, hbm, hbl⟩ := hw.bank_of_class h0 h1
  obtain ⟨rs, hrs⟩ := Int.eq_ofNat_of_zero_le (le_of_lt hpos)
  have hrs0 : 0 < rs := by omega
  have hrt : w.ramSize.toNat = rs := by omega
  rw [hrt, ← hbl]
  have hk : min (input.length / rs) bank.length ≤ bank.length := Nat.min_le_right _ _
  have hread : ∀ i < min (input.length / rs) bank.length,
      ∃ a, partitionAddress w.ramSize input i = some a := by
    intro i hi
    have hi' : i + 1 ≤ input.length / rs := by
      have := Nat.min_le_left (input.length / rs) bank.length
      omega
    have hmul : (i + 1) * rs ≤ input.length := (Nat.le_div_iff_mul_le hrs0).1 hi'
    apply partitionAddress_isSome _ _ _ hpos
    rw [hrs]
    exact_mod_cast hmul
  have hfail : min (input.length / rs) bank.length < bank.length →
      partitionAddress w.ramSize input (min (input.length / rs) bank.length) = none := by
    intro hlt
    have hq : min (input.length / rs) bank.length = input.length / rs := by
      rcases Nat.le_total (input.length / rs) bank.length with h | h
      · exact Nat.min_eq_left h
      · rw [Nat.min_eq_right h] at hlt; omega
    rw [hq]
    have hle : input.length / rs * rs ≤ input.length := Nat.div_mul_le_self _ _
    have hgt : input.length < (input.length / rs + 1) * rs := by
      have := Nat.lt_succ_self (input.length / rs)
      exact (Nat.div_lt_iff_lt_mul hrs0).1 this
    apply partitionAddress_none _ _ _ hpos
    · rw [hrs]; exact_mod_cast hle
    · rw [hrs]; exact_mod_cast hgt
  obtain ⟨hS, _⟩ := WiSARD.Train_unit w input cls h0 bank hb _ hk hread hfail
  refine ⟨?_, fun c r a => WiSARD.Train_entry w input cls h0 bank hb _ hk hread hfail c r a⟩
  rw [hS, hrs]
  have hiff : input.length / rs < bank.length ↔ input.length < bank.length * rs :=
    Nat.div_lt_iff_lt_mul hrs0
  constructor
  · intro h
    have hne : ¬ min (input.length / rs) bank.length = bank.length := by
      intro he; rw [if_pos he] at h; cases h
    have : input.length / rs < bank.length := by
      rcases Nat.le_total (input.length / rs) bank.length with h' | h'
      · rw [Nat.min_eq_left h'] at hne; omega
      · rw [Nat.min_eq_right h'] at hne; exact absurd rfl hne
    exact_mod_cast hiff.1 this
  · intro h
    have : input.length / rs < bank.length := hiff.2 (by exact_mod_cast h)
    have hne : ¬ min (input.length / rs) bank.length = bank.length := by
      rw [Nat.min_eq_left (le_of_lt this)]; omega
    rw [if_neg hne]

/-- C8 witness: the network of `NewWiSARD(4, 2, 1)` and the short input `[1, 0, 1]`. -/
theorem C8_Train_short_input_witness :
    ((fresh421.Train [1, 0, 1] 0).2 = Status.panicked ↔
        (([1, 0, 1] : List Int).length : Int) <
          (fresh421.numRAMs (0 : Int).toNat : Int) * fresh421.ramSize) ∧
      ∀ c r a, (fresh421.Train [1, 0, 1] 0).1.entry c r a =
        if c = (0 : Int).toNat ∧
            r < min (([1, 0, 1] : List Int).length / fresh421.ramSize.toNat)
              (fresh421.numRAMs (0 : Int).toNat) ∧
            a = fresh421.address [1, 0, 1] r then
          some (wrapInt (fresh421.count c r a + 1))
        else fresh421.entry c r a :=
  C8_Train_short_input fresh421 fresh421_WF (by decide) [1, 0, 1] 0 (by decide) (by decide)

end Wisard

namespace Wisard

/-! ## Prediction: what the loops do -/

theorem filter_range_succ_length (p : Nat → Bool) (n : Nat) :
    ((List.range (n + 1)).filter p).length =
      (if p 0 then 1 else 0) + ((List.range n).filter (fun j => p (j + 1))).length := by
  rw [List.range_succ_eq_map, List.filter_cons]
  have hmap : (List.filter p (List.map Nat.succ (List.range n))).length =
      ((List.range n).filter (fun j => p (j + 1))).length := by
    rw [List.filter_map, List.length_map]
    rfl
  cases h0 : p 0
  · simp [hmap]
  · simp [hmap]; omega

/-- The loop of a goroutine over a bank whose partitions can all be read: the running
count plus the number of units whose count for their address reaches `bleach`. -/
theorem activationLoop_spec (ramSize : Int) (input : List Int) (bleach : Int)
    (bank : List RAMNode) (r : Nat) (activated : Int)
    (hread : ∀ i < bank.length, ∃ a, partitionAddress ramSize input (r + i) = some a) :
    activationLoop ramSize input bleach r bank activated =
      some (activated + (((List.range bank.length).filter (fun j =>
        decide (bleach ≤ ((bank[j]?).bind (fun ram =>
          ram.memory ((partitionAddress ramSize input (r + j)).getD ""))).getD 0))).length :
            Int)) := by
  induction bank generalizing r activated with
  | nil => simp [activationLoop]
  | cons x rest ih =>
    obtain ⟨a, ha⟩ : ∃ a, partitionAddress ramSize input r = some a := by
      simpa using hread 0 (by simp)
    have hread' : ∀ i < rest.length, ∃ a, partitionAddress ramSize input (r + 1 + i) = some a := by
      intro i hi
      have := hread (i + 1) (by simpa using hi)
      rwa [show r + (i + 1) = r + 1 + i by omega] at this
    unfold activationLoop
    simp only [ha]
    rw [ih (r + 1) _ hread', List.length_cons, filter_range_succ_length]
    have hshift : ∀ j, r + 1 + j = r + (j + 1) := fun j => by omega
    simp only [List.getElem?_cons_succ, hshift, List.getElem?_cons_zero, Option.some_bind,
      Nat.add_zero, ha, Option.getD_some, decide_eq_true_eq]
    by_cases hx : bleach ≤ x.count a
    · have hx' : bleach ≤ (x.memory a).getD 0 := hx
      simp only [ge_iff_le, hx, hx', if_true]
      congr 1; push_cast; ring
    · have hx' : ¬ bleach ≤ (x.memory a).getD 0 := hx
      simp only [ge_iff_le, hx, hx', if_false]
      congr 1; push_cast; ring

/-- In a well-formed network, for an input of length `>= inputSize`, the goroutine of a
class inside the network sends that class with its activation score. -/
theorem goroutine_eq_score (w : WiSARD) (hw : WF w) (input : List Int)
    (hlen : w.inputSize ≤ input.length) (bleach : Int) (c : Nat)
    (hc : c < w.numClasses.toNat) :
    goroutine w input bleach c = some ⟨(c : Int), (score w input bleach c : Int)⟩ := by
  have hlt : c < w.ramNodes.length := by rw [hw.banks]; exact hc
  have hb : w.ramNodes[c]? = some (w.ramNodes.get ⟨c, hlt⟩) := List.getElem?_eq_getElem hlt
  have hbm : w.ramNodes.get ⟨c, hlt⟩ ∈ w.ramNodes := List.get_mem _ _ _
  have hread : ∀ i < (w.ramNodes.get ⟨c, hlt⟩).length,
      ∃ a, partitionAddress w.ramSize input (0 + i) = some a := by
    intro i hi
    simpa using hw.readable hlen hbm hi
  unfold goroutine
  rw [hb]
  simp only [activationLoop_spec w.ramSize input bleach _ 0 0 hread]
  simp [score, WiSARD.numRAMs, WiSARD.count, WiSARD.entry, WiSARD.unit, WiSARD.address, hb]

theorem score_le_numRAMs (w : WiSARD) (input : List Int) (bleach : Int) (c : Nat) :
    score w input bleach c ≤ w.numRAMs c := by
  unfold score
  exact le_trans (List.length_filter_le _ _) (by simp)

theorem runGoroutines_map (w : WiSARD) (input : List Int) (bleach : Int) (order : List Nat)
    (f : Nat → activationResult) (h : ∀ c ∈ order, goroutine w input bleach c = some (f c)) :
    runGoroutines w input bleach order = some (order.map f) := by
  induction order with
  | nil => rfl
  | cons c rest ih =>
    have hc := h c (List.mem_cons_self _ _)
    have hrest := ih (fun x hx => h x (List.mem_cons_of_mem _ hx))
    simp [runGoroutines, hc, hrest]

/-- The receiving loop over the results `(c, s c)` of the classes in `order`: either no
result beats the running maximum and the running prediction stays, or the result is the
first class in `order` whose score beats the running maximum and is not beaten later. -/
theorem receiveLoop_spec (s : Nat → Int) (order : List Nat) (mx p : Int) :
    ((∀ c ∈ order, s c ≤ mx) ∧
        receiveLoop (order.map (fun (c : Nat) => (⟨(c : Int), s c⟩ : activationResult))) mx p = p) ∨
      ∃ (pre : List Nat) (q : Nat) (post : List Nat), order = pre ++ q :: post ∧
        receiveLoop (order.map (fun (c : Nat) => (⟨(c : Int), s c⟩ : activationResult))) mx p =
          (q : Int) ∧
        mx < s q ∧ (∀ c ∈ pre, s c < s q) ∧ (∀ c ∈ post, s c ≤ s q) := by
  induction order generalizing mx p with
  | nil => left; simp [receiveLoop]
  | cons c rest ih =>
    by_cases hgt : s c > mx
    · have hstep : receiveLoop ((c :: rest).map
          (fun (c : Nat) => (⟨(c : Int), s c⟩ : activationResult))) mx p =
          receiveLoop (rest.map (fun (c : Nat) => (⟨(c : Int), s c⟩ : activationResult))) (s c) c := by
        simp [receiveLoop, hgt]
      rw [hstep]
      right
      rcases ih (s c) (c : Int) with ⟨hall, hres⟩ | ⟨pre, q, post, ho, hres, hlt, hpre, hpost⟩
      · exact ⟨[], c, rest, rfl, hres, hgt, by simp, hall⟩
      · refine ⟨c :: pre, q, post, by simp [ho], hres, by omega, ?_, hpost⟩
        intro x hx
        rcases List.mem_cons.1 hx with rfl | hx'
        · exact hlt
        · exact hpre x hx'
    · have hstep : receiveLoop ((c :: rest).map
          (fun (c : Nat) => (⟨(c : Int), s c⟩ : activationResult))) mx p =
          receiveLoop (rest.map (fun (c : Nat) => (⟨(c : Int), s c⟩ : activationResult))) mx p := by
        simp [receiveLoop, hgt]
      rw [hstep]
      rcases ih mx p with ⟨hall, hres⟩ | ⟨pre, q, post, ho, hres, hlt, hpre, hpost⟩
      · left
        refine ⟨?_, hres⟩
        intro x hx
        rcases List.mem_cons.1 hx with rfl | hx'
        · omega
        · exact hall x hx'
      · right
        refine ⟨c :: pre, q, post, by simp [ho], hres, hlt, ?_, hpost⟩
        intro x hx
        rcases List.mem_cons.1 hx with rfl | hx'
        · omega
        · exact hpre x hx'

/-- `Predict` on a well-formed network, for an input of length `>= inputSize` and a
non-empty delivery of classes inside the network: the class returned is the first one
delivered whose score is the largest delivered. -/
theorem WiSARD.Predict_spec (w : WiSARD) (hw : WF w) (input : List Int)
    (hlen : w.inputSize ≤ input.length) (bleaching : List Int) (order : List Nat)
    (hne : order ≠ []) (hin : ∀ c ∈ order, c < w.numClasses.toNat) :
    ∃ (pre : List Nat) (q : Nat) (post : List Nat), order = pre ++ q :: post ∧
      (w.Predict input bleaching order).2 = some (q : Int) ∧
      (∀ c ∈ pre, score w input (bleachOf bleaching) c < score w input (bleachOf bleaching) q) ∧
      (∀ c ∈ post, score w input (bleachOf bleaching) c ≤
        score w input (bleachOf bleaching) q) := by
  have hrun := runGoroutines_map w input (bleachOf bleaching) order
    (fun c => ⟨(c : Int), (score w input (bleachOf bleaching) c : Int)⟩)
    (fun c hc => goroutine_eq_score w hw input hlen _ c (hin c hc))
  have hP : (w.Predict input bleaching order).2 =
      some (receiveLoop (order.map (fun (c : Nat) =>
        (⟨(c : Int), (score w input (bleachOf bleaching) c : Int)⟩ : activationResult)))
          (-1) (-1)) := by
    unfold WiSARD.Predict
    rw [hrun]
  rcases receiveLoop_spec (fun c => (score w input (bleachOf bleaching) c : Int)) order (-1) (-1)
    with ⟨hall, _⟩ | ⟨pre, q, post, ho, hres, _, hpre, hpost⟩
  · exfalso
    obtain ⟨c, hc⟩ := List.exists_mem_of_ne_nil order hne
    have := hall c hc
    simp only at this
    omega
  · refine ⟨pre, q, post, ho, by rw [hP, hres], ?_, ?_⟩
    · intro c hc; exact_mod_cast hpre c hc
    · intro c hc; exact_mod_cast hpost c hc

end Wisard

namespace Wisard

theorem IsDelivery.ne_nil {w : WiSARD} {order : List Nat} (h : IsDelivery w order)
    (hc : 1 ≤ w.numClasses) : order ≠ [] := by
  intro he
  have hlen := h.length_eq
  rw [he, List.length_range] at hlen
  simp only [List.length_nil] at hlen
  omega

theorem IsDelivery.mem_iff {w : WiSARD} {order : List Nat} (h : IsDelivery w order) (c : Nat) :
    c ∈ order ↔ c < w.numClasses.toNat := by
  rw [List.Perm.mem_iff h, List.mem_range]

/-- The class `Predict` returns is inside the network and no class scores more. -/
theorem WiSARD.Predict_max (w : WiSARD) (hw : WF w) (hc : 1 ≤ w.numClasses) (input : List Int)
    (hlen : w.inputSize ≤ input.length) (bleaching : List Int) (order : List Nat)
    (hord : IsDelivery w order) :
    ∃ p : Nat, (w.Predict input bleaching order).2 = some (p : Int) ∧
      p < w.numClasses.toNat ∧
      ∀ c : Nat, c < w.numClasses.toNat →
        score w input (bleachOf bleaching) c ≤ score w input (bleachOf bleaching) p := by
  obtain ⟨pre, q, post, ho, hres, hpre, hpost⟩ :=
    WiSARD.Predict_spec w hw input hlen bleaching order (hord.ne_nil hc)
      (fun c hc' => (hord.mem_iff c).1 hc')
  have hq : q < w.numClasses.toNat := (hord.mem_iff q).1 (by rw [ho]; simp)
  refine ⟨q, hres, hq, ?_⟩
  intro c hcn
  have hmem : c ∈ order := (hord.mem_iff c).2 hcn
  rw [ho] at hmem
  rcases List.mem_append.1 hmem with h | h
  · exact le_of_lt (hpre c h)
  · rcases List.mem_cons.1 h with rfl | h'
    · exact le_rfl
    · exact hpost c h'

/-! ## C1 -/

/-- C1: for every well-formed network with `numClasses >= 1`, every input of length
`>= inputSize`, every bleach value `bleach` and every delivery order of the goroutine
results, `WiSARD.Predict(input, bleach)` returns a class index `p` with
`0 <= p < numClasses` whose activation score at that `bleach` is maximal: the goroutine
of each class `c` sends the score of `c` (the number of partitions `r` in
`[0, numRAMs)` whose unit `ramNodes[c][r]` holds a count `>= bleach` for the address of
window `r`), `0 <= score(c) <= numRAMs = inputSize / ramSize`, and
`score(p) >= score(c)` for every class `c`.  Without a bleach argument the same holds
with the threshold 1. -/
theorem C1_Predict_argmax (w : WiSARD) (hw : WF w) (hc : 1 ≤ w.numClasses) (input : List Int)
    (hlen : w.inputSize ≤ input.length) (bleach : Int) (more : List Int) (order : List Nat)
    (hord : IsDelivery w order) :
    (∃ p : Nat, (w.Predict input (bleach :: more) order).2 = some (p : Int) ∧
        (0 : Int) ≤ (p : Int) ∧ (p : Int) < w.numClasses ∧
        ∀ c : Nat, (c : Int) < w.numClasses →
          goroutine w input bleach c = some ⟨(c : Int), (score w input bleach c : Int)⟩ ∧
          score w input bleach c ≤ w.numRAMs c ∧
          (w.numRAMs c : Int) = Int.tdiv w.inputSize w.ramSize ∧
          score w input bleach c ≤ score w input bleach p) ∧
      ∃ p : Nat, (w.Predict input [] order).2 = some (p : Int) ∧
        (0 : Int) ≤ (p : Int) ∧ (p : Int) < w.numClasses ∧
        ∀ c : Nat, (c : Int) < w.numClasses →
          goroutine w input 1 c = some ⟨(c : Int), (score w input 1 c : Int)⟩ ∧
          score w input 1 c ≤ w.numRAMs c ∧
          (w.numRAMs c : Int) = Int.tdiv w.inputSize w.ramSize ∧
          score w input 1 c ≤ score w input 1 p := by
  have key : ∀ (bleaching : List Int) (b : Int), bleachOf bleaching = b →
      ∃ p : Nat, (w.Predict input bleaching order).2 = some (p : Int) ∧
        (0 : Int) ≤ (p : Int) ∧ (p : Int) < w.numClasses ∧
        ∀ c : Nat, (c : Int) < w.numClasses →
          goroutine w input b c = some ⟨(c : Int), (score w input b c : Int)⟩ ∧
          score w input b c ≤ w.numRAMs c ∧
          (w.numRAMs c : Int) = Int.tdiv w.inputSize w.ramSize ∧
          score w input b c ≤ score w input b p := by
    intro bleaching b hb
    obtain ⟨q, hres, hq, hmax⟩ := WiSARD.Predict_max w hw hc input hlen bleaching order hord
    rw [hb] at hmax
    refine ⟨q, hres, by omega, by omega, ?_⟩
    intro c hcn
    have hcn' : c < w.numClasses.toNat := by omega
    have hlt : c < w.ramNodes.length := by rw [hw.banks]; exact hcn'
    refine ⟨goroutine_eq_score w hw input hlen _ c hcn', score_le_numRAMs w input _ c, ?_,
      hmax c hcn'⟩
    have hbk : w.ramNodes[c]? = some (w.ramNodes.get ⟨c, hlt⟩) := List.getElem?_eq_getElem hlt
    have := hw.units _ (List.get_mem w.ramNodes c hlt)
    simpa [WiSARD.numRAMs, hbk] using this
  exact ⟨key (bleach :: more) bleach rfl, key [] 1 rfl⟩

/-- C1 witness: the untrained network of `NewWiSARD(4, 2, 2)` trained on `[1, 0, 1, 1]`
for class 1, queried with `[1, 0, 0, 0]` at bleach 2, results delivered in the order
1, 0. -/
theorem C1_Predict_argmax_witness :
    (∃ p : Nat, ((fresh422.Train [1, 0, 1, 1] 1).1.Predict [1, 0, 0, 0] [2] [1, 0]).2 =
          some (p : Int) ∧
        (0 : Int) ≤ (p : Int) ∧ (p : Int) < (fresh422.Train [1, 0, 1, 1] 1).1.numClasses ∧
        ∀ c : Nat, (c : Int) < (fresh422.Train [1, 0, 1, 1] 1).1.numClasses →
          goroutine (fresh422.Train [1, 0, 1, 1] 1).1 [1, 0, 0, 0] 2 c =
            some ⟨(c : Int), (score (fresh422.Train [1, 0, 1, 1] 1).1 [1, 0, 0, 0] 2 c : Int)⟩ ∧
          score (fresh422.Train [1, 0, 1, 1] 1).1 [1, 0, 0, 0] 2 c ≤
            (fresh422.Train [1, 0, 1, 1] 1).1.numRAMs c ∧
          ((fresh422.Train [1, 0, 1, 1] 1).1.numRAMs c : Int) =
            Int.tdiv (fresh422.Train [1, 0, 1, 1] 1).1.inputSize
              (fresh422.Train [1, 0, 1, 1] 1).1.ramSize ∧
          score (fresh422.Train [1, 0, 1, 1] 1).1 [1, 0, 0, 0] 2 c ≤
            score (fresh422.Train [1, 0, 1, 1] 1).1 [1, 0, 0, 0] 2 p) ∧
      ∃ p : Nat, ((fresh422.Train [1, 0, 1, 1] 1).1.Predict [1, 0, 0, 0] [] [1, 0]).2 =
          some (p : Int) ∧
        (0 : Int) ≤ (p : Int) ∧ (p : Int) < (fresh422.Train [1, 0, 1, 1] 1).1.numClasses ∧
        ∀ c : Nat, (c : Int) < (fresh422.Train [1, 0, 1, 1] 1).1.numClasses →
          goroutine (fresh422.Train [1, 0, 1, 1] 1).1 [1, 0, 0, 0] 1 c =
            some ⟨(c : Int), (score (fresh422.Train [1, 0, 1, 1] 1).1 [1, 0, 0, 0] 1 c : Int)⟩ ∧
          score (fresh422.Train [1, 0, 1, 1] 1).1 [1, 0, 0, 0] 1 c ≤
            (fresh422.Train [1, 0, 1, 1] 1).1.numRAMs c ∧
          ((fresh422.Train [1, 0, 1, 1] 1).1.numRAMs c : Int) =
            Int.tdiv (fresh422.Train [1, 0, 1, 1] 1).1.inputSize
              (fresh422.Train [1, 0, 1, 1] 1).1.ramSize ∧
          score (fresh422.Train [1, 0, 1, 1] 1).1 [1, 0, 0, 0] 1 c ≤
            score (fresh422.Train [1, 0, 1, 1] 1).1 [1, 0, 0, 0] 1 p :=
  C1_Predict_argmax (fresh422.Train [1, 0, 1, 1] 1).1
    (WiSARD.Train_WF fresh422 fresh422_WF [1, 0, 1, 1] 1) (by decide) [1, 0, 0, 0] (by decide) 2
    [] [1, 0] (List.Perm.swap 0 1 [])

/-! ## C2 -/

/-- C2, as stated, fails: on the untrained network of `NewWiSARD(4, 2, 2)` both classes
score 0, and when the result of class 1 is delivered before that of class 0, `Predict`
returns class 1, not the lowest index 0 (which it returns when the results arrive in
class order). -/
theorem C2_Predict_tie_counterexample :
    NewWiSARD 4 2 2 = some fresh422 ∧ IsDelivery fresh422 [1, 0] ∧
      score fresh422 [0, 0, 0, 0] 1 0 = 0 ∧ score fresh422 [0, 0, 0, 0] 1 1 = 0 ∧
      (fresh422.Predict [0, 0, 0, 0] [] [1, 0]).2 = some 1 ∧
      (fresh422.Predict [0, 0, 0, 0] [] [0, 1]).2 = some 0 :=
  ⟨rfl, List.Perm.swap 0 1 [], by decide, by decide, by decide, by decide⟩

/-- C2 (amended): for every well-formed network with `numClasses >= 1`, input of length
`>= inputSize`, bleach and delivery order, `WiSARD.Predict` returns, among the classes
that attain the maximal activation score, the one whose result is delivered first:
every class delivered before it scores strictly less and every class delivered after it
scores at most as much.  When the results are delivered in class-index order this is the
lowest class index among the maximal ones. -/
theorem C2_Predict_tie_break (w : WiSARD) (hw : WF w) (hc : 1 ≤ w.numClasses)
    (input : List Int) (hlen : w.inputSize ≤ input.length) (bleaching : List Int)
    (order : List Nat) (hord : IsDelivery w order) :
    ∃ (pre : List Nat) (p : Nat) (post : List Nat), order = pre ++ p :: post ∧
      (w.Predict input bleaching order).2 = some (p : Int) ∧
      (∀ c ∈ pre, score w input (bleachOf bleaching) c < score w input (bleachOf bleaching) p) ∧
      (∀ c ∈ post, score w input (bleachOf bleaching) c ≤
        score w input (bleachOf bleaching) p) ∧
      (order = List.range w.numClasses.toNat →
        ∀ c < p, score w input (bleachOf bleaching) c < score w input (bleachOf bleaching) p) := by
  obtain ⟨pre, q, post, ho, hres, hpre, hpost⟩ :=
    WiSARD.Predict_spec w hw input hlen bleaching order (hord.ne_nil hc)
      (fun c hc' => (hord.mem_iff c).1 hc')
  refine ⟨pre, q, post, ho, hres, hpre, hpost, ?_⟩
  intro hrange c hcq
  apply hpre
  have hq : q < w.numClasses.toNat := (hord.mem_iff q).1 (by rw [ho]; simp)
  have hsplit : List.range w.numClasses.toNat = pre ++ q :: post := by rw [← hrange, ho]
  have hqidx : (List.range w.numClasses.toNat)[pre.length]? = some q := by
    rw [hsplit, List.getElem?_append_right (le_refl _)]; simp
  have hplen : pre.length < w.numClasses.toNat := by
    have := congrArg List.length hsplit
    simp at this; omega
  rw [List.getElem?_range hplen] at hqidx
  have hpq : pre.length = q := by simpa using hqidx
  have hcidx : (List.range w.numClasses.toNat)[c]? = some c :=
    List.getElem?_range (by omega)
  rw [hsplit, List.getElem?_append_left (by omega)] at hcidx
  exact List.getElem?_mem hcidx

/-- C2 witness: the untrained network of `NewWiSARD(4, 2, 2)`, results delivered in
class-index order. -/
theorem C2_Predict_tie_break_witness :
    ∃ (pre : List Nat) (p : Nat) (post : List Nat), [0, 1] = pre ++ p :: post ∧
      (fresh422.Predict [0, 0, 0, 0] [] [0, 1]).2 = some (p : Int) ∧
      (∀ c ∈ pre, score fresh422 [0, 0, 0, 0] (bleachOf []) c <
        score fresh422 [0, 0, 0, 0] (bleachOf []) p) ∧
      (∀ c ∈ post, score fresh422 [0, 0, 0, 0] (bleachOf []) c ≤
        score fresh422 [0, 0, 0, 0] (bleachOf []) p) ∧
      ([0, 1] = List.range fresh422.numClasses.toNat →
        ∀ c < p, score fresh422 [0, 0, 0, 0] (bleachOf []) c <
          score fresh422 [0, 0, 0, 0] (bleachOf []) p) :=
  C2_Predict_tie_break fresh422 fresh422_WF (by decide) [0, 0, 0, 0] (by decide) [] [0, 1]
    (List.Perm.refl _)

/-! ## C3 -/

/-- C3, as stated, fails: on the one memory state of the untrained network of
`NewWiSARD(4, 2, 2)`, with the same input `[1, 1, 0, 1]` and bleach 1, `Predict` returns
class 0 when the results arrive in the order 0, 1 and class 1 when they arrive in the
order 1, 0. -/
theorem C3_Predict_order_counterexample :
    IsDelivery fresh422 [0, 1] ∧ IsDelivery fresh422 [1, 0] ∧
      (fresh422.Predict [1, 1, 0, 1] [1] [0, 1]).2 = some 0 ∧
      (fresh422.Predict [1, 1, 0, 1] [1] [1, 0]).2 = some 1 ∧
      (fresh422.Predict [1, 1, 0, 1] [1] [0, 1]).2 ≠
        (fresh422.Predict [1, 1, 0, 1] [1] [1, 0]).2 :=
  ⟨List.Perm.refl _, List.Perm.swap 0 1 [], by decide, by decide, by decide⟩

/-- C3 (amended): for every well-formed network with `numClasses >= 1`, input of length
`>= inputSize` and bleach, two `Predict` calls on the same memory state return classes
with the same (maximal) activation score; they return the same class when the delivery
order of the goroutine results is the same, and also when one class alone attains the
maximal score. -/
theorem C3_Predict_deterministic (w : WiSARD) (hw : WF w) (hc : 1 ≤ w.numClasses)
    (input : List Int) (hlen : w.inputSize ≤ input.length) (bleaching : List Int)
    (order₁ order₂ : List Nat) (h₁ : IsDelivery w order₁) (h₂ : IsDelivery w order₂) :
    ∃ p₁ p₂ : Nat, (w.Predict input bleaching order₁).2 = some (p₁ : Int) ∧
      (w.Predict input bleaching order₂).2 = some (p₂ : Int) ∧
      score w input (bleachOf bleaching) p₁ = score w input (bleachOf bleaching) p₂ ∧
      (order₁ = order₂ → p₁ = p₂) ∧
      ((∀ c : Nat, (c : Int) < w.numClasses → c ≠ p₁ →
          score w input (bleachOf bleaching) c < score w input (bleachOf bleaching) p₁) →
        p₁ = p₂) := by
  obtain ⟨p₁, hp₁, hlt₁, hmax₁⟩ := WiSARD.Predict_max w hw hc input hlen bleaching order₁ h₁
  obtain ⟨p₂, hp₂, hlt₂, hmax₂⟩ := WiSARD.Predict_max w hw hc input hlen bleaching order₂ h₂
  have heq : score w input (bleachOf bleaching) p₁ = score w input (bleachOf bleaching) p₂ :=
    le_antisymm (hmax₂ p₁ hlt₁) (hmax₁ p₂ hlt₂)
  refine ⟨p₁, p₂, hp₁, hp₂, heq, ?_, ?_⟩
  · intro ho
    subst ho
    rw [hp₁] at hp₂
    exact_mod_cast Option.some.inj hp₂
  · intro huniq
    by_contra hne
    have := huniq p₂ (by omega) (fun h => hne h.symm)
    omega

end Wisard

namespace Wisard

/-- C3 witness: the network of `NewWiSARD(4, 2, 2)` trained on `[1, 0, 1, 1]` for
class 1, with the two delivery orders of its two classes. -/
theorem C3_Predict_deterministic_witness :
    ∃ p₁ p₂ : Nat,
      ((fresh422.Train [1, 0, 1, 1] 1).1.Predict [1, 0, 1, 1] [2] [0, 1]).2 = some (p₁ : Int) ∧
      ((fresh422.Train [1, 0, 1, 1] 1).1.Predict [1, 0, 1, 1] [2] [1, 0]).2 = some (p₂ : Int) ∧
      score (fresh422.Train [1, 0, 1, 1] 1).1 [1, 0, 1, 1] (bleachOf [2]) p₁ =
        score (fresh422.Train [1, 0, 1, 1] 1).1 [1, 0, 1, 1] (bleachOf [2]) p₂ ∧
      (([0, 1] : List Nat) = [1, 0] → p₁ = p₂) ∧
      ((∀ c : Nat, (c : Int) < (fresh422.Train [1, 0, 1, 1] 1).1.numClasses → c ≠ p₁ →
          score (fresh422.Train [1, 0, 1, 1] 1).1 [1, 0, 1, 1] (bleachOf [2]) c <
            score (fresh422.Train [1, 0, 1, 1] 1).1 [1, 0, 1, 1] (bleachOf [2]) p₁) →
        p₁ = p₂) :=
  C3_Predict_deterministic (fresh422.Train [1, 0, 1, 1] 1).1
    (WiSARD.Train_WF fresh422 fresh422_WF [1, 0, 1, 1] 1) (by decide) [1, 0, 1, 1] (by decide)
    [2] [0, 1] [1, 0] (List.Perm.refl _) (List.Perm.swap 0 1 [])

/-! ## C5 -/

/-- C5: `WiSARD.Predict` and `RAMNode.Predict` never change memory: for every network,
input, bleach and delivery order the network after `Predict` is the network before it,
so every map entry of every unit (present or absent) is the same; and for every node
and address the node after `RAMNode.Predict` is the node before it, an address that was
never trained staying absent and giving `false`. -/
theorem C5_Predict_read_only (w : WiSARD) (input : List Int) (bleaching : List Int)
    (order : List Nat) (ram : RAMNode) (address : String) :
    (w.Predict input bleaching order).1 = w ∧
      (∀ c r a, (w.Predict input bleaching order).1.entry c r a = w.entry c r a) ∧
      (ram.Predict address).1 = ram ∧
      (∀ a, (ram.Predict address).1.memory a = ram.memory a) ∧
      (ram.memory address = none →
        (ram.Predict address).1.memory address = none ∧ (ram.Predict address).2 = false) := by
  have hP : (w.Predict input bleaching order).1 = w := by
    unfold WiSARD.Predict
    split <;> rfl
  refine ⟨hP, fun c r a => by rw [hP], rfl, fun a => rfl, ?_⟩
  intro hn
  exact ⟨hn, by simp [RAMNode.Predict, RAMNode.count, hn]⟩

/-! ## C9 -/

theorem addressLoop_some_bounds (input : List Int) (n : Nat) (i : Int) (acc s : String)
    (h : addressLoop input n i acc = some s) (hn : 0 < n) :
    0 ≤ i ∧ i.toNat + n ≤ input.length := by
  by_contra hcon
  have hnone : addressLoop input n i acc = none := by
    by_cases h0 : 0 ≤ i
    · by_cases h1 : i.toNat ≤ input.length
      · exact addressLoop_none input n i acc h0 h1 (by omega)
      · obtain ⟨m, rfl⟩ : ∃ m, n = m + 1 := ⟨n - 1, by omega⟩
        simp only [addressLoop, index_of_ge (by omega : input.length ≤ i.toNat)]
    · obtain ⟨m, rfl⟩ : ∃ m, n = m + 1 := ⟨n - 1, by omega⟩
      simp only [addressLoop, index, if_pos (by omega : i < 0)]
  rw [hnone] at h
  cases h

theorem take_drop_getElem? (x : List Int) (s n j : Nat) :
    ((x.drop s).take n)[j]? = if j < n then x[s + j]? else none := by
  by_cases hj : j < n
  · rw [if_pos hj, List.getElem?_take_of_lt hj, List.getElem?_drop]
  · rw [if_neg hj, List.getElem?_take_eq_none (by omega)]

theorem Sprintf_digit_length (v : Int) (h0 : 0 ≤ v) (h9 : v ≤ 9) :
    (Sprintf v).data.length = 1 := by
  interval_cases v <;> rfl

theorem Sprintf_digit_inj (u v : Int) (hu0 : 0 ≤ u) (hu9 : u ≤ 9) (hv0 : 0 ≤ v) (hv9 : v ≤ 9)
    (h : Sprintf u = Sprintf v) : u = v := by
  interval_cases u <;> interval_cases v <;> first | rfl | exact absurd h (by decide)

/-- Joined renderings of two digit sequences of the same length are equal only when the
sequences are equal. -/
theorem join_digits_inj (l₁ l₂ : List Int) (h₁ : ∀ v ∈ l₁, 0 ≤ v ∧ v ≤ 9)
    (h₂ : ∀ v ∈ l₂, 0 ≤ v ∧ v ≤ 9) (hlen : l₁.length = l₂.length)
    (h : (l₁.map Sprintf).foldr (fun s t => s ++ t) "" =
      (l₂.map Sprintf).foldr (fun s t => s ++ t) "") : l₁ = l₂ := by
  induction l₁ generalizing l₂ with
  | nil =>
    cases l₂ with
    | nil => rfl
    | cons e u => simp at hlen
  | cons d t ih =>
    cases l₂ with
    | nil => simp at hlen
    | cons e u =>
      simp only [List.map_cons, List.foldr_cons] at h
      have hd := h₁ d (List.mem_cons_self _ _)
      have he := h₂ e (List.mem_cons_self _ _)
      have hdata := congrArg String.data h
      rw [String.data_append, String.data_append] at hdata
      have hl : (Sprintf d).data.length = (Sprintf e).data.length := by
        rw [Sprintf_digit_length d hd.1 hd.2, Sprintf_digit_length e he.1 he.2]
      obtain ⟨hhead, htail⟩ := List.append_inj hdata hl
      have hde : d = e := Sprintf_digit_inj d e hd.1 hd.2 he.1 he.2 (String.ext hhead)
      have htu : t = u :=
        ih u (fun v hv => h₁ v (List.mem_cons_of_mem _ hv))
          (fun v hv => h₂ v (List.mem_cons_of_mem _ hv)) (by simpa using hlen)
          (String.ext htail)
      rw [hde, htu]

/-- Reading inside a window that `buildAddress` can read: the element at `start + j`
is element `j` of the window list. -/
theorem index_window (x : List Int) (start : Int) (n j : Nat) (h0 : 0 ≤ start) (hj : j < n) :
    index x (start + j) = ((x.drop start.toNat).take n)[j]? := by
  rw [take_drop_getElem?, if_pos hj]
  unfold index
  rw [if_neg (by omega), show (start + (j : Int)).toNat = start.toNat + j by omega]

/-- C9, as stated, fails: with `ramSize = 2` the inputs `[1, 12]` and `[11, 2]` give
partition 0 the same address `"112"` although they differ on both elements of the
window. -/
theorem C9_address_collision_counterexample :
    partitionAddress 2 [1, 12] 0 = some "112" ∧ partitionAddress 2 [11, 2] 0 = some "112" ∧
      index [1, 12] 0 ≠ index [11, 2] 0 ∧ index [1, 12] 1 ≠ index [11, 2] 1 := by
  decide

/-- C9 (amended): for every window `[start, start + ramSize)` that can be read from two
inputs, if the inputs agree on every element of the window then the addresses built for
it are the same; and when every element of the window is a single decimal digit
(`0..9`) in both inputs, the addresses are the same only if the inputs agree on every
element of the window. -/
theorem C9_address_iff (start ramSize : Int) (x y : List Int) (a b : String)
    (hx : buildAddress x start (start + ramSize) = some a)
    (hy : buildAddress y start (start + ramSize) = some b) :
    ((∀ i, start ≤ i → i < start + ramSize → index x i = index y i) → a = b) ∧
      ((∀ i v, start ≤ i → i < start + ramSize → (index x i = some v ∨ index y i = some v) →
          0 ≤ v ∧ v ≤ 9) →
        a = b → ∀ i, start ≤ i → i < start + ramSize → index x i = index y i) := by
  unfold buildAddress at hx hy
  rw [show start + ramSize - start = ramSize by ring] at hx hy
  have ha := addressLoop_eq_window _ _ _ _ _ hx
  have hb := addressLoop_eq_window _ _ _ _ _ hy
  by_cases hn : 0 < ramSize.toNat
  · obtain ⟨h0, hxl⟩ := addressLoop_some_bounds _ _ _ _ _ hx hn
    obtain ⟨_, hyl⟩ := addressLoop_some_bounds _ _ _ _ _ hy hn
    have hlenx : ((x.drop start.toNat).take ramSize.toNat).length = ramSize.toNat := by
      rw [List.length_take, List.length_drop]; omega
    have hleny : ((y.drop start.toNat).take ramSize.toNat).length = ramSize.toNat := by
      rw [List.length_take, List.length_drop]; omega
    have hidx : ∀ i, start ≤ i → i < start + ramSize →
        (index x i = ((x.drop start.toNat).take ramSize.toNat)[(i - start).toNat]? ∧
          index y i = ((y.drop start.toNat).take ramSize.toNat)[(i - start).toNat]?) := by
      intro i hi1 hi2
      have hj : (i - start).toNat < ramSize.toNat := by omega
      have hi : i = start + ((i - start).toNat : Int) := by omega
      constructor
      · conv_lhs => rw [hi]
        exact index_window x start _ _ h0 hj
      · conv_lhs => rw [hi]
        exact index_window y start _ _ h0 hj
    constructor
    · intro hagree
      have hw : (x.drop start.toNat).take ramSize.toNat =
          (y.drop start.toNat).take ramSize.toNat := by
        apply List.ext_getElem?
        intro j
        by_cases hj : j < ramSize.toNat
        · rw [← index_window x start _ _ h0 hj, ← index_window y start _ _ h0 hj]
          exact hagree _ (by omega) (by omega)
        · rw [List.getElem?_eq_none (by omega), List.getElem?_eq_none (by omega)]
      rw [ha, hb, hw]
    · intro hdig hab i hi1 hi2
      have hw : (x.drop start.toNat).take ramSize.toNat =
          (y.drop start.toNat).take ramSize.toNat := by
        apply join_digits_inj
        · intro v hv
          obtain ⟨j, hj⟩ := List.getElem?_of_mem hv
          have hjn : j < ramSize.toNat := by
            by_contra hge
            rw [List.getElem?_eq_none (by omega)] at hj
            cases hj
          rw [← index_window x start _ _ h0 hjn] at hj
          exact hdig _ v (by omega) (by omega) (Or.inl hj)
        · intro v hv
          obtain ⟨j, hj⟩ := List.getElem?_of_mem hv
          have hjn : j < ramSize.toNat := by
            by_contra hge
            rw [List.getElem?_eq_none (by omega)] at hj
            cases hj
          rw [← index_window y start _ _ h0 hjn] at hj
          exact hdig _ v (by omega) (by omega) (Or.inr hj)
        · rw [hlenx, hleny]
        · have : a = b := hab
          rw [ha, hb] at this
          simpa using this
      rw [(hidx i hi1 hi2).1, (hidx i hi1 hi2).2, hw]
  · have hz : ramSize.toNat = 0 := by omega
    constructor
    · intro _
      rw [ha, hb, hz]; simp
    · intro _ _ i hi1 hi2
      omega

/-- C9 witness: the window `[2, 4)` of the inputs `[1, 0, 1, 1]` and `[0, 0, 1, 1]`. -/
theorem C9_address_iff_witness :
    ((∀ i, (2 : Int) ≤ i → i < 2 + 2 → index [1, 0, 1, 1] i = index [0, 0, 1, 1] i) →
        "11" = "11") ∧
      ((∀ i v, (2 : Int) ≤ i → i < 2 + 2 →
          (index [1, 0, 1, 1] i = some v ∨ index [0, 0, 1, 1] i = some v) → 0 ≤ v ∧ v ≤ 9) →
        "11" = "11" → ∀ i, (2 : Int) ≤ i → i < 2 + 2 →
          index [1, 0, 1, 1] i = index [0, 0, 1, 1] i) :=
  C9_address_iff 2 2 [1, 0, 1, 1] [0, 0, 1, 1] "11" "11" (by decide) (by decide)

end Wisard

namespace Wisard

/-! ## Training a pattern again -/

theorem WiSARD.Train_ramNodes (w : WiSARD) (input : List Int) (cls : Int) (hc : 0 ≤ cls)
    (bank : List RAMNode) (hb : w.ramNodes[cls.toNat]? = some bank) :
    (w.Train input cls).1.ramNodes =
      w.ramNodes.set cls.toNat (trainLoop w.ramSize input 0 bank).1 := by
  unfold WiSARD.Train
  rw [if_neg (by omega), hb]

theorem WiSARD.Train_numRAMs (w : WiSARD) (input : List Int) (cls : Int) (c : Nat) :
    (w.Train input cls).1.numRAMs c = w.numRAMs c := by
  unfold WiSARD.Train
  split
  · rfl
  · cases hb : w.ramNodes[cls.toNat]? with
    | none => rfl
    | some bank =>
      simp only [WiSARD.numRAMs, List.getElem?_set]
      by_cases hcc : cls.toNat = c
      · subst hcc
        have hlt : cls.toNat < w.ramNodes.length := by
          by_contra hge
          rw [List.getElem?_eq_none (Nat.le_of_not_lt hge)] at hb
          cases hb
        simp [hlt, hb, trainLoop_length]
      · simp [hcc]

theorem WiSARD.Train_address (w : WiSARD) (input : List Int) (cls : Int) (query : List Int)
    (r : Nat) : (w.Train input cls).1.address query r = w.address query r := by
  unfold WiSARD.address
  rw [(WiSARD.Train_fields w input cls).2.1]

/-- `Train` on a well-formed network, a class inside it and an input of length
`>= inputSize`: it ends normally and every count is the old one, except the count of the
address of window `r` in unit `r` of the class, which gets the Go increment. -/
theorem WiSARD.Train_ok (w : WiSARD) (hw : WF w) (input : List Int)
    (hlen : w.inputSize ≤ input.length) (cls : Int) (h0 : 0 ≤ cls) (h1 : cls < w.numClasses) :
    (w.Train input cls).2 = Status.done ∧
      (∀ c r a, (w.Train input cls).1.entry c r a =
        if c = cls.toNat ∧ r < w.numRAMs cls.toNat ∧ a = w.address input r then
          some (wrapInt (w.count c r a + 1))
        else w.entry c r a) ∧
      ∀ c r a, (w.Train input cls).1.count c r a =
        if c = cls.toNat ∧ r < w.numRAMs cls.toNat ∧ a = w.address input r then
          wrapInt (w.count c r a + 1)
        else w.count c r a := by
  obtain ⟨bank, hb, hbm, hbl⟩ := hw.bank_of_class h0 h1
  have hread : ∀ i < bank.length, ∃ a, partitionAddress w.ramSize input i = some a :=
    fun i hi => hw.readable hlen hbm hi
  have hfail : bank.length < bank.length → partitionAddress w.ramSize input bank.length = none :=
    fun h => absurd h (lt_irrefl _)
  have hS := (WiSARD.Train_unit w input cls h0 bank hb bank.length le_rfl hread hfail).1
  have hE := WiSARD.Train_entry w input cls h0 bank hb bank.length le_rfl hread hfail
  have hC := WiSARD.Train_count w input cls h0 bank hb bank.length le_rfl hread hfail
  rw [hbl] at hE hC
  exact ⟨by simpa using hS, hE, hC⟩

/-- Two banks of the same length whose units pass the test `count >= bleach` for the
same addresses give a goroutine the same result. -/
theorem activationLoop_congr (ramSize : Int) (input : List Int) (bleach : Int)
    (bank₁ bank₂ : List RAMNode) (r : Nat) (activated : Int)
    (hlen : bank₁.length = bank₂.length)
    (h : ∀ (j : Nat) (ram₁ ram₂ : RAMNode), bank₁[j]? = some ram₁ → bank₂[j]? = some ram₂ →
      ∀ a, (ram₁.count a ≥ bleach ↔ ram₂.count a ≥ bleach)) :
    activationLoop ramSize input bleach r bank₁ activated =
      activationLoop ramSize input bleach r bank₂ activated := by
  induction bank₁ generalizing bank₂ r activated with
  | nil =>
    cases bank₂ with
    | nil => rfl
    | cons y t => simp at hlen
  | cons x rest ih =>
    cases bank₂ with
    | nil => simp at hlen
    | cons y t =>
      unfold activationLoop
      cases ha : partitionAddress ramSize input r with
      | none => rfl
      | some a =>
        simp only
        have hxy := h 0 x y (by simp) (by simp) a
        have hrest := fun act => ih t (r + 1) act (by simpa using hlen)
          (fun j ram₁ ram₂ h₁ h₂ => h (j + 1) ram₁ ram₂ (by simpa using h₁) (by simpa using h₂))
        by_cases hx : x.count a ≥ bleach
        · rw [if_pos hx, if_pos (hxy.1 hx)]; exact hrest _
        · rw [if_neg hx, if_neg (fun hy => hx (hxy.2 hy))]; exact hrest _

theorem runGoroutines_congr (w₁ w₂ : WiSARD) (input : List Int) (bleach : Int)
    (h : ∀ c, goroutine w₁ input bleach c = goroutine w₂ input bleach c) (order : List Nat) :
    runGoroutines w₁ input bleach order = runGoroutines w₂ input bleach order := by
  induction order with
  | nil => rfl
  | cons c rest ih => simp only [runGoroutines, h c, ih]

/-- Training again a sample whose addresses all hold a count from 1 up to below the
`int` ceiling changes no result of any goroutine at bleach 1, for any query. -/
theorem WiSARD.Train_goroutine_seen (w : WiSARD) (hw : WF w) (input : List Int)
    (hlen : w.inputSize ≤ input.length) (cls : Int) (h0 : 0 ≤ cls) (h1 : cls < w.numClasses)
    (hseen : ∀ r < w.numRAMs cls.toNat,
      1 ≤ w.count cls.toNat r (w.address input r) ∧
        w.count cls.toNat r (w.address input r) < maxInt)
    (query : List Int) (c : Nat) :
    goroutine (w.Train input cls).1 query 1 c = goroutine w query 1 c := by
  obtain ⟨bank, hb, hbm, hbl⟩ := hw.bank_of_class h0 h1
  have hlt : cls.toNat < w.ramNodes.length := by rw [hw.banks]; omega
  have hread : ∀ i < bank.length, ∃ a, partitionAddress w.ramSize input (0 + i) = some a := by
    intro i hi; simpa using hw.readable hlen hbm hi
  obtain ⟨_, hunits⟩ := trainLoop_spec w.ramSize input bank 0 bank.length le_rfl hread
    (fun h => absurd h (lt_irrefl _))
  unfold goroutine
  rw [WiSARD.Train_ramNodes w input cls h0 bank hb, (WiSARD.Train_fields w input cls).2.1,
    List.getElem?_set]
  by_cases hcc : cls.toNat = c
  · subst hcc
    rw [if_pos rfl, if_pos hlt, hb]
    simp only
    rw [activationLoop_congr w.ramSize query 1 (trainLoop w.ramSize input 0 bank).1 bank 0 0
      (trainLoop_length _ _ _ _)]
    intro j ram₁ ram₂ h₁ h₂ a
    show ram₁.count a ≥ 1 ↔ ram₂.count a ≥ 1
    rw [hunits j, h₂] at h₁
    have hj : j < bank.length := by
      by_contra hge
      rw [List.getElem?_eq_none (Nat.le_of_not_lt hge)] at h₂
      cases h₂
    simp only [Option.map_some', hj, if_true, Option.some.injEq, Nat.zero_add] at h₁
    subst h₁
    have hcnt : w.count cls.toNat j (w.address input j) = ram₂.count (w.address input j) := by
      simp [WiSARD.count, WiSARD.entry, WiSARD.unit, hb, h₂, RAMNode.count]
    have hs := hseen j (by omega)
    rw [hcnt] at hs
    rw [RAMNode.count_Train]
    by_cases ha : a = (partitionAddress w.ramSize input j).getD ""
    · subst ha
      have hr := wrapInt_of_range (x := ram₂.count ((partitionAddress w.ramSize input j).getD "") + 1)
        (by unfold minInt; unfold WiSARD.address at hs; omega)
        (by unfold WiSARD.address at hs; omega)
      rw [if_pos rfl, hr]
      unfold WiSARD.address at hs
      constructor <;> intro _ <;> omega
    · rw [if_neg ha]
  · rw [if_neg hcc]

theorem WiSARD.Train_second_class (ram : RAMNode) :
    (WiSARD.mk [[NewRAMNode], [ram]] 1 1 2).Train [1] 1 =
      (WiSARD.mk [[NewRAMNode], [ram.Train "1"]] 1 1 2, Status.done) := rfl

theorem WiSARD.trainAll_second_class (n : Nat) (ram : RAMNode) :
    (WiSARD.mk [[NewRAMNode], [ram]] 1 1 2).trainAll (List.replicate n ([1], 1)) =
      WiSARD.mk [[NewRAMNode], [ram.trainAll (List.replicate n "1")]] 1 1 2 := by
  induction n generalizing ram with
  | zero => rfl
  | succ n ih =>
    have step :
        (WiSARD.mk [[NewRAMNode], [ram]] 1 1 2).trainAll (List.replicate (n + 1) ([1], 1)) =
          ((WiSARD.mk [[NewRAMNode], [ram]] 1 1 2).Train [1] 1).1.trainAll
            (List.replicate n ([1], 1)) := rfl
    rw [step, WiSARD.Train_second_class, ih]
    rfl

/-- The network `nearCeilingNet` is what `NewWiSARD(1, 1, 2)` becomes after `2^63 - 2`
calls `Train([1], 1)`. -/
theorem nearCeilingNet_reached :
    NewWiSARD 1 1 2 = some fresh112 ∧
      fresh112.trainAll (List.replicate (2 ^ 63 - 2) ([1], 1)) = nearCeilingNet := by
  refine ⟨rfl, ?_⟩
  have h := WiSARD.trainAll_second_class (2 ^ 63 - 2) NewRAMNode
  rw [nearCeilingNode_reached] at h
  exact h

theorem nearCeilingNet_WF : WF nearCeilingNet := by
  refine ⟨by decide, by decide, by decide, ?_, ?_, by decide, by decide⟩
  · intro bank hb
    simp only [nearCeilingNet, List.mem_cons, List.mem_singleton, List.not_mem_nil, or_false] at hb
    rcases hb with rfl | rfl <;> decide
  · intro bank hb ram hr a
    simp only [nearCeilingNet, List.mem_cons, List.mem_singleton, List.not_mem_nil, or_false] at hb
    rcases hb with rfl | rfl
    · simp only [List.mem_singleton] at hr
      subst hr
      simp [NewRAMNode, RAMNode.count, minInt, maxInt]
    · simp only [List.mem_singleton] at hr
      subst hr
      by_cases ha : a = "1"
      · subst ha; decide
      · simp [nearCeilingNode, RAMNode.count, ha, minInt, maxInt]

end Wisard

namespace Wisard

/-! ## C10 -/

/-- C10, as stated, fails near the `int` ceiling: in the two-class network that
`NewWiSARD(1, 1, 2)` becomes after `2^63 - 2` calls `Train([1], 1)`, whose class 1 holds
the count `2^63 - 2` for `"1"`, training `([1], 1)` twice more leaves that
count at `-2^63` instead of two higher, and for the query `[1]`, results delivered in
class order, `Predict` returns class 1 after one training and class 0 after two. -/
theorem C10_Train_twice_counterexample :
    (NewWiSARD 1 1 2 = some fresh112 ∧
        fresh112.trainAll (List.replicate (2 ^ 63 - 2) ([1], 1)) = nearCeilingNet) ∧
      WF nearCeilingNet ∧ nearCeilingNet.count 1 0 "1" = 2 ^ 63 - 2 ∧
      (nearCeilingNet.Train [1] 1).2 = Status.done ∧
      ((nearCeilingNet.Train [1] 1).1.Train [1] 1).2 = Status.done ∧
      ((nearCeilingNet.Train [1] 1).1.Train [1] 1).1.count 1 0 "1" = -(2 ^ 63) ∧
      ((nearCeilingNet.Train [1] 1).1.Predict [1] [] [0, 1]).2 = some 1 ∧
      (((nearCeilingNet.Train [1] 1).1.Train [1] 1).1.Predict [1] [] [0, 1]).2 = some 0 :=
  ⟨nearCeilingNet_reached, nearCeilingNet_WF, by decide, by decide, by decide, by decide,
    by decide, by decide⟩

/-- C10 (amended): for every well-formed network, class with `0 <= class < numClasses`
and input of length `>= inputSize` whose touched counts are non-negative and at most
`2^63 - 3`, training the same `(input, class)` twice raises the count of every touched
(unit, address) by exactly 2 relative to the state before training and leaves every
other entry as it was; every class's activation score at bleach 1 is the same on the
twice-trained as on the once-trained network for every query, and `Predict` with the
default bleach returns the same result on both for every query and delivery order. -/
theorem C10_Train_twice (w : WiSARD) (hw : WF w) (input : List Int)
    (hlen : w.inputSize ≤ input.length) (cls : Int) (h0 : 0 ≤ cls) (h1 : cls < w.numClasses)
    (hno : ∀ r < w.numRAMs cls.toNat,
      0 ≤ w.count cls.toNat r (w.address input r) ∧
        w.count cls.toNat r (w.address input r) + 2 ≤ maxInt) :
    (w.Train input cls).2 = Status.done ∧
      ((w.Train input cls).1.Train input cls).2 = Status.done ∧
      (∀ r < w.numRAMs cls.toNat,
        ((w.Train input cls).1.Train input cls).1.count cls.toNat r (w.address input r) =
          w.count cls.toNat r (w.address input r) + 2) ∧
      (∀ c r a, ¬ (c = cls.toNat ∧ r < w.numRAMs cls.toNat ∧ a = w.address input r) →
        ((w.Train input cls).1.Train input cls).1.entry c r a = w.entry c r a) ∧
      (∀ query c, score ((w.Train input cls).1.Train input cls).1 query 1 c =
        score (w.Train input cls).1 query 1 c) ∧
      (∀ query order, (((w.Train input cls).1.Train input cls).1.Predict query [] order).2 =
        ((w.Train input cls).1.Predict query [] order).2) := by
  obtain ⟨hS1, hE1, hC1⟩ := WiSARD.Train_ok w hw input hlen cls h0 h1
  have hw1 : WF (w.Train input cls).1 := WiSARD.Train_WF w hw input cls
  obtain ⟨hi, hr, hn, _⟩ := WiSARD.Train_fields w input cls
  have hlen1 : (w.Train input cls).1.inputSize ≤ input.length := by rw [hi]; exact hlen
  have h1' : cls < (w.Train input cls).1.numClasses := by rw [hn]; exact h1
  obtain ⟨hS2, hE2, hC2⟩ := WiSARD.Train_ok (w.Train input cls).1 hw1 input hlen1 cls h0 h1'
  simp only [WiSARD.Train_numRAMs, WiSARD.Train_address] at hE2 hC2
  have hcount1 : ∀ r < w.numRAMs cls.toNat,
      (w.Train input cls).1.count cls.toNat r (w.address input r) =
        w.count cls.toNat r (w.address input r) + 1 := by
    intro r hr'
    rw [hC1, if_pos ⟨rfl, hr', rfl⟩]
    have := hno r hr'
    exact wrapInt_of_range (by unfold minInt; omega) (by omega)
  have hseen : ∀ r < (w.Train input cls).1.numRAMs cls.toNat,
      1 ≤ (w.Train input cls).1.count cls.toNat r ((w.Train input cls).1.address input r) ∧
        (w.Train input cls).1.count cls.toNat r ((w.Train input cls).1.address input r) <
          maxInt := by
    intro r hr'
    rw [WiSARD.Train_numRAMs] at hr'
    rw [WiSARD.Train_address, hcount1 r hr']
    have := hno r hr'
    omega
  have hgo := WiSARD.Train_goroutine_seen (w.Train input cls).1 hw1 input hlen1 cls h0 h1' hseen
  refine ⟨hS1, hS2, ?_, ?_, ?_, ?_⟩
  · intro r hr'
    rw [hC2, if_pos ⟨rfl, hr', rfl⟩, hcount1 r hr']
    have := hno r hr'
    rw [wrapInt_of_range (by unfold minInt; omega) (by omega)]
    ring
  · intro c r a hnt
    rw [hE2, if_neg hnt, hE1, if_neg hnt]
  · intro query c
    unfold score
    rw [WiSARD.Train_numRAMs]
    congr 1
    apply List.filter_congr
    intro r _
    rw [WiSARD.Train_address, hC2]
    by_cases ht : c = cls.toNat ∧ r < w.numRAMs cls.toNat ∧
        (w.Train input cls).1.address query r = w.address input r
    · rw [if_pos ht]
      obtain ⟨hc, hr', ha⟩ := ht
      subst hc
      rw [ha, hcount1 r hr']
      have := hno r hr'
      rw [wrapInt_of_range (by unfold minInt; omega) (by omega)]
      simp only [decide_eq_decide]
      constructor <;> intro _ <;> omega
    · rw [if_neg ht]
  · intro query order
    unfold WiSARD.Predict
    rw [runGoroutines_congr _ _ query (bleachOf []) (fun c => hgo query c) order]
    cases runGoroutines (w.Train input cls).1 query (bleachOf []) order <;> rfl

/-- C10 witness: the untrained network of `NewWiSARD(4, 2, 2)` trained twice on
`([1, 0, 1, 1], 1)`. -/
theorem C10_Train_twice_witness :
    (fresh422.Train [1, 0, 1, 1] 1).2 = Status.done ∧
      ((fresh422.Train [1, 0, 1, 1] 1).1.Train [1, 0, 1, 1] 1).2 = Status.done ∧
      (∀ r < fresh422.numRAMs (1 : Int).toNat,
        ((fresh422.Train [1, 0, 1, 1] 1).1.Train [1, 0, 1, 1] 1).1.count (1 : Int).toNat r
            (fresh422.address [1, 0, 1, 1] r) =
          fresh422.count (1 : Int).toNat r (fresh422.address [1, 0, 1, 1] r) + 2) ∧
      (∀ c r a, ¬ (c = (1 : Int).toNat ∧ r < fresh422.numRAMs (1 : Int).toNat ∧
          a = fresh422.address [1, 0, 1, 1] r) →
        ((fresh422.Train [1, 0, 1, 1] 1).1.Train [1, 0, 1, 1] 1).1.entry c r a =
          fresh422.entry c r a) ∧
      (∀ query c, score ((fresh422.Train [1, 0, 1, 1] 1).1.Train [1, 0, 1, 1] 1).1 query 1 c =
        score (fresh422.Train [1, 0, 1, 1] 1).1 query 1 c) ∧
      (∀ query order,
        (((fresh422.Train [1, 0, 1, 1] 1).1.Train [1, 0, 1, 1] 1).1.Predict query [] order).2 =
          ((fresh422.Train [1, 0, 1, 1] 1).1.Predict query [] order).2) :=
  C10_Train_twice fresh422 fresh422_WF [1, 0, 1, 1] (by decide) 1 (by decide) (by decide)
    (by decide)

end Wisard

namespace Wisard

/-! ## C13 -/

/-- C13, as stated, fails for lengths the runtime rejects: `NewWiSARD(2^62, 1, 1)` and
`NewWiSARD(2^45 + 1, 1, 1)` (`inputSize >= 0`, `ramSize > 0`, `numClasses >= 0`) panic in
`make([]*RAMNode, numRAMs)`, and `NewWiSARD(4, 2, 2^62)` panics in
`make([][]*RAMNode, numClasses)`: no network is built. -/
theorem C13_NewWiSARD_limit_counterexample :
    NewWiSARD (2 ^ 62) 1 1 = none ∧ NewWiSARD 35184372088833 1 1 = none ∧
      NewWiSARD 4 2 (2 ^ 62) = none :=
  ⟨rfl, rfl, rfl⟩

/-- C13 (amended): for every `int` `inputSize >= 0`, `ramSize > 0` and
`numClasses >= 0`, `NewWiSARD(inputSize, ramSize, numClasses)` panics exactly when a
`make` length is over the runtime's limit (`24 * numClasses > 2^48` bytes, or
`numClasses > 0` and `8 * (inputSize / ramSize) > 2^48` bytes); otherwise it returns a
network, and every network it returns has exactly `numClasses` banks of exactly
`inputSize / ramSize` (integer division) units each, `numClasses * (inputSize / ramSize)`
units in total, every unit with an empty count table, and `inputSize`, `ramSize` and
`numClasses` recorded unchanged. -/
theorem C13_NewWiSARD_shape (inputSize ramSize numClasses : Int) (hi0 : 0 ≤ inputSize)
    (himax : inputSize ≤ maxInt) (hr : 0 < ramSize) (hn : 0 ≤ numClasses) :
    (NewWiSARD inputSize ramSize numClasses = none ↔
        maxAlloc < 24 * numClasses ∨
          (0 < numClasses ∧ maxAlloc < 8 * (inputSize / ramSize))) ∧
      (24 * numClasses ≤ maxAlloc →
        (0 < numClasses → 8 * (inputSize / ramSize) ≤ maxAlloc) →
        ∃ w, NewWiSARD inputSize ramSize numClasses = some w) ∧
      ∀ w, NewWiSARD inputSize ramSize numClasses = some w →
        w.inputSize = inputSize ∧ w.ramSize = ramSize ∧ w.numClasses = numClasses ∧
        (w.ramNodes.length : Int) = numClasses ∧
        (∀ bank ∈ w.ramNodes, (bank.length : Int) = inputSize / ramSize) ∧
        Int.tdiv inputSize ramSize = inputSize / ramSize ∧
        (w.totalUnits : Int) = numClasses * (inputSize / ramSize) ∧
        (∀ bank ∈ w.ramNodes, ∀ ram ∈ bank, ∀ a, ram.memory a = none) ∧
        ∀ c r a, w.entry c r a = none := by
  have ht : Int.tdiv inputSize ramSize = inputSize / ramSize :=
    Int.tdiv_eq_ediv hi0 (le_of_lt hr)
  have hq0 : 0 ≤ inputSize / ramSize := Int.ediv_nonneg hi0 (le_of_lt hr)
  have hqle : inputSize / ramSize ≤ inputSize := Int.ediv_le_self _ hi0
  have hwrap : wrapInt (Int.tdiv inputSize ramSize) = inputSize / ramSize := by
    rw [ht]; exact wrapInt_of_range (by unfold minInt; omega) (by omega)
  have hiff : NewWiSARD inputSize ramSize numClasses = none ↔
      maxAlloc < 24 * numClasses ∨
        (0 < numClasses ∧ maxAlloc < 8 * (inputSize / ramSize)) := by
    unfold NewWiSARD
    rw [if_neg (by omega)]
    simp only [hwrap, makePanics, decide_eq_true_eq]
    by_cases hA : numClasses < 0 ∨ maxAlloc < 24 * numClasses
    · rw [if_pos hA]
      simp only [true_iff]
      rcases hA with h | h
      · omega
      · exact Or.inl h
    · rw [if_neg hA]
      by_cases hB : 0 < numClasses ∧
          (inputSize / ramSize < 0 ∨ maxAlloc < 8 * (inputSize / ramSize))
      · rw [if_pos hB]
        simp only [true_iff]
        rcases hB with ⟨h1, h2 | h2⟩
        · omega
        · exact Or.inr ⟨h1, h2⟩
      · rw [if_neg hB]
        simp only [reduceCtorEq, false_iff]
        rintro (h | ⟨h1, h2⟩)
        · exact hA (Or.inr h)
        · exact hB ⟨h1, Or.inr h2⟩
  refine ⟨hiff, ?_, ?_⟩
  · intro h1 h2
    cases hN : NewWiSARD inputSize ramSize numClasses with
    | some w => exact ⟨w, rfl⟩
    | none =>
      exfalso
      rcases hiff.1 hN with h | ⟨h3, h4⟩
      · omega
      · have := h2 h3; omega
  · intro w hN
    obtain ⟨_, _, _, _, rfl⟩ := NewWiSARD_eq_some _ _ _ _ hN
    rw [hwrap]
    refine ⟨rfl, rfl, rfl, ?_, ?_, ht, ?_, ?_, ?_⟩
    · simp only [List.length_replicate]; omega
    · intro bank hb
      obtain ⟨_, rfl⟩ := List.mem_replicate.1 hb
      simp only [List.length_replicate]; omega
    · simp only [WiSARD.totalUnits, List.map_replicate, List.length_replicate,
        List.sum_replicate, smul_eq_mul]
      push_cast
      rw [Int.toNat_of_nonneg hn, Int.toNat_of_nonneg hq0]
    · intro bank hb ram hram a
      obtain ⟨_, rfl⟩ := List.mem_replicate.1 hb
      obtain ⟨_, rfl⟩ := List.mem_replicate.1 hram
      rfl
    · intro c r a
      simp only [WiSARD.entry, WiSARD.unit, List.getElem?_replicate]
      by_cases hc : c < numClasses.toNat
      · by_cases hr' : r < (inputSize / ramSize).toNat
        · simp [hc, hr', NewRAMNode]
        · simp [hc, hr', List.getElem?_replicate]
      · simp [hc]

/-- C13 witness: `NewWiSARD(10, 3, 2)`. -/
theorem C13_NewWiSARD_shape_witness :
    (NewWiSARD 10 3 2 = none ↔
        maxAlloc < 24 * 2 ∨ ((0 : Int) < 2 ∧ maxAlloc < 8 * (10 / 3))) ∧
      (24 * 2 ≤ maxAlloc → ((0 : Int) < 2 → 8 * (10 / 3) ≤ maxAlloc) →
        ∃ w, NewWiSARD 10 3 2 = some w) ∧
      ∀ w, NewWiSARD 10 3 2 = some w →
        w.inputSize = 10 ∧ w.ramSize = 3 ∧ w.numClasses = 2 ∧
        (w.ramNodes.length : Int) = 2 ∧
        (∀ bank ∈ w.ramNodes, (bank.length : Int) = 10 / 3) ∧
        Int.tdiv 10 3 = 10 / 3 ∧
        (w.totalUnits : Int) = 2 * (10 / 3) ∧
        (∀ bank ∈ w.ramNodes, ∀ ram ∈ bank, ∀ a, ram.memory a = none) ∧
        ∀ c r a, w.entry c r a = none :=
  C13_NewWiSARD_shape 10 3 2 (by decide) (by decide) (by decide) (by decide)

/-! ## C14 -/

/-- The sign of the number of units `NewWiSARD` computes, for `int` arguments: the Go
quotient `inputSize / ramSize` is negative exactly when the operands have opposite signs
and `|inputSize| >= |ramSize|`, or when `minInt / -1` wraps. -/
theorem wrapInt_tdiv_neg_iff (i r : Int) (hi : minInt ≤ i ∧ i ≤ maxInt)
    (hr : minInt ≤ r ∧ r ≤ maxInt) (hr0 : r ≠ 0) :
    wrapInt (Int.tdiv i r) < 0 ↔
      (0 < r ∧ i ≤ -r) ∨ (r < 0 ∧ -r ≤ i) ∨ (i = minInt ∧ r = -1) := by
  unfold minInt maxInt at hi hr
  rcases lt_or_gt_of_ne hr0 with hneg | hpos
  · by_cases hi0 : 0 ≤ i
    · have ht : Int.tdiv i r = -(i / (-r)) := by
        have h1 : r = -(-r) := by ring
        rw [h1, Int.tdiv_neg, Int.tdiv_eq_ediv hi0 (by omega)]
        simp
      have hq0 : 0 ≤ i / (-r) := Int.ediv_nonneg hi0 (by omega)
      have hqle : i / (-r) ≤ i := Int.ediv_le_self _ hi0
      have hge : 1 ≤ i / (-r) ↔ 1 * (-r) ≤ i := Int.le_ediv_iff_mul_le (by omega)
      rw [ht, wrapInt_of_range (by unfold minInt; omega) (by unfold maxInt; omega)]
      unfold minInt
      omega
    · have ht : Int.tdiv i r = (-i) / (-r) := by
        have h1 : r = -(-r) := by ring
        have h2 : i = -(-i) := by ring
        rw [h1, h2, Int.neg_tdiv, Int.tdiv_neg, neg_neg,
          Int.tdiv_eq_ediv (by omega) (by omega)]
        simp
      have hq0 : 0 ≤ (-i) / (-r) := Int.ediv_nonneg (by omega) (by omega)
      have hqle : (-i) / (-r) ≤ -i := Int.ediv_le_self _ (by omega)
      have hge : (2 : Int) ^ 63 ≤ (-i) / (-r) ↔ 2 ^ 63 * (-r) ≤ -i :=
        Int.le_ediv_iff_mul_le (by omega)
      rw [ht]
      unfold wrapInt minInt
      omega
  · by_cases hi0 : 0 ≤ i
    · have ht : Int.tdiv i r = i / r := Int.tdiv_eq_ediv hi0 (le_of_lt hpos)
      have hq0 : 0 ≤ i / r := Int.ediv_nonneg hi0 (le_of_lt hpos)
      have hqle : i / r ≤ i := Int.ediv_le_self _ hi0
      rw [ht, wrapInt_of_range (by unfold minInt; omega) (by unfold maxInt; omega)]
      unfold minInt
      omega
    · have ht : Int.tdiv i r = -((-i) / r) := by
        have h2 : i = -(-i) := by ring
        rw [h2, Int.neg_tdiv, Int.tdiv_eq_ediv (by omega) (le_of_lt hpos)]
        simp
      have hq0 : 0 ≤ (-i) / r := Int.ediv_nonneg (by omega) (le_of_lt hpos)
      have hqle : (-i) / r ≤ -i := Int.ediv_le_self _ (by omega)
      have hge : 1 ≤ (-i) / r ↔ 1 * r ≤ -i := Int.le_ediv_iff_mul_le hpos
      rw [ht, wrapInt_of_range (by unfold minInt; omega) (by unfold maxInt; omega)]
      unfold minInt
      omega

/-- C14, as stated, fails: `NewWiSARD(0, 1, 1)` (`inputSize = 0`) returns a network
with one bank of no units, `NewWiSARD(4, 2, 0)` (`numClasses = 0`) returns a network
with no bank, and `NewWiSARD(-4, -2, 1)` (`inputSize`, `ramSize` negative) returns a
network with one bank of two units. -/
theorem C14_NewWiSARD_unvalidated_counterexample :
    (NewWiSARD 0 1 1).map (fun w => w.ramNodes.map List.length) = some [0] ∧
      (NewWiSARD 4 2 0).map (fun w => w.ramNodes.map List.length) = some [] ∧
      (NewWiSARD (-4) (-2) 1).map (fun w => w.ramNodes.map List.length) = some [2] := by
  decide

/-- C14 (amended): `NewWiSARD` validates nothing and has no `InvalidConfig` error.  For
`int` arguments it fails, by a run-time panic, exactly when `ramSize = 0` (division by
zero), or `numClasses < 0`, or `24 * numClasses > 2^48` bytes (the runtime's limit for
`make`), or `numClasses > 0` and the number of units `inputSize / ramSize` is negative
(operands of opposite sign with `|inputSize| >= |ramSize|`, or `minInt / -1`) or has
`8 * (inputSize / ramSize) > 2^48` bytes; in every other case it returns a network, in
particular when all three parameters are strictly positive and within the limit, but
also for `inputSize = 0`, for `numClasses = 0`, and for `inputSize` and `ramSize` both
negative. -/
theorem C14_NewWiSARD_fails_iff (inputSize ramSize numClasses : Int)
    (hi : minInt ≤ inputSize ∧ inputSize ≤ maxInt) (hr : minInt ≤ ramSize ∧ ramSize ≤ maxInt) :
    (NewWiSARD inputSize ramSize numClasses = none ↔
        ramSize = 0 ∨ numClasses < 0 ∨ maxAlloc < 24 * numClasses ∨
          (0 < numClasses ∧
            ((0 < ramSize ∧ inputSize ≤ -ramSize) ∨ (ramSize < 0 ∧ -ramSize ≤ inputSize) ∨
              (inputSize = minInt ∧ ramSize = -1) ∨
              maxAlloc < 8 * Int.tdiv inputSize ramSize))) ∧
      (0 < inputSize → 0 < ramSize → 0 < numClasses →
        24 * numClasses ≤ maxAlloc → 8 * (inputSize / ramSize) ≤ maxAlloc →
        ∃ w, NewWiSARD inputSize ramSize numClasses = some w) := by
  have hiff : NewWiSARD inputSize ramSize numClasses = none ↔
      ramSize = 0 ∨ numClasses < 0 ∨ maxAlloc < 24 * numClasses ∨
        (0 < numClasses ∧
          ((0 < ramSize ∧ inputSize ≤ -ramSize) ∨ (ramSize < 0 ∧ -ramSize ≤ inputSize) ∨
            (inputSize = minInt ∧ ramSize = -1) ∨
            maxAlloc < 8 * Int.tdiv inputSize ramSize)) := by
    by_cases hr0 : ramSize = 0
    · simp [NewWiSARD, hr0]
    · have hs := wrapInt_tdiv_neg_iff inputSize ramSize hi hr hr0
      have ht := tdiv_range (b := ramSize) hi
      have hs2 : (wrapInt (Int.tdiv inputSize ramSize) < 0 ∨
            maxAlloc < 8 * wrapInt (Int.tdiv inputSize ramSize)) ↔
          ((0 < ramSize ∧ inputSize ≤ -ramSize) ∨ (ramSize < 0 ∧ -ramSize ≤ inputSize) ∨
            (inputSize = minInt ∧ ramSize = -1) ∨
            maxAlloc < 8 * Int.tdiv inputSize ramSize) := by
        by_cases hmax : Int.tdiv inputSize ramSize ≤ maxInt
        · have hw := wrapInt_of_range ht.1 hmax
          rw [hw] at hs ⊢
          rw [hs]
          constructor
          · rintro ((h | h | h) | h)
            · exact Or.inl h
            · exact Or.inr (Or.inl h)
            · exact Or.inr (Or.inr (Or.inl h))
            · exact Or.inr (Or.inr (Or.inr h))
          · rintro (h | h | h | h)
            · exact Or.inl (Or.inl h)
            · exact Or.inl (Or.inr (Or.inl h))
            · exact Or.inl (Or.inr (Or.inr h))
            · exact Or.inr h
        · have hv : Int.tdiv inputSize ramSize = 2 ^ 63 := by unfold maxInt at *; omega
          have hneg : wrapInt (Int.tdiv inputSize ramSize) < 0 := by rw [hv]; decide
          constructor
          · intro _
            rcases hs.1 hneg with h | h | h
            · exact Or.inl h
            · exact Or.inr (Or.inl h)
            · exact Or.inr (Or.inr (Or.inl h))
          · intro _
            exact Or.inl hneg
      unfold NewWiSARD
      rw [if_neg hr0]
      simp only [makePanics, decide_eq_true_eq]
      by_cases hA : numClasses < 0 ∨ maxAlloc < 24 * numClasses
      · rw [if_pos hA]
        simp only [true_iff]
        rcases hA with h | h
        · exact Or.inr (Or.inl h)
        · exact Or.inr (Or.inr (Or.inl h))
      · rw [if_neg hA]
        by_cases hB : 0 < numClasses ∧
            (wrapInt (Int.tdiv inputSize ramSize) < 0 ∨
              maxAlloc < 8 * wrapInt (Int.tdiv inputSize ramSize))
        · rw [if_pos hB]
          simp only [true_iff]
          exact Or.inr (Or.inr (Or.inr ⟨hB.1, hs2.1 hB.2⟩))
        · rw [if_neg hB]
          simp only [reduceCtorEq, false_iff]
          rintro (h | h | h | ⟨h1, h2⟩)
          · exact hr0 h
          · exact hA (Or.inl h)
          · exact hA (Or.inr h)
          · exact hB ⟨h1, hs2.2 h2⟩
  refine ⟨hiff, ?_⟩
  intro h1 h2 h3 h4 h5
  have ht : Int.tdiv inputSize ramSize = inputSize / ramSize :=
    Int.tdiv_eq_ediv (le_of_lt h1) (le_of_lt h2)
  cases hN : NewWiSARD inputSize ramSize numClasses with
  | some w => exact ⟨w, rfl⟩
  | none =>
    exfalso
    rcases hiff.1 hN with h | h | h | ⟨_, h | h | h | h⟩
    · omega
    · omega
    · omega
    · omega
    · omega
    · unfold minInt at h; omega
    · rw [ht] at h; omega

/-- C14 witness: `NewWiSARD(4, -2, 1)`, where `4 / -2 = -2` units are asked for. -/
theorem C14_NewWiSARD_fails_iff_witness :
    (NewWiSARD 4 (-2) 1 = none ↔
        (-2 : Int) = 0 ∨ (1 : Int) < 0 ∨ maxAlloc < 24 * 1 ∨
          ((0 : Int) < 1 ∧
            (((0 : Int) < -2 ∧ (4 : Int) ≤ - -2) ∨ ((-2 : Int) < 0 ∧ - -2 ≤ (4 : Int)) ∨
              ((4 : Int) = minInt ∧ (-2 : Int) = -1) ∨
              maxAlloc < 8 * Int.tdiv 4 (-2)))) ∧
      ((0 : Int) < 4 → (0 : Int) < -2 → (0 : Int) < 1 →
        24 * 1 ≤ maxAlloc → 8 * ((4 : Int) / -2) ≤ maxAlloc →
        ∃ w, NewWiSARD 4 (-2) 1 = some w) :=
  C14_NewWiSARD_fails_iff 4 (-2) 1 (by decide) (by decide)

/-! ## C15 -/

/-- C15: for every well-formed network, every input and every class label outside
`[0, numClasses)` (negative or `>= numClasses`), `WiSARD.Train(input, class)` fails (the
slice read `w.ramNodes[class]` panics before any unit is touched; no bank is indexed)
and leaves the network, hence every count of every unit, unchanged. -/
theorem C15_Train_invalid_class (w : WiSARD) (hw : WF w) (input : List Int) (cls : Int)
    (hout : cls < 0 ∨ w.numClasses ≤ cls) :
    (w.Train input cls).2 = Status.panicked ∧ (w.Train input cls).1 = w ∧
      (∀ c r a, (w.Train input cls).1.entry c r a = w.entry c r a ∧
        (w.Train input cls).1.count c r a = w.count c r a) ∧
      (0 ≤ cls → w.ramNodes[cls.toNat]? = none) := by
  have hnone : 0 ≤ cls → w.ramNodes[cls.toNat]? = none := by
    intro h0
    apply List.getElem?_eq_none
    rw [hw.banks]
    have := hw.numClasses_nonneg
    omega
  have hT : w.Train input cls = (w, Status.panicked) := by
    unfold WiSARD.Train
    by_cases hneg : cls < 0
    · rw [if_pos hneg]
    · rw [if_neg hneg, hnone (by omega)]
  rw [hT]
  exact ⟨rfl, rfl, fun c r a => ⟨rfl, rfl⟩, hnone⟩

/-- C15 witness: the network of `NewWiSARD(4, 2, 2)` and the class label 2. -/
theorem C15_Train_invalid_class_witness :
    (fresh422.Train [1, 0, 1, 1] 2).2 = Status.panicked ∧
      (fresh422.Train [1, 0, 1, 1] 2).1 = fresh422 ∧
      (∀ c r a, (fresh422.Train [1, 0, 1, 1] 2).1.entry c r a = fresh422.entry c r a ∧
        (fresh422.Train [1, 0, 1, 1] 2).1.count c r a = fresh422.count c r a) ∧
      ((0 : Int) ≤ 2 → fresh422.ramNodes[(2 : Int).toNat]? = none) :=
  C15_Train_invalid_class fresh422 fresh422_WF [1, 0, 1, 1] 2 (Or.inr (by decide))

end Wisard

namespace Wisard

/-! ## Inputs that agree on the windows -/

theorem addressLoop_congr_input (x y : List Int) (n : Nat) (i : Int) (acc : String)
    (h : ∀ j : Nat, j < n → index x (i + j) = index y (i + j)) :
    addressLoop x n i acc = addressLoop y n i acc := by
  induction n generalizing i acc with
  | zero => rfl
  | succ n ih =>
    have h0 : index x i = index y i := by simpa using h 0 (by omega)
    have hstep : ∀ j : Nat, j < n → index x (i + 1 + j) = index y (i + 1 + j) := by
      intro j hj
      have := h (j + 1) (by omega)
      rw [show i + ((j + 1 : Nat) : Int) = i + 1 + (j : Int) by push_cast; ring] at this
      exact this
    unfold addressLoop
    rw [h0]
    cases index y i with
    | none => rfl
    | some v => exact ih (i + 1) _ hstep

/-- Two inputs with the same elements below `numRAMs * ramSize` give every partition of a
well-formed network the same address (or the same panic). -/
theorem WF.partitionAddress_congr {w : WiSARD} (hw : WF w) (x y : List Int)
    (hag : ∀ i : Nat, (i : Int) < Int.tdiv w.inputSize w.ramSize * w.ramSize → x[i]? = y[i]?)
    {bank : List RAMNode} (hb : bank ∈ w.ramNodes) {r : Nat} (hr : r < bank.length) :
    partitionAddress w.ramSize x r = partitionAddress w.ramSize y r := by
  rcases lt_or_gt_of_ne hw.ramSize_ne with hneg | hpos
  · rw [partitionAddress_of_neg _ _ _ hneg, partitionAddress_of_neg _ _ _ hneg]
  · unfold partitionAddress buildAddress
    apply addressLoop_congr_input
    intro j hj
    rw [show (r : Int) * w.ramSize + w.ramSize - (r : Int) * w.ramSize = w.ramSize by ring] at hj
    have hu := hw.units bank hb
    have h0 : (0 : Int) ≤ (r : Int) * w.ramSize := by positivity
    have hlt : (r : Int) * w.ramSize + j < Int.tdiv w.inputSize w.ramSize * w.ramSize := by
      have h1 : ((r : Int) + 1) * w.ramSize ≤ Int.tdiv w.inputSize w.ramSize * w.ramSize := by
        apply mul_le_mul_of_nonneg_right _ (le_of_lt hpos)
        omega
      have h2 : ((r : Int) + 1) * w.ramSize = (r : Int) * w.ramSize + w.ramSize := by ring
      omega
    have hnat := hag ((r : Int) * w.ramSize + j).toNat (by omega)
    unfold index
    rw [if_neg (by omega), if_neg (by omega)]
    exact hnat

theorem trainLoop_congr_input (ramSize : Int) (x y : List Int) (bank : List RAMNode) (r : Nat)
    (h : ∀ j < bank.length, partitionAddress ramSize x (r + j) = partitionAddress ramSize y (r + j)) :
    trainLoop ramSize x r bank = trainLoop ramSize y r bank := by
  induction bank generalizing r with
  | nil => rfl
  | cons ram rest ih =>
    have h0 : partitionAddress ramSize x r = partitionAddress ramSize y r := by
      simpa using h 0 (by simp)
    have hrest := ih (r + 1) (fun j hj => by
      have := h (j + 1) (by simpa using hj)
      rwa [show r + (j + 1) = r + 1 + j by omega] at this)
    unfold trainLoop
    rw [h0, hrest]

theorem activationLoop_congr_input (ramSize : Int) (x y : List Int) (bleach : Int)
    (bank : List RAMNode) (r : Nat) (activated : Int)
    (h : ∀ j < bank.length, partitionAddress ramSize x (r + j) = partitionAddress ramSize y (r + j)) :
    activationLoop ramSize x bleach r bank activated =
      activationLoop ramSize y bleach r bank activated := by
  induction bank generalizing r activated with
  | nil => rfl
  | cons ram rest ih =>
    have h0 : partitionAddress ramSize x r = partitionAddress ramSize y r := by
      simpa using h 0 (by simp)
    have hrest := fun act => ih (r + 1) act (fun j hj => by
      have := h (j + 1) (by simpa using hj)
      rwa [show r + (j + 1) = r + 1 + j by omega] at this)
    unfold activationLoop
    rw [h0]
    cases partitionAddress ramSize y r with
    | none => rfl
    | some a => exact hrest _

theorem runGoroutines_congr_input (w : WiSARD) (x y : List Int) (bleach : Int)
    (h : ∀ c, goroutine w x bleach c = goroutine w y bleach c) (order : List Nat) :
    runGoroutines w x bleach order = runGoroutines w y bleach order := by
  induction order with
  | nil => rfl
  | cons c rest ih => simp only [runGoroutines, h c, ih]

theorem NewWiSARD_fresh1032 : NewWiSARD 10 3 2 = some fresh1032 := rfl

theorem fresh1032_WF : WF fresh1032 :=
  NewWiSARD_WF 10 3 2 fresh1032 (by decide) (by decide) NewWiSARD_fresh1032

/-! ## C12 -/

/-- C12, as stated, fails for the result of `Predict`: on the untrained network of
`NewWiSARD(10, 3, 2)` the inputs `[1,0,1,1,0,0,1,1,1,0]` and `[1,0,1,1,0,0,1,1,1,1]`
agree on the indices `[0, 9)` and give both classes the score 0, yet `Predict` with the
first returns class 0 when the results arrive in the order 0, 1 and `Predict` with the
second returns class 1 when they arrive in the order 1, 0. -/
theorem C12_Predict_order_counterexample :
    NewWiSARD 10 3 2 = some fresh1032 ∧
      IsDelivery fresh1032 [0, 1] ∧ IsDelivery fresh1032 [1, 0] ∧
      (([1, 0, 1, 1, 0, 0, 1, 1, 1, 0] : List Int).take 9 =
        ([1, 0, 1, 1, 0, 0, 1, 1, 1, 1] : List Int).take 9) ∧
      score fresh1032 [1, 0, 1, 1, 0, 0, 1, 1, 1, 0] 1 0 = 0 ∧
      score fresh1032 [1, 0, 1, 1, 0, 0, 1, 1, 1, 1] 1 1 = 0 ∧
      (fresh1032.Predict [1, 0, 1, 1, 0, 0, 1, 1, 1, 0] [] [0, 1]).2 = some 0 ∧
      (fresh1032.Predict [1, 0, 1, 1, 0, 0, 1, 1, 1, 1] [] [1, 0]).2 = some 1 :=
  ⟨rfl, List.Perm.refl _, List.Perm.swap 0 1 [], by decide, by decide, by decide, by decide,
    by decide⟩


/-- C12 (amended): elements of the input at indices `>= numRAMs * ramSize`
(`numRAMs = inputSize / ramSize`, integer division) are never read: for every well-formed
network and every two inputs that agree on the indices `[0, numRAMs * ramSize)`, `Train`
with either input (for any class) ends the same way in the same memory state, every
goroutine of `Predict` sends the same result, the activation scores are the same, and
for the same bleach and the same delivery order of the goroutine results `Predict`
returns the same result. -/
theorem C12_trailing_elements_ignored (w : WiSARD) (hw : WF w) (x y : List Int)
    (hag : ∀ i : Nat, (i : Int) < Int.tdiv w.inputSize w.ramSize * w.ramSize → x[i]? = y[i]?) :
    (∀ cls, w.Train x cls = w.Train y cls) ∧
      (∀ bleach c, goroutine w x bleach c = goroutine w y bleach c ∧
        score w x bleach c = score w y bleach c) ∧
      (∀ bleaching order, w.Predict x bleaching order = w.Predict y bleaching order) := by
  have hpa : ∀ bank ∈ w.ramNodes, ∀ j < bank.length,
      partitionAddress w.ramSize x (0 + j) = partitionAddress w.ramSize y (0 + j) := by
    intro bank hb j hj
    simpa using hw.partitionAddress_congr x y hag hb hj
  have hgo : ∀ bleach c, goroutine w x bleach c = goroutine w y bleach c := by
    intro bleach c
    unfold goroutine
    cases hb : w.ramNodes[c]? with
    | none => rfl
    | some bank =>
      simp only
      rw [activationLoop_congr_input w.ramSize x y bleach bank 0 0
        (hpa bank (List.getElem?_mem hb))]
  refine ⟨?_, ?_, ?_⟩
  · intro cls
    unfold WiSARD.Train
    split
    · rfl
    · cases hb : w.ramNodes[cls.toNat]? with
      | none => rfl
      | some bank =>
        simp only
        rw [trainLoop_congr_input w.ramSize x y bank 0 (hpa bank (List.getElem?_mem hb))]
  · intro bleach c
    refine ⟨hgo bleach c, ?_⟩
    unfold score
    congr 1
    apply List.filter_congr
    intro r hr
    have hr' : r < w.numRAMs c := List.mem_range.1 hr
    cases hb : w.ramNodes[c]? with
    | none => simp [WiSARD.numRAMs, hb] at hr'
    | some bank =>
      have hrb : r < bank.length := by simpa [WiSARD.numRAMs, hb] using hr'
      have := hw.partitionAddress_congr x y hag (List.getElem?_mem hb) hrb
      simp only [WiSARD.address, this]
  · intro bleaching order
    unfold WiSARD.Predict
    rw [runGoroutines_congr_input w x y (bleachOf bleaching) (hgo _) order]

/-- C12 witness: `inputSize = 10`, `ramSize = 3` (`numRAMs = 3`) and two inputs that
differ only at index 9. -/
theorem C12_trailing_elements_ignored_witness :
    NewWiSARD 10 3 2 = some fresh1032 ∧
      ([1, 0, 1, 1, 0, 0, 1, 1, 1, 0] : List Int)[9]? ≠
        ([1, 0, 1, 1, 0, 0, 1, 1, 1, 1] : List Int)[9]? ∧
      ((∀ cls, fresh1032.Train [1, 0, 1, 1, 0, 0, 1, 1, 1, 0] cls =
          fresh1032.Train [1, 0, 1, 1, 0, 0, 1, 1, 1, 1] cls) ∧
        (∀ bleach c,
          goroutine fresh1032 [1, 0, 1, 1, 0, 0, 1, 1, 1, 0] bleach c =
            goroutine fresh1032 [1, 0, 1, 1, 0, 0, 1, 1, 1, 1] bleach c ∧
          score fresh1032 [1, 0, 1, 1, 0, 0, 1, 1, 1, 0] bleach c =
            score fresh1032 [1, 0, 1, 1, 0, 0, 1, 1, 1, 1] bleach c) ∧
        (∀ bleaching order,
          fresh1032.Predict [1, 0, 1, 1, 0, 0, 1, 1, 1, 0] bleaching order =
            fresh1032.Predict [1, 0, 1, 1, 0, 0, 1, 1, 1, 1] bleaching order)) :=
  ⟨rfl, by decide,
    C12_trailing_elements_ignored fresh1032 fresh1032_WF [1, 0, 1, 1, 0, 0, 1, 1, 1, 0]
      [1, 0, 1, 1, 0, 0, 1, 1, 1, 1]
      (by
        intro i hi
        have h9 : Int.tdiv fresh1032.inputSize fresh1032.ramSize * fresh1032.ramSize = 9 := by
          decide
        rw [h9] at hi
        have hi' : i < 9 := by omega
        interval_cases i <;> rfl)⟩

end Wisard

namespace Wisard

/-! ## Networks built by `NewWiSARD` and trained -/

theorem NewWiSARD_fields (inputSize ramSize numClasses : Int) (w : WiSARD)
    (h : NewWiSARD inputSize ramSize numClasses = some w) :
    w.inputSize = inputSize ∧ w.ramSize = ramSize ∧ w.numClasses = numClasses := by
  obtain ⟨_, _, _, _, rfl⟩ := NewWiSARD_eq_some _ _ _ _ h
  exact ⟨rfl, rfl, rfl⟩

/-- Every count table of a network just returned by `NewWiSARD` is empty. -/
theorem NewWiSARD_entry (inputSize ramSize numClasses : Int) (w : WiSARD)
    (h : NewWiSARD inputSize ramSize numClasses = some w) (c r : Nat) (a : String) :
    w.entry c r a = none := by
  obtain ⟨_, _, _, _, rfl⟩ := NewWiSARD_eq_some _ _ _ _ h
  simp only [WiSARD.entry, WiSARD.unit, List.getElem?_replicate]
  by_cases hc : c < numClasses.toNat
  · by_cases hr' : r < (wrapInt (Int.tdiv inputSize ramSize)).toNat
    · simp [hc, hr', NewRAMNode]
    · simp [hc, hr', List.getElem?_replicate]
  · simp [hc]

theorem WiSARD.trainAll_cons (w : WiSARD) (sample : List Int × Int)
    (samples : List (List Int × Int)) :
    w.trainAll (sample :: samples) = (w.Train sample.1 sample.2).1.trainAll samples := rfl

theorem WiSARD.trainAll_WF (w : WiSARD) (hw : WF w) (samples : List (List Int × Int)) :
    WF (w.trainAll samples) := by
  induction samples generalizing w with
  | nil => exact hw
  | cons s rest ih =>
    rw [WiSARD.trainAll_cons]
    exact ih _ (WiSARD.Train_WF w hw s.1 s.2)

theorem WiSARD.trainAll_fields (w : WiSARD) (samples : List (List Int × Int)) :
    (w.trainAll samples).inputSize = w.inputSize ∧ (w.trainAll samples).ramSize = w.ramSize ∧
      (w.trainAll samples).numClasses = w.numClasses ∧
      ∀ c, (w.trainAll samples).numRAMs c = w.numRAMs c := by
  induction samples generalizing w with
  | nil => exact ⟨rfl, rfl, rfl, fun _ => rfl⟩
  | cons s rest ih =>
    rw [WiSARD.trainAll_cons]
    obtain ⟨h1, h2, h3, h4⟩ := ih (w.Train s.1 s.2).1
    obtain ⟨f1, f2, f3, _⟩ := WiSARD.Train_fields w s.1 s.2
    exact ⟨by rw [h1, f1], by rw [h2, f2], by rw [h3, f3],
      fun c => by rw [h4 c, WiSARD.Train_numRAMs]⟩

/-- `Predict` on a well-formed network returns (no goroutine panics) for an input of
length `>= inputSize` and any delivery of classes inside the network. -/
theorem WiSARD.Predict_isSome (w : WiSARD) (hw : WF w) (input : List Int)
    (hlen : w.inputSize ≤ input.length) (bleaching : List Int) (order : List Nat)
    (hin : ∀ c ∈ order, c < w.numClasses.toNat) :
    ∃ p, (w.Predict input bleaching order).2 = some p := by
  have hrun := runGoroutines_map w input (bleachOf bleaching) order
    (fun c => ⟨(c : Int), (score w input (bleachOf bleaching) c : Int)⟩)
    (fun c hc => goroutine_eq_score w hw input hlen _ c (hin c hc))
  unfold WiSARD.Predict
  rw [hrun]
  exact ⟨_, rfl⟩

theorem WF.numRAMs_eq {w : WiSARD} (hw : WF w) {c : Nat} (hc : c < w.numClasses.toNat) :
    (w.numRAMs c : Int) = Int.tdiv w.inputSize w.ramSize ∧
      ∃ bank, w.ramNodes[c]? = some bank ∧ bank ∈ w.ramNodes ∧ bank.length = w.numRAMs c := by
  have hlt : c < w.ramNodes.length := by rw [hw.banks]; exact hc
  have hb : w.ramNodes[c]? = some (w.ramNodes.get ⟨c, hlt⟩) := List.getElem?_eq_getElem hlt
  have hm := List.get_mem w.ramNodes c hlt
  have hn : (w.ramNodes.get ⟨c, hlt⟩).length = w.numRAMs c := by
    simp [WiSARD.numRAMs, hb]
  refine ⟨?_, _, hb, hm, hn⟩
  rw [← hn]
  exact hw.units _ hm

/-! ## C18 -/

/-- C18: for every network built by `NewWiSARD` with `int` arguments `ramSize > 0`,
`inputSize >= 0` and `numClasses >= 0`, in any state reached by `Train` calls, every
input with `len(input) >= inputSize` and every class with `0 <= class < numClasses`, no
slice access of `Train` or `Predict` is out of range: `Train` ends normally, `Predict`
returns for every delivery order, every bank index below `numClasses` and every unit
index below `numRAMs` is inside `ramNodes`, and every index `i` of a window satisfies
`0 <= i < numRAMs * ramSize <= inputSize <= len(input)` and is read successfully. -/
theorem C18_index_safety (inputSize ramSize numClasses : Int) (w₀ : WiSARD)
    (hN : NewWiSARD inputSize ramSize numClasses = some w₀)
    (hi : 0 ≤ inputSize ∧ inputSize ≤ maxInt) (hr : 0 < ramSize ∧ ramSize ≤ maxInt)
    (hn : 0 ≤ numClasses) (samples : List (List Int × Int)) (input : List Int)
    (hlen : inputSize ≤ input.length) (cls : Int) (h0 : 0 ≤ cls) (h1 : cls < numClasses) :
    ((w₀.trainAll samples).Train input cls).2 = Status.done ∧
      (∀ bleaching order, IsDelivery (w₀.trainAll samples) order →
        ∃ p, ((w₀.trainAll samples).Predict input bleaching order).2 = some p) ∧
      (∀ c : Nat, (c : Int) < numClasses →
        (∃ bank, (w₀.trainAll samples).ramNodes[c]? = some bank) ∧
        ∀ r : Nat, r < (w₀.trainAll samples).numRAMs c →
          (∃ ram, (w₀.trainAll samples).unit c r = some ram) ∧
          ∀ i : Int, (r : Int) * ramSize ≤ i → i < (r : Int) * ramSize + ramSize →
            0 ≤ i ∧ i < ((w₀.trainAll samples).numRAMs c : Int) * ramSize ∧
            ((w₀.trainAll samples).numRAMs c : Int) * ramSize ≤ inputSize ∧
            inputSize ≤ input.length ∧ ∃ v, index input i = some v) := by
  obtain ⟨f1, f2, f3⟩ := NewWiSARD_fields _ _ _ _ hN
  have hw₀ : WF w₀ :=
    NewWiSARD_WF _ _ _ _ ⟨by unfold minInt; omega, hi.2⟩ ⟨by unfold minInt; omega, hr.2⟩ hN
  have hw : WF (w₀.trainAll samples) := WiSARD.trainAll_WF w₀ hw₀ samples
  obtain ⟨g1, g2, g3, _⟩ := WiSARD.trainAll_fields w₀ samples
  have e1 : (w₀.trainAll samples).inputSize = inputSize := by rw [g1, f1]
  have e2 : (w₀.trainAll samples).ramSize = ramSize := by rw [g2, f2]
  have e3 : (w₀.trainAll samples).numClasses = numClasses := by rw [g3, f3]
  have hlen' : (w₀.trainAll samples).inputSize ≤ input.length := by rw [e1]; exact hlen
  refine ⟨?_, ?_, ?_⟩
  · exact (WiSARD.Train_ok _ hw input hlen' cls h0 (by rw [e3]; exact h1)).1
  · intro bleaching order hord
    exact WiSARD.Predict_isSome _ hw input hlen' bleaching order
      (fun c hc => (hord.mem_iff c).1 hc)
  · intro c hc
    have hc' : c < (w₀.trainAll samples).numClasses.toNat := by rw [e3]; omega
    obtain ⟨hnum, bank, hb, hbm, hbl⟩ := hw.numRAMs_eq hc'
    refine ⟨⟨bank, hb⟩, ?_⟩
    intro r hr'
    have hrb : r < bank.length := by omega
    refine ⟨⟨bank.get ⟨r, hrb⟩, by simp [WiSARD.unit, hb, List.getElem?_eq_getElem hrb]⟩, ?_⟩
    intro i hi1 hi2
    have hpos : 0 < (w₀.trainAll samples).ramSize := by rw [e2]; exact hr.1
    have hwin := hw.window_le hpos hbm hrb
    rw [e1, e2] at hwin
    have hlast := hw.window_le hpos hbm
      (r := bank.length - 1) (by omega)
    rw [e1, e2] at hlast
    have hcast : ((bank.length - 1 : Nat) : Int) + 1 = (bank.length : Int) := by omega
    rw [hcast, hbl] at hlast
    have hr0 : (0 : Int) ≤ (r : Int) * ramSize := by
      have := hr.1; positivity
    have hmono : ((r : Int) + 1) * ramSize ≤ ((w₀.trainAll samples).numRAMs c : Int) * ramSize := by
      apply mul_le_mul_of_nonneg_right _ (le_of_lt hr.1)
      omega
    have hsplit : ((r : Int) + 1) * ramSize = (r : Int) * ramSize + ramSize := by ring
    have hi0 : 0 ≤ i := by omega
    refine ⟨hi0, by omega, hlast, hlen, ?_⟩
    have hlt : i.toNat < input.length := by omega
    exact ⟨_, index_of_lt hi0 hlt⟩

/-- C18 witness: `NewWiSARD(10, 3, 2)` trained once, then used with an input of
length 10 and class 1. -/
theorem C18_index_safety_witness :
    ((fresh1032.trainAll [([1, 0, 1, 1, 0, 0, 1, 1, 1, 0], 0)]).Train
        [0, 0, 1, 1, 0, 1, 1, 0, 1, 1] 1).2 = Status.done ∧
      (∀ bleaching order,
        IsDelivery (fresh1032.trainAll [([1, 0, 1, 1, 0, 0, 1, 1, 1, 0], 0)]) order →
        ∃ p, ((fresh1032.trainAll [([1, 0, 1, 1, 0, 0, 1, 1, 1, 0], 0)]).Predict
          [0, 0, 1, 1, 0, 1, 1, 0, 1, 1] bleaching order).2 = some p) ∧
      (∀ c : Nat, (c : Int) < 2 →
        (∃ bank, (fresh1032.trainAll [([1, 0, 1, 1, 0, 0, 1, 1, 1, 0], 0)]).ramNodes[c]? =
          some bank) ∧
        ∀ r : Nat, r < (fresh1032.trainAll [([1, 0, 1, 1, 0, 0, 1, 1, 1, 0], 0)]).numRAMs c →
          (∃ ram, (fresh1032.trainAll [([1, 0, 1, 1, 0, 0, 1, 1, 1, 0], 0)]).unit c r =
            some ram) ∧
          ∀ i : Int, (r : Int) * 3 ≤ i → i < (r : Int) * 3 + 3 →
            0 ≤ i ∧
            i < ((fresh1032.trainAll [([1, 0, 1, 1, 0, 0, 1, 1, 1, 0], 0)]).numRAMs c : Int) * 3 ∧
            ((fresh1032.trainAll [([1, 0, 1, 1, 0, 0, 1, 1, 1, 0], 0)]).numRAMs c : Int) * 3 ≤
              10 ∧
            (10 : Int) ≤ ([0, 0, 1, 1, 0, 1, 1, 0, 1, 1] : List Int).length ∧
            ∃ v, index [0, 0, 1, 1, 0, 1, 1, 0, 1, 1] i = some v) :=
  C18_index_safety 10 3 2 fresh1032 NewWiSARD_fresh1032 (by decide) (by decide) (by decide)
    [([1, 0, 1, 1, 0, 0, 1, 1, 1, 0], 0)] [0, 0, 1, 1, 0, 1, 1, 0, 1, 1] (by decide) 1
    (by decide) (by decide)

end Wisard

namespace Wisard

/-! ## Scores of trained patterns -/

theorem score_eq_numRAMs (w : WiSARD) (input : List Int) (bleach : Int) (c : Nat)
    (h : ∀ r < w.numRAMs c, bleach ≤ w.count c r (w.address input r)) :
    score w input bleach c = w.numRAMs c := by
  unfold score
  rw [List.filter_eq_self.2]
  · simp
  · intro r hr
    simpa using h r (List.mem_range.1 hr)

theorem score_eq_zero (w : WiSARD) (input : List Int) (bleach : Int) (c : Nat)
    (h : ∀ r < w.numRAMs c, w.count c r (w.address input r) < bleach) :
    score w input bleach c = 0 := by
  unfold score
  rw [List.length_eq_zero, List.filter_eq_nil_iff]
  intro r hr
  have := h r (List.mem_range.1 hr)
  simp only [decide_eq_true_eq]
  omega

/-- When one class scores strictly more than every other class, `Predict` returns it,
whatever the delivery order. -/
theorem WiSARD.Predict_unique_max (w : WiSARD) (hw : WF w) (input : List Int)
    (hlen : w.inputSize ≤ input.length) (bleaching : List Int) (order : List Nat)
    (hord : IsDelivery w order) (q : Nat) (hq : q < w.numClasses.toNat)
    (huniq : ∀ c : Nat, c < w.numClasses.toNat → c ≠ q →
      score w input (bleachOf bleaching) c < score w input (bleachOf bleaching) q) :
    (w.Predict input bleaching order).2 = some (q : Int) := by
  obtain ⟨p, hp, hpn, hmax⟩ :=
    WiSARD.Predict_max w hw (by omega) input hlen bleaching order hord
  by_cases hpq : p = q
  · rw [hp, hpq]
  · exfalso
    have h1 := huniq p hpn hpq
    have h2 := hmax q hq
    omega

/-- `Train` on a well-formed network whose counts all lie in `[0, N]`, `N` below the
`int` ceiling: the touched counts go up by 1, the others stay, and all counts lie in
`[0, N + 1]`. -/
theorem WiSARD.Train_count_bounded (w : WiSARD) (hw : WF w) (input : List Int)
    (hlen : w.inputSize ≤ input.length) (cls : Int) (h0 : 0 ≤ cls) (h1 : cls < w.numClasses)
    (N : Int) (hN : N < maxInt) (hb : ∀ c r a, 0 ≤ w.count c r a ∧ w.count c r a ≤ N) :
    (∀ c r a, (w.Train input cls).1.count c r a =
        if c = cls.toNat ∧ r < w.numRAMs cls.toNat ∧ a = w.address input r then
          w.count c r a + 1
        else w.count c r a) ∧
      ∀ c r a, 0 ≤ (w.Train input cls).1.count c r a ∧ (w.Train input cls).1.count c r a ≤ N + 1 := by
  obtain ⟨_, _, hC⟩ := WiSARD.Train_ok w hw input hlen cls h0 h1
  have key : ∀ c r a, (w.Train input cls).1.count c r a =
      if c = cls.toNat ∧ r < w.numRAMs cls.toNat ∧ a = w.address input r then
        w.count c r a + 1
      else w.count c r a := by
    intro c r a
    rw [hC]
    have := hb c r a
    split
    · exact wrapInt_of_range (by unfold minInt; omega) (by omega)
    · rfl
  refine ⟨key, ?_⟩
  intro c r a
  rw [key]
  have := hb c r a
  split <;> omega

/-- A new node after `n >= 1` calls `Train("1")` holds the count `n` reduced to a Go
`int` for `"1"` and nothing else. -/
theorem RAMNode.trainAll_replicate_wrap (n : Nat) (hn : 0 < n) :
    NewRAMNode.trainAll (List.replicate n "1") =
      ⟨fun k => if k = "1" then some (wrapInt (n : Int)) else none⟩ := by
  have key : ∀ k, (NewRAMNode.trainAll (List.replicate n "1")).memory k =
      (if k = "1" then some (wrapInt (n : Int)) else none) := by
    intro k
    rw [RAMNode.memory_trainAll]
    by_cases hk : k = "1"
    · subst hk
      have hm : "1" ∈ List.replicate n "1" := by
        rw [List.mem_replicate]; exact ⟨by omega, rfl⟩
      have h0 : NewRAMNode.count "1" = 0 := rfl
      rw [if_pos hm, List.count_replicate_self, h0, zero_add, if_pos rfl]
    · have hm : ¬ k ∈ List.replicate n "1" := by
        rw [List.mem_replicate]; exact fun h => hk h.2
      rw [if_neg hm, if_neg hk]
      rfl
  cases hr : NewRAMNode.trainAll (List.replicate n "1") with
  | mk m =>
    rw [hr] at key
    have : m = fun k => if k = "1" then some (wrapInt (n : Int)) else none := funext key
    rw [this]

/-- The network `wrappedNet` is what `NewWiSARD(1, 1, 1)` becomes after `2^63` calls
`Train([1], 0)`. -/
theorem wrappedNet_reached :
    NewWiSARD 1 1 1 = some fresh111 ∧
      fresh111.trainAll (List.replicate (2 ^ 63) ([1], 0)) = wrappedNet := by
  refine ⟨rfl, ?_⟩
  have h := WiSARD.trainAll_one_unit (2 ^ 63) NewRAMNode
  rw [RAMNode.trainAll_replicate_wrap (2 ^ 63) (by decide)] at h
  rw [show fresh111 = WiSARD.mk [[NewRAMNode]] 1 1 1 from rfl, h]
  have hv : wrapInt ((2 ^ 63 : Nat) : Int) = minInt := by decide
  rw [hv]
  rfl

theorem wrappedNet_WF : WF wrappedNet := by
  refine ⟨by decide, by decide, by decide, ?_, ?_, by decide, by decide⟩
  · intro bank hb
    simp only [wrappedNet, List.mem_singleton] at hb
    subst hb; decide
  · intro bank hb ram hr a
    simp only [wrappedNet, List.mem_singleton] at hb
    subst hb
    simp only [List.mem_singleton] at hr
    subst hr
    by_cases ha : a = "1"
    · subst ha; decide
    · simp [wrappedNode, RAMNode.count, ha, minInt, maxInt]

/-! ## C16 -/

/-- C16, as stated, fails on a wrapped count: in the network that `NewWiSARD(1, 1, 1)`
becomes after `2^63` calls `Train([1], 0)` the count of `"1"` is `-2^63`, so with
bleach 0 the only partition of class 0 does not activate for the input `[1]`: the score
is 0, not `numRAMs = 1`. -/
theorem C16_bleach_zero_counterexample :
    (NewWiSARD 1 1 1 = some fresh111 ∧
        fresh111.trainAll (List.replicate (2 ^ 63) ([1], 0)) = wrappedNet) ∧
      WF wrappedNet ∧ wrappedNet.numRAMs 0 = 1 ∧ wrappedNet.count 0 0 "1" = -(2 ^ 63) ∧
      goroutine wrappedNet [1] (bleachOf [0]) 0 = some ⟨0, 0⟩ ∧
      score wrappedNet [1] 0 0 = 0 :=
  ⟨wrappedNet_reached, wrappedNet_WF, by decide, by decide, by decide, by decide⟩

/-- C16 (amended): with bleach 0 every partition of every class activates regardless
of training, as long as no count of a queried address is negative: for every
well-formed network state in which the counts of the input's addresses are
non-negative (as they are until a count wraps) and every input of length
`>= inputSize`, the activation score that `Predict(input, 0)` computes for every class
equals `numRAMs`; an absent address counts as 0. -/
theorem C16_bleach_zero (w : WiSARD) (hw : WF w) (input : List Int)
    (hlen : w.inputSize ≤ input.length)
    (hnn : ∀ c r, 0 ≤ w.count c r (w.address input r)) :
    (∀ c r a, w.entry c r a = none → w.count c r a = 0) ∧
      ∀ c : Nat, (c : Int) < w.numClasses →
        goroutine w input (bleachOf [0]) c = some ⟨(c : Int), (w.numRAMs c : Int)⟩ ∧
        score w input 0 c = w.numRAMs c ∧
        (w.numRAMs c : Int) = Int.tdiv w.inputSize w.ramSize := by
  refine ⟨fun c r a h => by simp [WiSARD.count, h], ?_⟩
  intro c hc
  have hc' : c < w.numClasses.toNat := by omega
  have hs : score w input 0 c = w.numRAMs c :=
    score_eq_numRAMs w input 0 c (fun r _ => hnn c r)
  have hg := goroutine_eq_score w hw input hlen (bleachOf [0]) c hc'
  have hb : bleachOf [0] = 0 := rfl
  rw [hb, hs] at hg
  exact ⟨by rw [hb]; exact hg, hs, (hw.numRAMs_eq hc').1⟩

/-- C16 witness: the network of `NewWiSARD(4, 2, 2)` trained on `[1, 0, 1, 1]` for
class 1, queried with `[0, 0, 0, 0]`. -/
theorem C16_bleach_zero_witness :
    (∀ c r a, (fresh422.Train [1, 0, 1, 1] 1).1.entry c r a = none →
        (fresh422.Train [1, 0, 1, 1] 1).1.count c r a = 0) ∧
      ∀ c : Nat, (c : Int) < (fresh422.Train [1, 0, 1, 1] 1).1.numClasses →
        goroutine (fresh422.Train [1, 0, 1, 1] 1).1 [0, 0, 0, 0] (bleachOf [0]) c =
          some ⟨(c : Int), ((fresh422.Train [1, 0, 1, 1] 1).1.numRAMs c : Int)⟩ ∧
        score (fresh422.Train [1, 0, 1, 1] 1).1 [0, 0, 0, 0] 0 c =
          (fresh422.Train [1, 0, 1, 1] 1).1.numRAMs c ∧
        ((fresh422.Train [1, 0, 1, 1] 1).1.numRAMs c : Int) =
          Int.tdiv (fresh422.Train [1, 0, 1, 1] 1).1.inputSize
            (fresh422.Train [1, 0, 1, 1] 1).1.ramSize :=
  C16_bleach_zero (fresh422.Train [1, 0, 1, 1] 1).1
    (WiSARD.Train_WF fresh422 fresh422_WF [1, 0, 1, 1] 1) [0, 0, 0, 0] (by decide)
    (fun c r =>
      ((WiSARD.Train_count_bounded fresh422 fresh422_WF [1, 0, 1, 1] (by decide) 1 (by decide)
        (by decide) 0 (by decide)
        (fun c r a => by
          have h : fresh422.entry c r a = none :=
            NewWiSARD_entry 4 2 2 fresh422 NewWiSARD_fresh422 c r a
          simp [WiSARD.count, h])).2 c r _).1)

end Wisard

namespace Wisard

/-! ## Counts after a sequence of trainings -/

theorem WiSARD.trainAll_address (w : WiSARD) (samples : List (List Int × Int))
    (query : List Int) (r : Nat) : (w.trainAll samples).address query r = w.address query r := by
  unfold WiSARD.address
  rw [(WiSARD.trainAll_fields w samples).2.1]

theorem WiSARD.validSample_Train (w : WiSARD) (input : List Int) (cls : Int)
    (sample : List Int × Int) :
    (w.Train input cls).1.validSample sample ↔ w.validSample sample := by
  obtain ⟨h1, _, h3, _⟩ := WiSARD.Train_fields w input cls
  unfold WiSARD.validSample
  rw [h1, h3]

/-- As long as no count can reach the `int` ceiling, the count of an address in a unit
after a sequence of valid trainings is its count before plus the number of samples of
the unit's class whose window for the unit's partition has that address. -/
theorem WiSARD.trainAll_count (samples : List (List Int × Int)) (w : WiSARD) (hw : WF w)
    (hvalid : ∀ s ∈ samples, w.validSample s) (N : Int)
    (hb : ∀ c r a, 0 ≤ w.count c r a ∧ w.count c r a ≤ N)
    (hN : N + samples.length ≤ maxInt) (c r : Nat) (a : String) :
    (w.trainAll samples).count c r a =
      w.count c r a + (samples.countP (fun s =>
        decide (c = s.2.toNat ∧ r < w.numRAMs c ∧ a = w.address s.1 r)) : Int) := by
  induction samples generalizing w N with
  | nil => simp [WiSARD.trainAll]
  | cons s rest ih =>
    obtain ⟨h0, h1, hlen⟩ := hvalid s (List.mem_cons_self _ _)
    have hlen' : (N : Int) + 1 + (rest.length : Int) ≤ maxInt := by
      simp only [List.length_cons] at hN
      push_cast at hN
      omega
    obtain ⟨hcount, hbound⟩ :=
      WiSARD.Train_count_bounded w hw s.1 hlen s.2 h0 h1 N (by omega) hb
    have hrest := ih (w.Train s.1 s.2).1 (WiSARD.Train_WF w hw s.1 s.2)
      (fun t ht => (WiSARD.validSample_Train w s.1 s.2 t).2
        (hvalid t (List.mem_cons_of_mem _ ht)))
      (N + 1) hbound hlen'
    rw [WiSARD.trainAll_cons, hrest, hcount c r a]
    simp only [WiSARD.Train_numRAMs, WiSARD.Train_address]
    by_cases ht : c = s.2.toNat ∧ r < w.numRAMs c ∧ a = w.address s.1 r
    · have ht' : c = s.2.toNat ∧ r < w.numRAMs s.2.toNat ∧ a = w.address s.1 r :=
        ⟨ht.1, by rw [← ht.1]; exact ht.2.1, ht.2.2⟩
      rw [if_pos ht', List.countP_cons_of_pos _ rest (decide_eq_true ht)]
      push_cast
      ring
    · have ht' : ¬ (c = s.2.toNat ∧ r < w.numRAMs s.2.toNat ∧ a = w.address s.1 r) := by
        rintro ⟨e1, e2, e3⟩
        exact ht ⟨e1, by rw [e1]; exact e2, e3⟩
      rw [if_neg ht', List.countP_cons_of_neg _ rest (by simpa using ht)]

/-- The counts of an untrained network are all 0. -/
theorem NewWiSARD_count (inputSize ramSize numClasses : Int) (w : WiSARD)
    (h : NewWiSARD inputSize ramSize numClasses = some w) (c r : Nat) (a : String) :
    0 ≤ w.count c r a ∧ w.count c r a ≤ 0 := by
  have := NewWiSARD_entry inputSize ramSize numClasses w h c r a
  simp [WiSARD.count, this]

/-! ## C17 -/

/-- C17, as stated, fails at the `int` ceiling: in the network that
`NewWiSARD(1, 1, 1)` becomes after `2^63 - 1` calls `Train([1], 0)`, one more
`Train([1], 0)` wraps the count of `"1"` to `-2^63`, and the activation score of class 0
for `[1]` at bleach 1 is then 0, not `numRAMs = 1`. -/
theorem C17_recall_ceiling_counterexample :
    (NewWiSARD 1 1 1 = some fresh111 ∧
        fresh111.trainAll (List.replicate (2 ^ 63 - 1) ([1], 0)) = ceilingNet) ∧
      WF ceilingNet ∧ (ceilingNet.Train [1] 0).2 = Status.done ∧
      (ceilingNet.Train [1] 0).1.numRAMs 0 = 1 ∧
      score (ceilingNet.Train [1] 0).1 [1] 1 0 = 0 ∧
      goroutine (ceilingNet.Train [1] 0).1 [1] (bleachOf []) 0 = some ⟨0, 0⟩ :=
  ⟨ceilingNet_reached, ceilingNet_WF, by decide, by decide, by decide, by decide⟩

/-- C17 (amended): for every well-formed network state, every class `c` with
`0 <= c < numClasses` and every input `x` of length `>= inputSize` whose addresses hold,
in the units of class `c`, counts that are non-negative and below the `int` ceiling
`2^63 - 1`, after `Train(x, c)` the activation score of class `c` for `x` at bleach 1
equals `numRAMs`; in particular, on a network just built by `NewWiSARD` (for `int`
arguments) with `numRAMs >= 1`, `Train(x, c)` followed by `Predict(x)` returns `c`,
whatever the delivery order of the per-class results. -/
theorem C17_recall :
    (∀ (w : WiSARD), WF w → ∀ (x : List Int) (cls : Int), w.inputSize ≤ x.length →
      0 ≤ cls → cls < w.numClasses →
      (∀ r < w.numRAMs cls.toNat,
        0 ≤ w.count cls.toNat r (w.address x r) ∧
          w.count cls.toNat r (w.address x r) < maxInt) →
      (w.Train x cls).2 = Status.done ∧
        score (w.Train x cls).1 x 1 cls.toNat = (w.Train x cls).1.numRAMs cls.toNat ∧
        ((w.Train x cls).1.numRAMs cls.toNat : Int) = Int.tdiv w.inputSize w.ramSize) ∧
      (∀ (inputSize ramSize numClasses : Int) (w₀ : WiSARD) (x : List Int) (cls : Int),
        NewWiSARD inputSize ramSize numClasses = some w₀ →
        minInt ≤ inputSize ∧ inputSize ≤ maxInt → minInt ≤ ramSize ∧ ramSize ≤ maxInt →
        1 ≤ Int.tdiv inputSize ramSize → inputSize ≤ x.length →
        0 ≤ cls → cls < numClasses →
        ∀ order, IsDelivery (w₀.Train x cls).1 order →
          ((w₀.Train x cls).1.Predict x [] order).2 = some cls) := by
  constructor
  · intro w hw x cls hlen h0 h1 hno
    obtain ⟨hS, _, hC⟩ := WiSARD.Train_ok w hw x hlen cls h0 h1
    refine ⟨hS, ?_, ?_⟩
    · apply score_eq_numRAMs
      intro r hr
      rw [WiSARD.Train_numRAMs] at hr
      rw [WiSARD.Train_address, hC, if_pos ⟨rfl, hr, rfl⟩]
      have := hno r hr
      rw [wrapInt_of_range (by unfold minInt; omega) (by omega)]
      omega
    · rw [WiSARD.Train_numRAMs]
      exact (hw.numRAMs_eq (by omega)).1
  · intro inputSize ramSize numClasses w₀ x cls hN hi hr hnum hlen h0 h1 order hord
    obtain ⟨f1, f2, f3⟩ := NewWiSARD_fields _ _ _ _ hN
    have hw₀ : WF w₀ := NewWiSARD_WF _ _ _ _ hi hr hN
    have hlen₀ : w₀.inputSize ≤ x.length := by rw [f1]; exact hlen
    have h1₀ : cls < w₀.numClasses := by rw [f3]; exact h1
    obtain ⟨hcount, _⟩ := WiSARD.Train_count_bounded w₀ hw₀ x hlen₀ cls h0 h1₀ 0 (by decide)
      (NewWiSARD_count _ _ _ _ hN)
    have hz : ∀ c r a, w₀.count c r a = 0 := fun c r a => by
      have := NewWiSARD_count _ _ _ _ hN c r a; omega
    have hw₁ : WF (w₀.Train x cls).1 := WiSARD.Train_WF w₀ hw₀ x cls
    obtain ⟨g1, _, g3, _⟩ := WiSARD.Train_fields w₀ x cls
    have hq : cls.toNat < (w₀.Train x cls).1.numClasses.toNat := by rw [g3]; omega
    have hnumq : 1 ≤ (w₀.Train x cls).1.numRAMs cls.toNat := by
      have := (hw₁.numRAMs_eq hq).1
      rw [g1, (WiSARD.Train_fields w₀ x cls).2.1, f1, f2] at this
      omega
    have hsq : score (w₀.Train x cls).1 x (bleachOf []) cls.toNat =
        (w₀.Train x cls).1.numRAMs cls.toNat := by
      apply score_eq_numRAMs
      intro r hr
      rw [WiSARD.Train_numRAMs] at hr
      rw [WiSARD.Train_address, hcount, if_pos ⟨rfl, hr, rfl⟩, hz]
      decide
    have hres := WiSARD.Predict_unique_max (w₀.Train x cls).1 hw₁ x (by rw [g1]; exact hlen₀)
      [] order hord cls.toNat hq (by
        intro c _ hne
        rw [hsq]
        have hzero : score (w₀.Train x cls).1 x (bleachOf []) c = 0 := by
          apply score_eq_zero
          intro r _
          rw [hcount, if_neg (fun h => hne h.1), hz]
          decide
        rw [hzero]
        omega)
    rw [hres, Int.toNat_of_nonneg h0]

/-- C17 witness: the network of `NewWiSARD(4, 2, 2)`, the input `[1, 0, 1, 1]` and
class 1, with the results delivered in the order 0, 1. -/
theorem C17_recall_witness :
    ((fresh422.Train [1, 0, 1, 1] 1).2 = Status.done ∧
        score (fresh422.Train [1, 0, 1, 1] 1).1 [1, 0, 1, 1] 1 (1 : Int).toNat =
          (fresh422.Train [1, 0, 1, 1] 1).1.numRAMs (1 : Int).toNat ∧
        ((fresh422.Train [1, 0, 1, 1] 1).1.numRAMs (1 : Int).toNat : Int) =
          Int.tdiv fresh422.inputSize fresh422.ramSize) ∧
      ((fresh422.Train [1, 0, 1, 1] 1).1.Predict [1, 0, 1, 1] [] [0, 1]).2 = some 1 :=
  ⟨C17_recall.1 fresh422 fresh422_WF [1, 0, 1, 1] 1 (by decide) (by decide) (by decide)
      (by decide),
    C17_recall.2 4 2 2 fresh422 [1, 0, 1, 1] 1 NewWiSARD_fresh422 (by decide) (by decide)
      (by decide) (by decide) (by decide) (by decide) [0, 1] (List.Perm.refl _)⟩

end Wisard

namespace Wisard

/-! ## C11 -/

/-- C11: on a network just built by `NewWiSARD` (for `int` arguments) with
`numClasses >= 2` and `numRAMs >= 1`, after training class 0 three times and class 1
once on the same input `x` of length `>= inputSize` (in any order of the four calls),
`Predict(x, 2)` returns class 0 for every delivery order: at bleach 2 class 0 scores
`numRAMs` and class 1 scores 0, whereas at bleach 1 classes 0 and 1 both score
`numRAMs`. -/
theorem C11_bleaching (inputSize ramSize numClasses : Int) (w₀ : WiSARD) (x : List Int)
    (hN : NewWiSARD inputSize ramSize numClasses = some w₀)
    (hi : minInt ≤ inputSize ∧ inputSize ≤ maxInt) (hr : minInt ≤ ramSize ∧ ramSize ≤ maxInt)
    (hn : 2 ≤ numClasses) (hnum : 1 ≤ Int.tdiv inputSize ramSize)
    (hlen : inputSize ≤ x.length) (samples : List (List Int × Int))
    (hs : samples.Perm [(x, 0), (x, 0), (x, 0), (x, 1)]) :
    (∀ order, IsDelivery (w₀.trainAll samples) order →
        ((w₀.trainAll samples).Predict x [2] order).2 = some 0) ∧
      score (w₀.trainAll samples) x 2 0 = (w₀.trainAll samples).numRAMs 0 ∧
      score (w₀.trainAll samples) x 2 1 = 0 ∧
      score (w₀.trainAll samples) x 1 0 = (w₀.trainAll samples).numRAMs 0 ∧
      score (w₀.trainAll samples) x 1 1 = (w₀.trainAll samples).numRAMs 1 ∧
      ((w₀.trainAll samples).numRAMs 0 : Int) = Int.tdiv inputSize ramSize ∧
      ((w₀.trainAll samples).numRAMs 1 : Int) = Int.tdiv inputSize ramSize := by
  obtain ⟨f1, f2, f3⟩ := NewWiSARD_fields _ _ _ _ hN
  have hw₀ : WF w₀ := NewWiSARD_WF _ _ _ _ hi hr hN
  have hw : WF (w₀.trainAll samples) := WiSARD.trainAll_WF w₀ hw₀ samples
  obtain ⟨g1, g2, g3, g4⟩ := WiSARD.trainAll_fields w₀ samples
  have hz : ∀ c r a, w₀.count c r a = 0 := fun c r a => by
    have := NewWiSARD_count _ _ _ _ hN c r a; omega
  have hvalid : ∀ s ∈ samples, w₀.validSample s := by
    intro s hs'
    have hmem := (List.Perm.mem_iff hs).1 hs'
    simp only [List.mem_cons, List.mem_singleton, List.not_mem_nil, or_false] at hmem
    unfold WiSARD.validSample
    rw [f1, f3]
    rcases hmem with rfl | rfl | rfl | rfl <;>
      exact ⟨by norm_num, by show (_ : Int) < numClasses; omega, hlen⟩
  have hlen4 : samples.length = 4 := by rw [hs.length_eq]; rfl
  have hcount : ∀ c r, r < w₀.numRAMs c →
      (w₀.trainAll samples).count c r (w₀.address x r) =
        if c = 0 then 3 else if c = 1 then 1 else 0 := by
    intro c r hr'
    rw [WiSARD.trainAll_count samples w₀ hw₀ hvalid 0 (NewWiSARD_count _ _ _ _ hN)
      (by rw [hlen4]; decide), hz, hs.countP_eq]
    by_cases h0 : c = 0
    · subst h0
      simp [List.countP_cons, hr']
    · by_cases h1 : c = 1
      · subst h1
        simp [List.countP_cons, hr']
      · have e0 : ¬ c = (0 : Int).toNat := h0
        have e1 : ¬ c = (1 : Int).toNat := h1
        simp [List.countP_cons, h0, h1, e0, e1]
  have hc0 : (0 : Nat) < (w₀.trainAll samples).numClasses.toNat := by rw [g3, f3]; omega
  have hc1 : (1 : Nat) < (w₀.trainAll samples).numClasses.toNat := by rw [g3, f3]; omega
  have hn0 : ((w₀.trainAll samples).numRAMs 0 : Int) = Int.tdiv inputSize ramSize := by
    rw [(hw.numRAMs_eq hc0).1, g1, g2, f1, f2]
  have hn1 : ((w₀.trainAll samples).numRAMs 1 : Int) = Int.tdiv inputSize ramSize := by
    rw [(hw.numRAMs_eq hc1).1, g1, g2, f1, f2]
  have hfull : ∀ (b : Int) (c : Nat), b ≤ (if c = 0 then 3 else if c = 1 then 1 else 0) →
      score (w₀.trainAll samples) x b c = (w₀.trainAll samples).numRAMs c := by
    intro b c hb
    apply score_eq_numRAMs
    intro r hr'
    rw [g4] at hr'
    rw [WiSARD.trainAll_address, hcount c r hr']
    exact hb
  have hnone : ∀ (b : Int) (c : Nat), (if c = 0 then 3 else if c = 1 then 1 else 0) < b →
      score (w₀.trainAll samples) x b c = 0 := by
    intro b c hb
    apply score_eq_zero
    intro r hr'
    rw [g4] at hr'
    rw [WiSARD.trainAll_address, hcount c r hr']
    exact hb
  have hs20 := hfull 2 0 (by decide)
  refine ⟨?_, hs20, hnone 2 1 (by decide), hfull 1 0 (by decide), hfull 1 1 (by decide),
    hn0, hn1⟩
  intro order hord
  have hres := WiSARD.Predict_unique_max (w₀.trainAll samples) hw x
    (by rw [g1, f1]; exact hlen) [2] order hord 0 hc0 (by
      intro c _ hne
      have hb : bleachOf [2] = 2 := rfl
      rw [hb, hs20, hnone 2 c (by
        rw [if_neg hne]
        split <;> decide)]
      omega)
  exact hres

/-- C11 witness: `NewWiSARD(4, 2, 2)`, the input `[1, 0, 1, 1]`, trained for class 0,
class 1, class 0, class 0. -/
theorem C11_bleaching_witness :
    (∀ order,
        IsDelivery (fresh422.trainAll
          [([1, 0, 1, 1], 0), ([1, 0, 1, 1], 1), ([1, 0, 1, 1], 0), ([1, 0, 1, 1], 0)]) order →
        ((fresh422.trainAll
          [([1, 0, 1, 1], 0), ([1, 0, 1, 1], 1), ([1, 0, 1, 1], 0), ([1, 0, 1, 1], 0)]).Predict
            [1, 0, 1, 1] [2] order).2 = some 0) ∧
      score (fresh422.trainAll
        [([1, 0, 1, 1], 0), ([1, 0, 1, 1], 1), ([1, 0, 1, 1], 0), ([1, 0, 1, 1], 0)])
          [1, 0, 1, 1] 2 0 =
        (fresh422.trainAll
          [([1, 0, 1, 1], 0), ([1, 0, 1, 1], 1), ([1, 0, 1, 1], 0), ([1, 0, 1, 1], 0)]).numRAMs 0 ∧
      score (fresh422.trainAll
        [([1, 0, 1, 1], 0), ([1, 0, 1, 1], 1), ([1, 0, 1, 1], 0), ([1, 0, 1, 1], 0)])
          [1, 0, 1, 1] 2 1 = 0 ∧
      score (fresh422.trainAll
        [([1, 0, 1, 1], 0), ([1, 0, 1, 1], 1), ([1, 0, 1, 1], 0), ([1, 0, 1, 1], 0)])
          [1, 0, 1, 1] 1 0 =
        (fresh422.trainAll
          [([1, 0, 1, 1], 0), ([1, 0, 1, 1], 1), ([1, 0, 1, 1], 0), ([1, 0, 1, 1], 0)]).numRAMs 0 ∧
      score (fresh422.trainAll
        [([1, 0, 1, 1], 0), ([1, 0, 1, 1], 1), ([1, 0, 1, 1], 0), ([1, 0, 1, 1], 0)])
          [1, 0, 1, 1] 1 1 =
        (fresh422.trainAll
          [([1, 0, 1, 1], 0), ([1, 0, 1, 1], 1), ([1, 0, 1, 1], 0), ([1, 0, 1, 1], 0)]).numRAMs 1 ∧
      ((fresh422.trainAll
        [([1, 0, 1, 1], 0), ([1, 0, 1, 1], 1), ([1, 0, 1, 1], 0), ([1, 0, 1, 1], 0)]).numRAMs 0 :
          Int) = Int.tdiv 4 2 ∧
      ((fresh422.trainAll
        [([1, 0, 1, 1], 0), ([1, 0, 1, 1], 1), ([1, 0, 1, 1], 0), ([1, 0, 1, 1], 0)]).numRAMs 1 :
          Int) = Int.tdiv 4 2 :=
  C11_bleaching 4 2 2 fresh422 [1, 0, 1, 1] NewWiSARD_fresh422 (by decide) (by decide)
    (by decide) (by decide) (by decide)
    [([1, 0, 1, 1], 0), ([1, 0, 1, 1], 1), ([1, 0, 1, 1], 0), ([1, 0, 1, 1], 0)]
    ((List.Perm.cons _ (List.Perm.swap _ _ _)).trans
      (List.Perm.cons _ (List.Perm.cons _ (List.Perm.swap _ _ _))))

end Wisard

namespace Wisard

/-! ## Training commutes -/

/-- Two networks with the same parameters, the same shape and the same map entries in
every unit are equal. -/
theorem WiSARD.ext_entry (u v : WiSARD) (h1 : u.inputSize = v.inputSize)
    (h2 : u.ramSize = v.ramSize) (h3 : u.numClasses = v.numClasses)
    (hl : u.ramNodes.length = v.ramNodes.length) (hn : ∀ c, u.numRAMs c = v.numRAMs c)
    (he : ∀ c r a, u.entry c r a = v.entry c r a) : u = v := by
  cases u with
  | mk un ui ur uc =>
    cases v with
    | mk vn vi vr vc =>
      simp only at h1 h2 h3 hl
      subst h1 h2 h3
      have hnodes : un = vn := by
        apply List.ext_getElem hl
        intro c hc1 hc2
        have hnc := hn c
        simp only [WiSARD.numRAMs, List.getElem?_eq_getElem hc1, List.getElem?_eq_getElem hc2,
          Option.getD_some] at hnc
        apply List.ext_getElem hnc
        intro r hr1 hr2
        have hec := he c r
        simp only [WiSARD.entry, WiSARD.unit, List.getElem?_eq_getElem hc1,
          List.getElem?_eq_getElem hc2, Option.some_bind, List.getElem?_eq_getElem hr1,
          List.getElem?_eq_getElem hr2] at hec
        cases hu : un[c][r] with
        | mk mu =>
          cases hv : vn[c][r] with
          | mk mv =>
            rw [hu, hv] at hec
            have : mu = mv := funext hec
            rw [this]
      rw [hnodes]

/-- Two valid trainings of a well-formed network leave the same state in either
order. -/
theorem WiSARD.Train_comm (w : WiSARD) (hw : WF w) (x₁ : List Int) (c₁ : Int)
    (x₂ : List Int) (c₂ : Int) (hv₁ : w.validSample (x₁, c₁)) (hv₂ : w.validSample (x₂, c₂)) :
    ((w.Train x₁ c₁).1.Train x₂ c₂).1 = ((w.Train x₂ c₂).1.Train x₁ c₁).1 := by
  obtain ⟨a0, a1, alen⟩ := hv₁
  obtain ⟨b0, b1, blen⟩ := hv₂
  simp only at a0 a1 alen b0 b1 blen
  obtain ⟨_, hE1, hC1⟩ := WiSARD.Train_ok w hw x₁ alen c₁ a0 a1
  obtain ⟨_, hE2, hC2⟩ := WiSARD.Train_ok w hw x₂ blen c₂ b0 b1
  obtain ⟨p1, p2, p3, p4⟩ := WiSARD.Train_fields w x₁ c₁
  obtain ⟨q1, q2, q3, q4⟩ := WiSARD.Train_fields w x₂ c₂
  obtain ⟨_, hE12, _⟩ := WiSARD.Train_ok (w.Train x₁ c₁).1 (WiSARD.Train_WF w hw x₁ c₁) x₂
    (by rw [p1]; exact blen) c₂ b0 (by rw [p3]; exact b1)
  obtain ⟨_, hE21, _⟩ := WiSARD.Train_ok (w.Train x₂ c₂).1 (WiSARD.Train_WF w hw x₂ c₂) x₁
    (by rw [q1]; exact alen) c₁ a0 (by rw [q3]; exact a1)
  simp only [WiSARD.Train_numRAMs, WiSARD.Train_address] at hE12 hE21
  obtain ⟨r1, r2, r3, r4⟩ := WiSARD.Train_fields (w.Train x₁ c₁).1 x₂ c₂
  obtain ⟨s1, s2, s3, s4⟩ := WiSARD.Train_fields (w.Train x₂ c₂).1 x₁ c₁
  apply WiSARD.ext_entry
  · rw [r1, p1, s1, q1]
  · rw [r2, p2, s2, q2]
  · rw [r3, p3, s3, q3]
  · rw [r4, p4, s4, q4]
  · intro c
    simp only [WiSARD.Train_numRAMs]
  · intro c r a
    rw [hE12, hE21, hC1, hC2, hE1, hE2]
    by_cases t1 : c = c₁.toNat ∧ r < w.numRAMs c₁.toNat ∧ a = w.address x₁ r
    · by_cases t2 : c = c₂.toNat ∧ r < w.numRAMs c₂.toNat ∧ a = w.address x₂ r
      · simp only [if_pos t1, if_pos t2]
      · simp only [if_pos t1, if_neg t2]
    · by_cases t2 : c = c₂.toNat ∧ r < w.numRAMs c₂.toNat ∧ a = w.address x₂ r
      · simp only [if_neg t1, if_pos t2]
      · simp only [if_neg t1, if_neg t2]

/-- The state after a sequence of valid trainings does not depend on the order of the
samples. -/
theorem WiSARD.trainAll_perm (l₁ l₂ : List (List Int × Int)) (hp : l₁.Perm l₂) (w : WiSARD)
    (hw : WF w) (hvalid : ∀ s ∈ l₁, w.validSample s) : w.trainAll l₁ = w.trainAll l₂ := by
  induction hp generalizing w with
  | nil => rfl
  | cons s _ ih =>
    rw [WiSARD.trainAll_cons, WiSARD.trainAll_cons]
    exact ih _ (WiSARD.Train_WF w hw s.1 s.2)
      (fun t ht => (WiSARD.validSample_Train w s.1 s.2 t).2
        (hvalid t (List.mem_cons_of_mem _ ht)))
  | swap s t l =>
    rw [WiSARD.trainAll_cons, WiSARD.trainAll_cons, WiSARD.trainAll_cons, WiSARD.trainAll_cons]
    have ht := hvalid t (List.mem_cons_self _ _)
    have hs := hvalid s (List.mem_cons_of_mem _ (List.mem_cons_self _ _))
    rw [WiSARD.Train_comm w hw t.1 t.2 s.1 s.2 ht hs]
  | trans h₁ _ ih₁ ih₂ =>
    rw [ih₁ w hw hvalid]
    exact ih₂ w hw (fun s hs => hvalid s ((List.Perm.mem_iff h₁).2 hs))

/-! ## C19 -/

/-- C19: training commutes: for every well-formed network state and every two valid
training samples `(x1, c1)` and `(x2, c2)`, `Train(x1, c1)` followed by `Train(x2, c2)`
leaves exactly the same state, hence the same count for every address in every unit, as
`Train(x2, c2)` followed by `Train(x1, c1)`; and the memory state after a sequence of
valid trainings is the same for every reordering of the sequence. -/
theorem C19_Train_commutes (w : WiSARD) (hw : WF w) :
    (∀ (x₁ : List Int) (c₁ : Int) (x₂ : List Int) (c₂ : Int),
      w.validSample (x₁, c₁) → w.validSample (x₂, c₂) →
      ((w.Train x₁ c₁).1.Train x₂ c₂).1 = ((w.Train x₂ c₂).1.Train x₁ c₁).1 ∧
        ∀ c r a, ((w.Train x₁ c₁).1.Train x₂ c₂).1.count c r a =
          ((w.Train x₂ c₂).1.Train x₁ c₁).1.count c r a) ∧
      ∀ l₁ l₂ : List (List Int × Int), l₁.Perm l₂ → (∀ s ∈ l₁, w.validSample s) →
        w.trainAll l₁ = w.trainAll l₂ ∧
          ∀ c r a, (w.trainAll l₁).count c r a = (w.trainAll l₂).count c r a := by
  constructor
  · intro x₁ c₁ x₂ c₂ hv₁ hv₂
    have h := WiSARD.Train_comm w hw x₁ c₁ x₂ c₂ hv₁ hv₂
    exact ⟨h, fun c r a => by rw [h]⟩
  · intro l₁ l₂ hp hvalid
    have h := WiSARD.trainAll_perm l₁ l₂ hp w hw hvalid
    exact ⟨h, fun c r a => by rw [h]⟩

/-- C19 witness: the network of `NewWiSARD(4, 2, 2)`, the samples `([1, 0, 1, 1], 0)`
and `([1, 0, 0, 1], 1)`, and a sequence of three samples reordered. -/
theorem C19_Train_commutes_witness :
    (((fresh422.Train [1, 0, 1, 1] 0).1.Train [1, 0, 0, 1] 1).1 =
        ((fresh422.Train [1, 0, 0, 1] 1).1.Train [1, 0, 1, 1] 0).1 ∧
      ∀ c r a, ((fresh422.Train [1, 0, 1, 1] 0).1.Train [1, 0, 0, 1] 1).1.count c r a =
        ((fresh422.Train [1, 0, 0, 1] 1).1.Train [1, 0, 1, 1] 0).1.count c r a) ∧
      (fresh422.trainAll [([1, 0, 1, 1], 0), ([1, 0, 0, 1], 1), ([1, 0, 0, 1], 0)] =
          fresh422.trainAll [([1, 0, 0, 1], 1), ([1, 0, 1, 1], 0), ([1, 0, 0, 1], 0)] ∧
        ∀ c r a,
          (fresh422.trainAll
            [([1, 0, 1, 1], 0), ([1, 0, 0, 1], 1), ([1, 0, 0, 1], 0)]).count c r a =
          (fresh422.trainAll
            [([1, 0, 0, 1], 1), ([1, 0, 1, 1], 0), ([1, 0, 0, 1], 0)]).count c r a) :=
  ⟨(C19_Train_commutes fresh422 fresh422_WF).1 [1, 0, 1, 1] 0 [1, 0, 0, 1] 1
      ⟨by decide, by decide, by decide⟩ ⟨by decide, by decide, by decide⟩,
    (C19_Train_commutes fresh422 fresh422_WF).2 _ _ (List.Perm.swap _ _ _)
      (fun s hs => by
        simp only [List.mem_cons, List.mem_singleton, List.not_mem_nil, or_false] at hs
        rcases hs with rfl | rfl | rfl <;> exact ⟨by decide, by decide, by decide⟩)⟩

/-! ## C20 -/

/-- What `buildAddress` returns for a window it can read: the joined renderings of the
window's elements; and for a non-empty window, the window starts at a non-negative
index, has `ramSize` elements, and its element `j` is the input element `start + j`. -/
theorem buildAddress_window (x : List Int) (start ramSize : Int) (a : String)
    (hx : buildAddress x start (start + ramSize) = some a) :
    a = (((x.drop start.toNat).take ramSize.toNat).map Sprintf).foldr (fun s t => s ++ t) "" ∧
      (0 < ramSize.toNat →
        0 ≤ start ∧ ((x.drop start.toNat).take ramSize.toNat).length = ramSize.toNat ∧
          ∀ j : Nat, j < ramSize.toNat →
            index x (start + j) = ((x.drop start.toNat).take ramSize.toNat)[j]?) := by
  unfold buildAddress at hx
  rw [show start + ramSize - start = ramSize by ring] at hx
  have ha := addressLoop_eq_window _ _ _ _ _ hx
  refine ⟨by simpa using ha, ?_⟩
  intro hn
  obtain ⟨h0, hxl⟩ := addressLoop_some_bounds _ _ _ _ _ hx hn
  refine ⟨h0, ?_, fun j hj => index_window x start _ _ h0 hj⟩
  rw [List.length_take, List.length_drop]; omega

/-- C20: for inputs whose elements are all single decimal digits (`0..9`, which
includes binary inputs), the address encoding of `Train` and `Predict` is injective on
windows: the addresses built for a window of two inputs are the same string if and only
if the two windows are equal element by element; so two different digit windows never
share a counter. -/
theorem C20_digit_address_injective (start ramSize : Int) (x y : List Int) (a b : String)
    (hdx : ∀ v ∈ x, 0 ≤ v ∧ v ≤ 9) (hdy : ∀ v ∈ y, 0 ≤ v ∧ v ≤ 9)
    (hx : buildAddress x start (start + ramSize) = some a)
    (hy : buildAddress y start (start + ramSize) = some b) :
    (a = b ↔ (x.drop start.toNat).take ramSize.toNat = (y.drop start.toNat).take ramSize.toNat) ∧
      (a = b ↔ ∀ i, start ≤ i → i < start + ramSize → index x i = index y i) ∧
      ∀ (ram : RAMNode),
        (¬ ∀ i, start ≤ i → i < start + ramSize → index x i = index y i) →
        (ram.Train a).count b = ram.count b := by
  obtain ⟨ha, hxw⟩ := buildAddress_window x start ramSize a hx
  obtain ⟨hb, hyw⟩ := buildAddress_window y start ramSize b hy
  have hlist : a = b ↔
      (x.drop start.toNat).take ramSize.toNat = (y.drop start.toNat).take ramSize.toNat := by
    constructor
    · intro hab
      by_cases hn : 0 < ramSize.toNat
      · apply join_digits_inj
        · intro v hv
          exact hdx v (List.mem_of_mem_drop (List.mem_of_mem_take hv))
        · intro v hv
          exact hdy v (List.mem_of_mem_drop (List.mem_of_mem_take hv))
        · rw [(hxw hn).2.1, (hyw hn).2.1]
        · rw [← ha, ← hb]; exact hab
      · have hz : ramSize.toNat = 0 := by omega
        rw [hz]; simp
    · intro hw
      rw [ha, hb, hw]
  have hidx : ((x.drop start.toNat).take ramSize.toNat =
      (y.drop start.toNat).take ramSize.toNat) ↔
      ∀ i, start ≤ i → i < start + ramSize → index x i = index y i := by
    by_cases hn : 0 < ramSize.toNat
    · obtain ⟨h0, hlx, hix⟩ := hxw hn
      obtain ⟨_, hly, hiy⟩ := hyw hn
      constructor
      · intro hw i hi1 hi2
        have hj : (i - start).toNat < ramSize.toNat := by omega
        have hi : i = start + ((i - start).toNat : Int) := by omega
        rw [hi, hix _ hj, hiy _ hj, hw]
      · intro hag
        apply List.ext_getElem?
        intro j
        by_cases hj : j < ramSize.toNat
        · rw [← hix j hj, ← hiy j hj]
          exact hag _ (by omega) (by omega)
        · rw [List.getElem?_eq_none (by omega), List.getElem?_eq_none (by omega)]
    · have hz : ramSize.toNat = 0 := by omega
      constructor
      · intro _ i hi1 hi2
        omega
      · intro _
        rw [hz]; simp
  refine ⟨hlist, hlist.trans hidx, ?_⟩
  intro ram hne
  have hab : b ≠ a := fun h => hne ((hlist.trans hidx).1 h.symm)
  exact RAMNode.count_Train_of_ne ram hab

/-- C20 witness: the windows `[2, 4)` of the binary inputs `[1, 0, 1, 1]` and
`[1, 0, 0, 1]`. -/
theorem C20_digit_address_injective_witness :
    ("11" = "01" ↔
        (([1, 0, 1, 1] : List Int).drop (2 : Int).toNat).take (2 : Int).toNat =
          (([1, 0, 0, 1] : List Int).drop (2 : Int).toNat).take (2 : Int).toNat) ∧
      ("11" = "01" ↔
        ∀ i, (2 : Int) ≤ i → i < 2 + 2 → index [1, 0, 1, 1] i = index [1, 0, 0, 1] i) ∧
      ∀ (ram : RAMNode),
        (¬ ∀ i, (2 : Int) ≤ i → i < 2 + 2 → index [1, 0, 1, 1] i = index [1, 0, 0, 1] i) →
        (ram.Train "11").count "01" = ram.count "01" :=
  C20_digit_address_injective 2 2 [1, 0, 1, 1] [1, 0, 0, 1] "11" "01" (by decide) (by decide)
    (by decide) (by decide)

end Wisard
